import Mathlib

/-!
# The JSON-file keyring of ipatool (`pkg/keychain/keyring.go`)

A shallow embedding of `JSONKeyring` (constructor, `save`, `Get`, `Set`, `Remove`) together with
the parts of the Go runtime it calls: the `os` file operations, `encoding/json` for the type
`map[string]Item`, `encoding/base64`, `unicode/utf8` and `unicode/utf16`.

Conventions.
* A Go `string` and a `[]byte` are lists of bytes; a nil slice and a nil map are `none`.
* The receiver `k *JSONKeyring` and the file system are passed in and handed back explicitly.
* The mutex `mu` serialises callers and has no effect inside a single caller; it is left out.
* A run-time panic is the outcome `Run.panic`.
* Each definition for the standard library names the Go function it follows. Loops that step
  through their input by a varying number of bytes recurse on a bound, which is the length of
  the input; the section on bounds shows that the bound is never what ends them.
* The file system is a state: the content of each path, and the failures that the environment
  imposes on `os.Stat`, `os.ReadFile` and `os.WriteFile`.
* What a document is, is said apart from the code, by a grammar of JSON and by the shapes of
  the values that fit the types of the store; the scanner and the decoder are shown to accept
  exactly these.
-/

namespace keychain

/-! ## Bytes and strings -/

/-- A byte. -/
abbrev Byte := Fin 256

/-- A Go string: a sequence of bytes, which need not be valid UTF-8. -/
abbrev GoString := List Byte

/-- The byte with the given value, reduced modulo 256. -/
def byte (n : Nat) : Byte := ⟨n % 256, Nat.mod_lt n (by decide)⟩

/-- The bytes of an ASCII string literal. -/
def ascii (s : String) : List Byte := s.data.map (fun c => byte c.toNat)

/-! ## `unicode/utf8` and `unicode/utf16` -/

/-- The rune `utf8.RuneError`, U+FFFD. -/
def RuneError : Nat := 0xFFFD

/-- A continuation byte, `locb ≤ b ≤ hicb`. -/
def isCont (b : Byte) : Bool := decide (0x80 ≤ b.val) && decide (b.val ≤ 0xBF)

/-- Lower bound that `utf8.acceptRanges` puts on the second byte after the lead byte `b0`. -/
def acceptLo (b0 : Byte) : Nat :=
  if b0.val = 0xE0 then 0xA0 else if b0.val = 0xF0 then 0x90 else 0x80

/-- Upper bound that `utf8.acceptRanges` puts on the second byte after the lead byte `b0`. -/
def acceptHi (b0 : Byte) : Nat :=
  if b0.val = 0xED then 0x9F else if b0.val = 0xF4 then 0x8F else 0xBF

/-- The function `utf8.DecodeRune`: the first rune of `p` and its width in bytes. An empty input
gives `(RuneError, 0)`, an invalid or truncated encoding gives `(RuneError, 1)`. -/
def decodeRune : List Byte → Nat × Nat
  | [] => (RuneError, 0)
  | b0 :: rest =>
    if b0.val < 0x80 then (b0.val, 1)
    else if 0xC2 ≤ b0.val ∧ b0.val ≤ 0xDF then
      match rest with
      | b1 :: _ =>
        if isCont b1 then ((b0.val % 32) * 64 + b1.val % 64, 2) else (RuneError, 1)
      | _ => (RuneError, 1)
    else if 0xE0 ≤ b0.val ∧ b0.val ≤ 0xEF then
      match rest with
      | b1 :: b2 :: _ =>
        if acceptLo b0 ≤ b1.val ∧ b1.val ≤ acceptHi b0 ∧ isCont b2 then
          ((b0.val % 16) * 4096 + (b1.val % 64) * 64 + b2.val % 64, 3)
        else (RuneError, 1)
      | _ => (RuneError, 1)
    else if 0xF0 ≤ b0.val ∧ b0.val ≤ 0xF4 then
      match rest with
      | b1 :: b2 :: b3 :: _ =>
        if acceptLo b0 ≤ b1.val ∧ b1.val ≤ acceptHi b0 ∧ isCont b2 ∧ isCont b3 then
          ((b0.val % 8) * 262144 + (b1.val % 64) * 4096 + (b2.val % 64) * 64 + b3.val % 64, 4)
        else (RuneError, 1)
      | _ => (RuneError, 1)
    else (RuneError, 1)

/-- The function `utf8.EncodeRune` (as `utf8.AppendRune` to an empty buffer): a surrogate or a
value above U+10FFFF is written as U+FFFD. -/
def encodeRune (r : Nat) : List Byte :=
  if r ≤ 0x7F then [byte r]
  else if r ≤ 0x7FF then [byte (0xC0 + r / 64), byte (0x80 + r % 64)]
  else if 0x10FFFF < r ∨ (0xD800 ≤ r ∧ r ≤ 0xDFFF) then [0xEF, 0xBF, 0xBD]
  else if r ≤ 0xFFFF then
    [byte (0xE0 + r / 4096), byte (0x80 + r / 64 % 64), byte (0x80 + r % 64)]
  else
    [byte (0xF0 + r / 262144), byte (0x80 + r / 4096 % 64), byte (0x80 + r / 64 % 64),
      byte (0x80 + r % 64)]

/-- Loop of `utf8.Valid`: no position decodes to an encoding error. -/
def validLoop : Nat → List Byte → Bool
  | _, [] => true
  | 0, _ :: _ => false
  | fuel + 1, b :: rest =>
    let d := decodeRune (b :: rest)
    if d.1 = RuneError ∧ d.2 = 1 then false else validLoop fuel ((b :: rest).drop d.2)

/-- The function `utf8.ValidString`. -/
def validUTF8 (s : GoString) : Bool := validLoop s.length s

/-- The function `utf16.IsSurrogate`. -/
def isSurrogate (r : Nat) : Bool := decide (0xD800 ≤ r) && decide (r < 0xE000)

/-- The function `utf16.DecodeRune`; `r2` is `none` where the Go code passes `-1`. -/
def utf16DecodeRune (r1 : Nat) (r2 : Option Nat) : Nat :=
  match r2 with
  | some r2 =>
    if 0xD800 ≤ r1 ∧ r1 < 0xDC00 ∧ 0xDC00 ≤ r2 ∧ r2 < 0xE000 then
      (r1 - 0xD800) * 1024 + (r2 - 0xDC00) + 0x10000
    else RuneError
  | none => RuneError

/-! ## `encoding/base64`, `StdEncoding` -/

/-- The `n`-th character of the standard alphabet `A–Z a–z 0–9 + /`. -/
def b64Char (n : Nat) : Byte :=
  byte (if n < 26 then 0x41 + n else if n < 52 then 0x61 + (n - 26)
        else if n < 62 then 0x30 + (n - 52) else if n = 62 then 0x2B else 0x2F)

/-- The table `decodeMap` of the standard alphabet: the value of a character, if it has one. -/
def b64Val (c : Byte) : Option Nat :=
  if 0x41 ≤ c.val ∧ c.val ≤ 0x5A then some (c.val - 0x41)
  else if 0x61 ≤ c.val ∧ c.val ≤ 0x7A then some (c.val - 0x61 + 26)
  else if 0x30 ≤ c.val ∧ c.val ≤ 0x39 then some (c.val - 0x30 + 52)
  else if c.val = 0x2B then some 62
  else if c.val = 0x2F then some 63
  else none

/-- The function `base64.StdEncoding.AppendEncode` on an empty buffer, with `=` padding. -/
def base64Encode : List Byte → List Byte
  | [] => []
  | [a] => [b64Char (a.val / 4), b64Char (a.val % 4 * 16), 0x3D, 0x3D]
  | [a, b] =>
    [b64Char (a.val / 4), b64Char (a.val % 4 * 16 + b.val / 16), b64Char (b.val % 16 * 4), 0x3D]
  | a :: b :: c :: rest =>
    b64Char (a.val / 4) :: b64Char (a.val % 4 * 16 + b.val / 16) ::
      b64Char (b.val % 16 * 4 + c.val / 64) :: b64Char (c.val % 64) :: base64Encode rest

/-- Quanta of `base64.StdEncoding.Decode` on input from which `\r` and `\n` were removed: four
characters give three bytes; a final quantum may end in `=` or `==`; the encoding is not strict,
so the unused low bits of the last character before the padding are ignored. -/
def base64DecodeQuanta : List Byte → Option (List Byte)
  | [] => some []
  | c0 :: c1 :: c2 :: c3 :: rest =>
    match b64Val c0, b64Val c1 with
    | some v0, some v1 =>
      match b64Val c2, b64Val c3 with
      | some v2, some v3 =>
        (base64DecodeQuanta rest).map
          (fun out => byte (v0 * 4 + v1 / 16) :: byte (v1 % 16 * 16 + v2 / 4) ::
            byte (v2 % 4 * 64 + v3) :: out)
      | some v2, none =>
        if c3.val = 0x3D ∧ rest = [] then
          some [byte (v0 * 4 + v1 / 16), byte (v1 % 16 * 16 + v2 / 4)]
        else none
      | none, _ =>
        if c2.val = 0x3D ∧ c3.val = 0x3D ∧ rest = [] then some [byte (v0 * 4 + v1 / 16)]
        else none
    | _, _ => none
  | _ => none

/-- The function `base64.StdEncoding.Decode`: `\r` and `\n` are skipped wherever they stand, the
rest is decoded quantum by quantum; `none` is a `CorruptInputError`. -/
def base64Decode (src : List Byte) : Option (List Byte) :=
  base64DecodeQuanta (src.filter (fun c => !(decide (c.val = 0x0A) || decide (c.val = 0x0D))))

/-! ## The record and the map -/

/-- The struct `Item`. `Data` is `none` for a nil slice. -/
structure Item where
  Key : GoString
  Data : Option (List Byte)
  Label : GoString
  Description : GoString
  deriving DecidableEq

/-- The zero value `Item{}`. -/
def Item.zero : Item := ⟨[], none, [], []⟩

/-- A non-nil `map[string]Item`, as a list of entries in which the first entry of a key is the
one that counts; an entry behind it under the same key can never be observed. -/
abbrev GoMap := List (GoString × Item)

/-- The map read `m[key]` with its `ok` flag; reading a nil map finds nothing. -/
def mapLookup (m : Option GoMap) (key : GoString) : Option Item :=
  match m with
  | none => none
  | some es => (es.find? (fun e => e.1 = key)).map (fun e => e.2)

/-- The assignment `m[key] = item` on a non-nil map. -/
def mapInsert (es : GoMap) (key : GoString) (item : Item) : GoMap :=
  (key, item) :: es.filter (fun e => e.1 ≠ key)

/-- The builtin `delete(m, key)`; on a nil map it does nothing. -/
def mapDelete (m : Option GoMap) (key : GoString) : Option GoMap :=
  m.map (fun es => es.filter (fun e => e.1 ≠ key))

/-- The order of `strings.Compare`, as "not greater": bytewise lexicographic. -/
def strLE : GoString → GoString → Bool
  | [], _ => true
  | _ :: _, [] => false
  | a :: as, b :: bs => decide (a.val < b.val) || (decide (a.val = b.val) && strLE as bs)

/-- The keys of a map, each once, in the order in which `json.Marshal` writes them. -/
def sortedKeys (es : GoMap) : List GoString :=
  ((es.map (fun e => e.1)).dedup).insertionSort (fun a b => strLE a b = true)

/-- The entries of a map, each key once with the value a read finds, in sorted key order. -/
def sortedEntries (es : GoMap) : List (GoString × Item) :=
  (sortedKeys es).filterMap (fun k => (mapLookup (some es) k).map (fun it => (k, it)))

/-! ## `encoding/json`: encoding -/

/-- The digit `"0123456789abcdef"[n]`. -/
def hexDigit (n : Nat) : Byte := byte (if n < 10 then 0x30 + n else 0x61 + (n - 10))

/-- The table `htmlSafeSet`: the ASCII bytes written as they are, which is every byte from
0x20 to 0x7F except the quote, the backslash and the characters less-than, greater-than and
ampersand. -/
def htmlSafe (b : Byte) : Bool :=
  decide (0x20 ≤ b.val) && decide (b.val < 0x80) && decide (b.val ≠ 0x22) &&
    decide (b.val ≠ 0x5C) && decide (b.val ≠ 0x3C) && decide (b.val ≠ 0x3E) &&
    decide (b.val ≠ 0x26)

/-- What `appendString` writes for an ASCII byte outside `htmlSafeSet` (as of Go 1.22; earlier
releases write backspace and form feed as `\u0008` and `\u000c`, which the decoder reads
alike). -/
def escapeByte (b : Byte) : List Byte :=
  if b.val = 0x5C ∨ b.val = 0x22 then [0x5C, b]
  else if b.val = 0x08 then [0x5C, 0x62]
  else if b.val = 0x0C then [0x5C, 0x66]
  else if b.val = 0x0A then [0x5C, 0x6E]
  else if b.val = 0x0D then [0x5C, 0x72]
  else if b.val = 0x09 then [0x5C, 0x74]
  else [0x5C, 0x75, 0x30, 0x30, hexDigit (b.val / 16), hexDigit (b.val % 16)]

/-- The loop of `appendString` with `escapeHTML` set, between the two quotes: a safe ASCII byte
is copied, another ASCII byte is escaped, a byte that starts no valid UTF-8 encoding is written
as the escape of U+FFFD, U+2028 and U+2029 are written as escapes and every other rune is copied. -/
def appendStringLoop : Nat → List Byte → List Byte
  | _, [] => []
  | 0, _ :: _ => []
  | fuel + 1, b :: rest =>
    if b.val < 0x80 then
      (if htmlSafe b then [b] else escapeByte b) ++ appendStringLoop fuel rest
    else
      let d := decodeRune (b :: rest)
      if d.1 = RuneError ∧ d.2 = 1 then
        [0x5C, 0x75, 0x66, 0x66, 0x66, 0x64] ++ appendStringLoop fuel rest
      else if d.1 = 0x2028 ∨ d.1 = 0x2029 then
        [0x5C, 0x75, 0x32, 0x30, 0x32, hexDigit (d.1 % 16)] ++
          appendStringLoop fuel ((b :: rest).drop d.2)
      else (b :: rest).take d.2 ++ appendStringLoop fuel ((b :: rest).drop d.2)

/-- The function `appendString` of the encoder on an empty buffer: the JSON string literal of a
Go string. -/
def appendString (s : GoString) : List Byte :=
  [0x22] ++ appendStringLoop s.length s ++ [0x22]

/-- The encoder of a `[]byte`, `encodeByteSlice`: `null` for a nil slice, else the base64 text
in quotes. -/
def encodeByteSlice : Option (List Byte) → List Byte
  | none => ascii "null"
  | some bs => [0x22] ++ base64Encode bs ++ [0x22]

/-- One `Item` as `json.MarshalIndent(_, "", "  ")` lays it out at nesting depth one: the four
fields in declaration order under their Go names, one per line, indented by four spaces. -/
def encodeItem (it : Item) : List Byte :=
  ascii "\x7b\n    \"Key\": " ++ appendString it.Key ++
  ascii ",\n    \"Data\": " ++ encodeByteSlice it.Data ++
  ascii ",\n    \"Label\": " ++ appendString it.Label ++
  ascii ",\n    \"Description\": " ++ appendString it.Description ++
  ascii "\n  \x7d"

/-- One map entry: the key as a string literal, a colon and a space, and the item. -/
def encodeEntry (e : GoString × Item) : List Byte :=
  ascii "  " ++ appendString e.1 ++ ascii ": " ++ encodeItem e.2

/-- The function `json.MarshalIndent(m, "", "  ")` for `m : map[string]Item`. A nil map is
`null`, an empty map is an empty pair of braces, and otherwise the entries stand in sorted key
order, separated by a comma and a line break. For this type the encoder has no failing case
(no channel, function, cyclic or non-finite value can occur), so the result is always a
document; the error result is kept because `save` tests it. -/
def MarshalIndent (m : Option GoMap) : Except Unit (List Byte) :=
  match m with
  | none => .ok (ascii "null")
  | some es =>
    match sortedEntries es with
    | [] => .ok (ascii "\x7b\x7d")
    | e :: rest =>
      .ok (ascii "\x7b\n" ++ encodeEntry e ++
        (rest.map (fun e => ascii ",\n" ++ encodeEntry e)).flatten ++ ascii "\n\x7d")

/-! ## `encoding/json`: decoding -/

/-- A JSON value as the scanner of `encoding/json` delimits it. A string is held unquoted, a
number as the text of its literal, an object as its members in document order. -/
inductive JSON where
  | null
  | bool (b : Bool)
  | num (lit : List Byte)
  | str (s : GoString)
  | arr (elems : List JSON)
  | obj (members : List (GoString × JSON))

/-- The errors of `json.Unmarshal`: `*json.SyntaxError`, `*json.UnmarshalTypeError` and the
`base64.CorruptInputError` of a byte-slice field. `outOfFuel` belongs to the recursion bound of
this embedding and is never the result of `Unmarshal` on an input. -/
inductive JsonError where
  | SyntaxError
  | UnmarshalTypeError
  | CorruptInputError
  | outOfFuel
  deriving DecidableEq

/-- The function `isSpace` of the scanner. -/
def isSpace (c : Byte) : Bool :=
  decide (c.val = 0x20) || decide (c.val = 0x09) || decide (c.val = 0x0D) || decide (c.val = 0x0A)

/-- Drops leading white space. -/
def skipSpace : List Byte → List Byte
  | [] => []
  | c :: rest => if isSpace c then skipSpace rest else c :: rest

/-- A decimal digit. -/
def isDigit (c : Byte) : Bool := decide (0x30 ≤ c.val) && decide (c.val ≤ 0x39)

/-- The value of a hexadecimal digit, in either case. -/
def hexVal (c : Byte) : Option Nat :=
  if 0x30 ≤ c.val ∧ c.val ≤ 0x39 then some (c.val - 0x30)
  else if 0x61 ≤ c.val ∧ c.val ≤ 0x66 then some (c.val - 0x61 + 10)
  else if 0x41 ≤ c.val ∧ c.val ≤ 0x46 then some (c.val - 0x41 + 10)
  else none

/-- The characters that may follow a backslash besides `u`: the quote, the backslash, the slash
and the letters b, f, n, r, t. -/
def isSimpleEscape (e : Byte) : Bool :=
  decide (e.val = 0x22) || decide (e.val = 0x5C) || decide (e.val = 0x2F) ||
    decide (e.val = 0x62) || decide (e.val = 0x66) || decide (e.val = 0x6E) ||
    decide (e.val = 0x72) || decide (e.val = 0x74)

/-- The scanner inside a string literal, entered after the opening quote: the text up to the
closing quote and the input behind it. A control character, an unknown escape, a `\u` without
four hexadecimal digits or the end of input is a syntax error (`none`). -/
def scanString : List Byte → Option (List Byte × List Byte)
  | [] => none
  | c :: rest =>
    if c.val = 0x22 then some ([], rest)
    else if c.val = 0x5C then
      match rest with
      | [] => none
      | e :: rest1 =>
        if isSimpleEscape e then
          (scanString rest1).map (fun r => (c :: e :: r.1, r.2))
        else if e.val = 0x75 then
          match rest1 with
          | h1 :: h2 :: h3 :: h4 :: rest2 =>
            if (hexVal h1).isSome ∧ (hexVal h2).isSome ∧ (hexVal h3).isSome ∧
                (hexVal h4).isSome then
              (scanString rest2).map (fun r => (c :: e :: h1 :: h2 :: h3 :: h4 :: r.1, r.2))
            else none
          | _ => none
        else none
    else if c.val < 0x20 then none
    else (scanString rest).map (fun r => (c :: r.1, r.2))

/-- The function `getu4`: the value of a `\uXXXX` escape at the head of the input (`none` where
the Go code returns `-1`). -/
def getu4 : List Byte → Option Nat
  | b :: u :: h1 :: h2 :: h3 :: h4 :: _ =>
    if b.val = 0x5C ∧ u.val = 0x75 then
      match hexVal h1, hexVal h2, hexVal h3, hexVal h4 with
      | some x1, some x2, some x3, some x4 => some (((x1 * 16 + x2) * 16 + x3) * 16 + x4)
      | _, _, _, _ => none
    else none
  | _ => none

/-- The loop of `unquoteBytes` over the text between the quotes. Escapes are resolved, a
surrogate pair of `\u` escapes is combined and a lone surrogate becomes U+FFFD, and every other
non-ASCII rune is decoded and written again, which turns each byte that starts no valid UTF-8
encoding into U+FFFD. (The Go function first returns the text unchanged when it holds no
backslash, quote, control character or invalid UTF-8; this loop gives that same result.) -/
def unquoteLoop : Nat → List Byte → Option (List Byte)
  | _, [] => some []
  | 0, _ :: _ => none
  | fuel + 1, c :: rest =>
    if c.val = 0x5C then
      match rest with
      | [] => none
      | e :: rest1 =>
        if e.val = 0x22 ∨ e.val = 0x5C ∨ e.val = 0x2F ∨ e.val = 0x27 then
          (unquoteLoop fuel rest1).map (fun t => e :: t)
        else if e.val = 0x62 then (unquoteLoop fuel rest1).map (fun t => 0x08 :: t)
        else if e.val = 0x66 then (unquoteLoop fuel rest1).map (fun t => 0x0C :: t)
        else if e.val = 0x6E then (unquoteLoop fuel rest1).map (fun t => 0x0A :: t)
        else if e.val = 0x72 then (unquoteLoop fuel rest1).map (fun t => 0x0D :: t)
        else if e.val = 0x74 then (unquoteLoop fuel rest1).map (fun t => 0x09 :: t)
        else if e.val = 0x75 then
          match getu4 (c :: rest) with
          | none => none
          | some rr =>
            let after := rest1.drop 4
            if isSurrogate rr then
              let dec := utf16DecodeRune rr (getu4 after)
              if dec ≠ RuneError then
                (unquoteLoop fuel (after.drop 6)).map (fun t => encodeRune dec ++ t)
              else (unquoteLoop fuel after).map (fun t => encodeRune RuneError ++ t)
            else (unquoteLoop fuel after).map (fun t => encodeRune rr ++ t)
        else none
    else if c.val = 0x22 ∨ c.val < 0x20 then none
    else if c.val < 0x80 then (unquoteLoop fuel rest).map (fun t => c :: t)
    else
      let d := decodeRune (c :: rest)
      (unquoteLoop fuel ((c :: rest).drop d.2)).map (fun t => encodeRune d.1 ++ t)

/-- The function `unquoteBytes` on the text between the quotes of a literal. -/
def unquote (raw : List Byte) : Option GoString := unquoteLoop raw.length raw

/-- One or more digits at the head of the input, and the input behind them. -/
def scanDigits (s : List Byte) : Option (List Byte × List Byte) :=
  match s.span isDigit with
  | ([], _) => none
  | (ds, rest) => some (ds, rest)

/-- The integer part of a number: a single `0`, or a digit from 1 to 9 and any further digits. -/
def scanInt : List Byte → Option (List Byte × List Byte)
  | [] => none
  | c :: rest =>
    if c.val = 0x30 then some ([c], rest)
    else if 0x31 ≤ c.val ∧ c.val ≤ 0x39 then some (c :: (rest.span isDigit).1, (rest.span isDigit).2)
    else none

/-- The optional fraction of a number: a dot and one or more digits. -/
def scanFrac : List Byte → Option (List Byte × List Byte)
  | [] => some ([], [])
  | c :: rest =>
    if c.val = 0x2E then (scanDigits rest).map (fun r => (c :: r.1, r.2))
    else some ([], c :: rest)

/-- The optional exponent of a number: `e` or `E`, an optional sign and one or more digits. -/
def scanExp : List Byte → Option (List Byte × List Byte)
  | [] => some ([], [])
  | c :: rest =>
    if c.val = 0x65 ∨ c.val = 0x45 then
      match rest with
      | [] => none
      | g :: rest1 =>
        if g.val = 0x2B ∨ g.val = 0x2D then
          (scanDigits rest1).map (fun r => (c :: g :: r.1, r.2))
        else (scanDigits (g :: rest1)).map (fun r => (c :: r.1, r.2))
    else some ([], c :: rest)

/-- The scanner on a number literal, entered at its first character (a minus sign or a digit):
the literal and the input behind it. -/
def scanNumber (s : List Byte) : Option (List Byte × List Byte) :=
  let signed : List Byte × List Byte :=
    match s with
    | c :: rest => if c.val = 0x2D then ([c], rest) else ([], s)
    | [] => ([], [])
  match scanInt signed.2 with
  | none => none
  | some (i, s1) =>
    match scanFrac s1 with
    | none => none
    | some (f, s2) =>
      match scanExp s2 with
      | none => none
      | some (e, s3) => some (signed.1 ++ i ++ f ++ e, s3)

/-- The input behind the literal `lit`, if the input starts with it. -/
def dropLit : List Byte → List Byte → Option (List Byte)
  | [], s => some s
  | _ :: _, [] => none
  | l :: ls, c :: cs => if l = c then dropLit ls cs else none

/-- The constant `maxNestingDepth` of the scanner. -/
def maxNestingDepth : Nat := 10000

mutual

/-- The scanner on a value: white space, then an object, an array, a string, a number or one of
the three literals. `depth` counts the enclosing objects and arrays; opening one more than
`maxNestingDepth` is a syntax error. The result is the value and the input behind it. -/
def parseValue : Nat → Nat → List Byte → Except JsonError (JSON × List Byte)
  | 0, _, _ => .error .outOfFuel
  | fuel + 1, depth, s =>
    match skipSpace s with
    | [] => .error .SyntaxError
    | c :: rest =>
      if c.val = 0x7B then
        if maxNestingDepth ≤ depth then .error .SyntaxError
        else
          match skipSpace rest with
          | [] => .error .SyntaxError
          | d :: rest1 =>
            if d.val = 0x7D then .ok (.obj [], rest1)
            else
              match parseMembers fuel (depth + 1) (d :: rest1) with
              | .error e => .error e
              | .ok (ms, rest2) => .ok (.obj ms, rest2)
      else if c.val = 0x5B then
        if maxNestingDepth ≤ depth then .error .SyntaxError
        else
          match skipSpace rest with
          | [] => .error .SyntaxError
          | d :: rest1 =>
            if d.val = 0x5D then .ok (.arr [], rest1)
            else
              match parseElems fuel (depth + 1) (d :: rest1) with
              | .error e => .error e
              | .ok (vs, rest2) => .ok (.arr vs, rest2)
      else if c.val = 0x22 then
        match scanString rest with
        | none => .error .SyntaxError
        | some (raw, rest1) =>
          match unquote raw with
          | none => .error .SyntaxError
          | some t => .ok (.str t, rest1)
      else if c.val = 0x2D ∨ isDigit c then
        match scanNumber (c :: rest) with
        | none => .error .SyntaxError
        | some (lit, rest1) => .ok (.num lit, rest1)
      else if c.val = 0x74 then
        match dropLit (ascii "rue") rest with
        | none => .error .SyntaxError
        | some rest1 => .ok (.bool true, rest1)
      else if c.val = 0x66 then
        match dropLit (ascii "alse") rest with
        | none => .error .SyntaxError
        | some rest1 => .ok (.bool false, rest1)
      else if c.val = 0x6E then
        match dropLit (ascii "ull") rest with
        | none => .error .SyntaxError
        | some rest1 => .ok (.null, rest1)
      else .error .SyntaxError

/-- The scanner on the members of a non-empty object, entered at the first character of a key:
a string, a colon, a value, and then either a comma and further members or the closing brace.
White space may stand around each of them. -/
def parseMembers : Nat → Nat → List Byte → Except JsonError (List (GoString × JSON) × List Byte)
  | 0, _, _ => .error .outOfFuel
  | fuel + 1, depth, s =>
    match s with
    | [] => .error .SyntaxError
    | q :: rest =>
      if q.val = 0x22 then
        match scanString rest with
        | none => .error .SyntaxError
        | some (raw, rest1) =>
          match unquote raw with
          | none => .error .SyntaxError
          | some key =>
            match skipSpace rest1 with
            | [] => .error .SyntaxError
            | colon :: rest2 =>
              if colon.val = 0x3A then
                match parseValue fuel depth rest2 with
                | .error e => .error e
                | .ok (v, rest3) =>
                  match skipSpace rest3 with
                  | [] => .error .SyntaxError
                  | t :: rest4 =>
                    if t.val = 0x2C then
                      match parseMembers fuel depth (skipSpace rest4) with
                      | .error e => .error e
                      | .ok (ms, rest5) => .ok ((key, v) :: ms, rest5)
                    else if t.val = 0x7D then .ok ([(key, v)], rest4)
                    else .error .SyntaxError
              else .error .SyntaxError
      else .error .SyntaxError

/-- The scanner on the elements of a non-empty array, entered at the first element: a value,
and then either a comma and further elements or the closing bracket. -/
def parseElems : Nat → Nat → List Byte → Except JsonError (List JSON × List Byte)
  | 0, _, _ => .error .outOfFuel
  | fuel + 1, depth, s =>
    match parseValue fuel depth s with
    | .error e => .error e
    | .ok (v, rest1) =>
      match skipSpace rest1 with
      | [] => .error .SyntaxError
      | t :: rest2 =>
        if t.val = 0x2C then
          match parseElems fuel depth rest2 with
          | .error e => .error e
          | .ok (vs, rest3) => .ok (v :: vs, rest3)
        else if t.val = 0x5D then .ok ([v], rest2)
        else .error .SyntaxError

end

/-- The function `checkValid` together with the delimiting of the value: the input must be one
JSON value with nothing but white space around it. -/
def parseDocument (data : List Byte) : Except JsonError JSON :=
  match parseValue (2 * data.length + 2) 0 data with
  | .error e => .error e
  | .ok (v, rest) => if skipSpace rest = [] then .ok v else .error .SyntaxError

/-- Whether a JSON value is the literal `null`. -/
def JSON.isNull : JSON → Bool
  | .null => true
  | _ => false

/-- The fields of `Item`. -/
inductive Field where
  | Key
  | Data
  | Label
  | Description
  deriving DecidableEq

/-- The function `foldRune` as far as it matters for matching the four field names, which are
ASCII: a lower-case ASCII letter folds to its upper-case letter, U+212A (Kelvin sign) to `K` and
U+017F (long s) to `S`; these are the only runes whose fold is an ASCII letter. Any other rune is
left as it is here, so it differs from every character of a folded field name, as it does in
Go. -/
def foldRune (r : Nat) : Nat :=
  if 0x61 ≤ r ∧ r ≤ 0x7A then r - 0x20
  else if r = 0x212A then 0x4B
  else if r = 0x17F then 0x53
  else r

/-- The loop of `appendFoldedName`: the name rune by rune, each folded and written again. -/
def foldNameLoop : Nat → List Byte → List Byte
  | _, [] => []
  | 0, _ :: _ => []
  | fuel + 1, c :: rest =>
    if c.val < 0x80 then byte (foldRune c.val) :: foldNameLoop fuel rest
    else
      let d := decodeRune (c :: rest)
      encodeRune (foldRune d.1) ++ foldNameLoop fuel ((c :: rest).drop d.2)

/-- The function `foldName`. -/
def foldName (key : GoString) : List Byte := foldNameLoop key.length key

/-- The field that a member name of a JSON object selects: the field of exactly that name, and
failing that the field whose name equals it under case folding; `none` for an unknown name. -/
def fieldOf (key : GoString) : Option Field :=
  if key = ascii "Key" then some .Key
  else if key = ascii "Data" then some .Data
  else if key = ascii "Label" then some .Label
  else if key = ascii "Description" then some .Description
  else if foldName key = ascii "KEY" then some .Key
  else if foldName key = ascii "DATA" then some .Data
  else if foldName key = ascii "LABEL" then some .Label
  else if foldName key = ascii "DESCRIPTION" then some .Description
  else none

/-- The decoder storing a JSON value into a field of kind `string` that holds `cur`: a JSON
string is assigned, `null` leaves the field as it is, anything else is a type error. -/
def storeString (cur : GoString) : JSON → Except JsonError GoString
  | .str t => .ok t
  | .null => .ok cur
  | _ => .error .UnmarshalTypeError

/-- The call `strconv.ParseUint(lit, 10, 64)` followed by the overflow test for `uint8`, on the
text of a JSON number: only an unsigned integer literal below 256 is stored. -/
def parseUint8 (lit : List Byte) : Option Byte :=
  if lit ≠ [] ∧ lit.all isDigit = true then
    let n := lit.foldl (fun acc c => acc * 10 + (c.val - 0x30)) 0
    if n < 256 then some (byte n) else none
  else none

/-- The decoder storing the elements of a JSON array into a `[]byte`, one element after the
other from index 0. `back` is the backing array of the slice from the index at hand on: the
present elements and behind them the bytes left from an earlier, longer value; behind those the
array holds zeros, also after it has been grown. A number below 256 is stored, `null` leaves the
element as the backing array has it, anything else is a type error. The result is the elements
of the slice after the call. -/
def storeElems : List Byte → List JSON → Except JsonError (List Byte)
  | _, [] => .ok []
  | back, e :: es =>
    let stored : Except JsonError Byte :=
      match e with
      | .num lit =>
        match parseUint8 lit with
        | some b => .ok b
        | none => .error .UnmarshalTypeError
      | .null => .ok (back.headD 0)
      | _ => .error .UnmarshalTypeError
    match stored with
    | .error err => .error err
    | .ok b =>
      match storeElems back.tail es with
      | .error err => .error err
      | .ok bs => .ok (b :: bs)

/-- The decoder storing a JSON value into a field of type `[]byte` that holds `cur`, with
`spare` the bytes of its backing array behind its length. A JSON string is decoded as base64
into a new array; `null` sets the nil slice; an empty array sets a new empty slice; an array
with elements is stored element by element into the backing array at hand, and the slice is cut
to their number, which leaves what lies behind them as the spare bytes; anything else is a type
error. The result is the field and its spare bytes. -/
def storeBytes (cur : Option (List Byte)) (spare : List Byte) :
    JSON → Except JsonError (Option (List Byte) × List Byte)
  | .str t =>
    match base64Decode t with
    | some bs => .ok (some bs, [])
    | none => .error .CorruptInputError
  | .null => .ok (none, [])
  | .arr [] => .ok (some [], [])
  | .arr (e :: es) =>
    match storeElems (cur.getD [] ++ spare) (e :: es) with
    | .error err => .error err
    | .ok bs => .ok (some bs, (cur.getD [] ++ spare).drop (e :: es).length)
  | _ => .error .UnmarshalTypeError

/-- The decoder on one member of a record object: the value goes to the field the name selects,
and a member with an unknown name is skipped. The struct is passed with the spare bytes of its
field `Data`. -/
def storeMember (st : Item × List Byte) (m : GoString × JSON) :
    Except JsonError (Item × List Byte) :=
  match fieldOf m.1 with
  | none => .ok st
  | some .Key => (storeString st.1.Key m.2).map (fun t => ({ st.1 with Key := t }, st.2))
  | some .Data => (storeBytes st.1.Data st.2 m.2).map (fun r => ({ st.1 with Data := r.1 }, r.2))
  | some .Label => (storeString st.1.Label m.2).map (fun t => ({ st.1 with Label := t }, st.2))
  | some .Description =>
    (storeString st.1.Description m.2).map (fun t => ({ st.1 with Description := t }, st.2))

/-- The members of a record object stored one after the other into the same struct. -/
def storeMembers : Item × List Byte → List (GoString × JSON) → Except JsonError (Item × List Byte)
  | st, [] => .ok st
  | st, m :: ms =>
    match storeMember st m with
    | .error err => .error err
    | .ok st1 => storeMembers st1 ms

/-- The decoder storing a JSON value into a map element, which it has set to the zero `Item`
before: an object is stored member by member, `null` leaves the zero value and anything else is
a type error. -/
def decodeItem : JSON → Except JsonError Item
  | .obj members => (storeMembers (Item.zero, []) members).map Prod.fst
  | .null => .ok Item.zero
  | _ => .error .UnmarshalTypeError

/-- The members of the top-level object stored into the map one after the other; a later
member of the same name replaces an earlier one. -/
def decodeEntries : GoMap → List (GoString × JSON) → Except JsonError GoMap
  | es, [] => .ok es
  | es, m :: ms =>
    match decodeItem m.2 with
    | .error err => .error err
    | .ok it => decodeEntries (mapInsert es m.1 it) ms

/-- The function `json.Unmarshal(data, &m)` for `m : map[string]Item` holding `cur`. The input
is checked to be one well-formed JSON value first. The value `null` sets `m` to the nil map; an
object is stored into the map at hand, which is made first if `m` is nil; any other value is a
type error. A type error or a base64 error does not stop the Go decoder, which returns the first
such error once it is through; that is the error returned here. -/
def Unmarshal (data : List Byte) (cur : Option GoMap) : Except JsonError (Option GoMap) :=
  match parseDocument data with
  | .error err => .error err
  | .ok .null => .ok none
  | .ok (.obj members) =>
    match decodeEntries (cur.getD []) members with
    | .error err => .error err
    | .ok es => .ok (some es)
  | .ok _ => .error .UnmarshalTypeError

/-! ## The package `os` -/

/-- Error numbers of the system calls behind `os.Stat`, `os.ReadFile` and `os.WriteFile`. -/
inductive Errno where
  | ENOENT
  | EACCES
  | EISDIR
  | ENOSPC
  | EIO
  deriving DecidableEq

/-- The errors the keyring returns. `ErrNotExist` is the sentinel `os.ErrNotExist`; `PathError`
is the `*fs.PathError` of a failed file operation; the other two carry an error of
`json.MarshalIndent` or `json.Unmarshal`. -/
inductive GoError where
  | ErrNotExist
  | PathError (errno : Errno)
  | MarshalError
  | UnmarshalError (err : JsonError)
  deriving DecidableEq

/-- The file system as the keyring sees it: the content of every path that exists, and for each
of the three operations which calls the environment makes fail. A failed write names the error
and what it leaves at the path. -/
structure FS where
  files : GoString → Option (List Byte)
  statFault : GoString → Option Errno
  readFault : GoString → Option Errno
  writeFault : GoString → List Byte → Option (Errno × Option (List Byte))

/-- The call `os.Stat(path)`, keeping only whether it failed. -/
def osStat (fs : FS) (path : GoString) : Option GoError × FS :=
  match fs.statFault path with
  | some errno => (some (.PathError errno), fs)
  | none =>
    match fs.files path with
    | none => (some (.PathError .ENOENT), fs)
    | some _ => (none, fs)

/-- The call `os.ReadFile(path)`. -/
def osReadFile (fs : FS) (path : GoString) : Except GoError (List Byte) × FS :=
  match fs.readFault path with
  | some errno => (.error (.PathError errno), fs)
  | none =>
    match fs.files path with
    | none => (.error (.PathError .ENOENT), fs)
    | some content => (.ok content, fs)

/-- The call `os.WriteFile(path, data, 0600)`: on success the path holds exactly `data`. -/
def osWriteFile (fs : FS) (path : GoString) (data : List Byte) : Option GoError × FS :=
  match fs.writeFault path data with
  | some (errno, left) =>
    (some (.PathError errno), { fs with files := Function.update fs.files path left })
  | none => (none, { fs with files := Function.update fs.files path (some data) })

/-! ## The keyring -/

/-- The struct `JSONKeyring` without its mutex. `data` is `none` for the nil map. -/
structure JSONKeyring where
  filePath : GoString
  data : Option GoMap
  deriving DecidableEq

/-- The outcome of a call that may panic. -/
inductive Run (α : Type) where
  | ret (a : α)
  | panic

/-- The function `NewJSONKeyring`. -/
def NewJSONKeyring (filePath : GoString) (fs : FS) : Except GoError JSONKeyring × FS :=
  let keyring : JSONKeyring := { filePath := filePath, data := some [] }
  match osStat fs filePath with
  | (none, fs1) =>
    match osReadFile fs1 filePath with
    | (.error err, fs2) => (.error err, fs2)
    | (.ok fileData, fs2) =>
      match Unmarshal fileData keyring.data with
      | .error err => (.error (.UnmarshalError err), fs2)
      | .ok data => (.ok { keyring with data := data }, fs2)
  | (some _, fs1) => (.ok keyring, fs1)

/-- The method `save`. -/
def JSONKeyring.save (k : JSONKeyring) (fs : FS) : Option GoError × FS :=
  match MarshalIndent k.data with
  | .error _ => (some .MarshalError, fs)
  | .ok data => osWriteFile fs k.filePath data

/-- The method `Get`. -/
def JSONKeyring.Get (k : JSONKeyring) (key : GoString) : Item × Option GoError :=
  match mapLookup k.data key with
  | none => (Item.zero, some .ErrNotExist)
  | some item => (item, none)

/-- The method `Set`. Assigning to an entry of a nil map panics. -/
def JSONKeyring.Set (k : JSONKeyring) (item : Item) (fs : FS) :
    Run (JSONKeyring × Option GoError × FS) :=
  match k.data with
  | none => .panic
  | some es =>
    let k1 : JSONKeyring := { k with data := some (mapInsert es item.Key item) }
    .ret (k1, k1.save fs)

/-- The method `Remove`. -/
def JSONKeyring.Remove (k : JSONKeyring) (key : GoString) (fs : FS) :
    JSONKeyring × Option GoError × FS :=
  let k1 : JSONKeyring := { k with data := mapDelete k.data key }
  (k1, k1.save fs)

/-- A call of the store made by some caller. -/
inductive Op where
  | set (item : Item)
  | remove (key : GoString)

/-- A sequence of `Set` and `Remove` calls made one after the other on the same store, whatever
error each of them returns. -/
def applyOps : List Op → JSONKeyring → FS → Run (JSONKeyring × FS)
  | [], k, fs => .ret (k, fs)
  | .set item :: ops, k, fs =>
    match k.Set item fs with
    | .panic => .panic
    | .ret (k1, _, fs1) => applyOps ops k1 fs1
  | .remove key :: ops, k, fs => applyOps ops (k.Remove key fs).1 (k.Remove key fs).2.2

/-! ## Notions used in the proofs -/

/-- A chunk of literal text that the string scanner passes over. -/
def ScanChunk (p : List Byte) : Prop :=
  ∀ X, scanString (p ++ X) = (scanString X).map (fun r => (p ++ r.1, r.2))

/-- A chunk of literal text that `unquoteLoop` turns into the given bytes in one step. -/
def UnqChunk (chunk bytes : List Byte) : Prop :=
  ∀ f X, unquoteLoop (f + 1) (chunk ++ X) = (unquoteLoop f X).map (fun t => bytes ++ t)

/-- What the member scanner does behind a member name and its colon. -/
def afterName (fuel depth : Nat) (name : GoString) (tail : List Byte) :
    Except JsonError (List (GoString × JSON) × List Byte) :=
  match parseValue fuel depth tail with
  | .error e => .error e
  | .ok (v, rest3) =>
    match skipSpace rest3 with
    | [] => .error .SyntaxError
    | t :: rest4 =>
      if t.val = 0x2C then
        match parseMembers fuel depth (skipSpace rest4) with
        | .error e => .error e
        | .ok (ms, rest5) => .ok ((name, v) :: ms, rest5)
      else if t.val = 0x7D then .ok ([(name, v)], rest4)
      else .error .SyntaxError

/-- The JSON value that the encoder writes for a `Data` field. -/
def dataJSON : Option (List Byte) → JSON
  | none => .null
  | some bs => .str (base64Encode bs)

/-- The JSON value that the encoder writes for an `Item`. -/
def itemJSON (it : Item) : JSON :=
  .obj [(ascii "Key", .str it.Key), (ascii "Data", dataJSON it.Data),
    (ascii "Label", .str it.Label), (ascii "Description", .str it.Description)]

/-- The strings of an `Item` are valid UTF-8. -/
def Item.validStrings (it : Item) : Prop :=
  validUTF8 it.Key = true ∧ validUTF8 it.Label = true ∧ validUTF8 it.Description = true

/-- The text behind the first entry of a document: the further entries, each behind a comma and
a line break, and the closing brace on a line of its own. -/
def entriesTail (es : List (GoString × Item)) (rest : List Byte) : List Byte :=
  (es.map (fun e => ascii ",\n" ++ encodeEntry e)).flatten ++ (0x0A :: 0x7D :: rest)

/-- Every key of the map, and every string of a record found under a key, is valid UTF-8. -/
def MapValid (m : Option GoMap) : Prop :=
  ∀ k it, mapLookup m k = some it → validUTF8 k = true ∧ it.validStrings

/-- Text that the string scanner accepts as the inside of a literal. -/
def Scannable (raw : List Byte) : Prop := scanString (raw ++ [0x22]) = some (raw, [])

/-- A sequence of `Set` calls made one after the other on the same store, each of which returned
no error; `none` if one of them returned an error or panicked. -/
def setAll : List Item → JSONKeyring → FS → Option (JSONKeyring × FS)
  | [], k, fs => some (k, fs)
  | item :: items, k, fs =>
    match k.Set item fs with
    | .ret (k1, none, fs1) => setAll items k1 fs1
    | _ => none

/-! ## The grammar of JSON and the values the decoder stores

The notions of this section are not read off the code: the grammar is that of JSON (RFC 8259)
with the nesting bound of `encoding/json`, and the shapes are those that the types `string`,
`[]byte`, `Item` and `map[string]Item` take. The scanner and the decoder are compared with
them further down. -/

/-- Text made of white space only. -/
def WS (s : List Byte) : Prop := ∀ c ∈ s, isSpace c = true

/-- The text between the quotes of a JSON string: characters other than the quote, the
backslash and the control characters, the two-character escapes, and `\u` with four hexadecimal
digits. -/
inductive StringText : List Byte → Prop where
  | nil : StringText []
  | plain (c : Byte) (t : List Byte) :
    c.val ≠ 0x22 → c.val ≠ 0x5C → ¬ c.val < 0x20 → StringText t → StringText (c :: t)
  | simple (e : Byte) (t : List Byte) :
    isSimpleEscape e = true → StringText t → StringText (0x5C :: e :: t)
  | hex4 (h1 h2 h3 h4 : Byte) (t : List Byte) :
    (hexVal h1).isSome ∧ (hexVal h2).isSome ∧ (hexVal h3).isSome ∧ (hexVal h4).isSome →
    StringText t → StringText (0x5C :: 0x75 :: h1 :: h2 :: h3 :: h4 :: t)

/-- One or more decimal digits. -/
def Digits (ds : List Byte) : Prop := ds ≠ [] ∧ ∀ c ∈ ds, isDigit c = true

/-- The integer part of a JSON number: `0`, or a digit from 1 to 9 followed by digits. -/
inductive IntText : List Byte → Prop where
  | zero : IntText [0x30]
  | pos (c : Byte) (ds : List Byte) :
    0x31 ≤ c.val ∧ c.val ≤ 0x39 → (∀ d ∈ ds, isDigit d = true) → IntText (c :: ds)

/-- The fraction of a JSON number: nothing, or a dot and digits. -/
inductive FracText : List Byte → Prop where
  | none : FracText []
  | dot (ds : List Byte) : Digits ds → FracText (0x2E :: ds)

/-- The exponent of a JSON number: nothing, or `e` or `E`, an optional sign, and digits. -/
inductive ExpText : List Byte → Prop where
  | none : ExpText []
  | plain (e : Byte) (ds : List Byte) : e.val = 0x65 ∨ e.val = 0x45 → Digits ds → ExpText (e :: ds)
  | signed (e g : Byte) (ds : List Byte) :
    e.val = 0x65 ∨ e.val = 0x45 → g.val = 0x2B ∨ g.val = 0x2D → Digits ds →
    ExpText (e :: g :: ds)

/-- The text of a JSON number: an optional minus sign, the integer part, the fraction and the
exponent. -/
inductive NumberText : List Byte → Prop where
  | mk (sign i f e : List Byte) : sign = [] ∨ sign = [0x2D] → IntText i → FracText f →
    ExpText e → NumberText (sign ++ i ++ f ++ e)

/-- What a piece of JSON text stands for: a value, the members of an object or the elements of
an array. -/
inductive Phrase where
  | value (v : JSON)
  | members (ms : List (GoString × JSON))
  | elems (vs : List JSON)

/-- The grammar of JSON, with the value each text stands for: `Denotes n t p` says that the
text `t`, in which objects and arrays are nested at most `n` deep, stands for `p`. The text of a
value has no white space around it. The text of the members of an object starts at the quote of
the first name and ends with the closing brace; the text of the elements of an array ends with
the closing bracket. A string stands for what `unquote` makes of the text between its quotes,
which is always a string (`stringText_unquote`), and a number for its literal. -/
inductive Denotes : Nat → List Byte → Phrase → Prop where
  | null (n : Nat) : Denotes n (ascii "null") (.value .null)
  | true (n : Nat) : Denotes n (ascii "true") (.value (.bool true))
  | false (n : Nat) : Denotes n (ascii "false") (.value (.bool false))
  | num (n : Nat) (lit : List Byte) : NumberText lit → Denotes n lit (.value (.num lit))
  | str (n : Nat) (raw : List Byte) (t : GoString) : StringText raw → unquote raw = some t →
    Denotes n (0x22 :: raw ++ [0x22]) (.value (.str t))
  | emptyArr (n : Nat) (a : List Byte) : WS a →
    Denotes (n + 1) (0x5B :: a ++ [0x5D]) (.value (.arr []))
  | arr (n : Nat) (body : List Byte) (vs : List JSON) : Denotes n body (.elems vs) →
    Denotes (n + 1) (0x5B :: body) (.value (.arr vs))
  | emptyObj (n : Nat) (a : List Byte) : WS a →
    Denotes (n + 1) (0x7B :: a ++ [0x7D]) (.value (.obj []))
  | obj (n : Nat) (a body : List Byte) (ms : List (GoString × JSON)) : WS a →
    Denotes n body (.members ms) → Denotes (n + 1) (0x7B :: a ++ body) (.value (.obj ms))
  | lastElem (n : Nat) (a t b : List Byte) (v : JSON) : WS a → Denotes n t (.value v) → WS b →
    Denotes n (a ++ t ++ b ++ [0x5D]) (.elems [v])
  | consElem (n : Nat) (a t b body : List Byte) (v : JSON) (vs : List JSON) : WS a →
    Denotes n t (.value v) → WS b → Denotes n body (.elems vs) →
    Denotes n (a ++ t ++ b ++ 0x2C :: body) (.elems (v :: vs))
  | lastMember (n : Nat) (raw : List Byte) (key : GoString) (b c t d : List Byte) (v : JSON) :
    StringText raw → unquote raw = some key → WS b → WS c → Denotes n t (.value v) → WS d →
    Denotes n (0x22 :: raw ++ 0x22 :: b ++ 0x3A :: c ++ t ++ d ++ [0x7D]) (.members [(key, v)])
  | consMember (n : Nat) (raw : List Byte) (key : GoString) (b c t d e body : List Byte)
    (v : JSON) (ms : List (GoString × JSON)) :
    StringText raw → unquote raw = some key → WS b → WS c → Denotes n t (.value v) → WS d →
    WS e → Denotes n body (.members ms) →
    Denotes n (0x22 :: raw ++ 0x22 :: b ++ 0x3A :: c ++ t ++ d ++ 0x2C :: e ++ body)
      (.members ((key, v) :: ms))

/-- The content is one JSON value that stands for `v`, nested at most `maxNestingDepth` deep,
with nothing but white space around it. -/
def DocumentOf (content : List Byte) (v : JSON) : Prop :=
  ∃ a t b, content = a ++ t ++ b ∧ WS a ∧ WS b ∧ Denotes maxNestingDepth t (.value v)

/-- What may follow a value: the end of the input, white space, a comma, a closing bracket or a
closing brace. -/
def Delim (rest : List Byte) : Prop :=
  ∀ c tl, rest = c :: tl → isSpace c = true ∨ c.val = 0x2C ∨ c.val = 0x5D ∨ c.val = 0x7D

/-- The input does not go on with a digit. -/
def NoDigit (X : List Byte) : Prop := ∀ c tl, X = c :: tl → isDigit c = false

/-- The input goes on neither with a digit nor with a dot. -/
def NoFrac (X : List Byte) : Prop := ∀ c tl, X = c :: tl → isDigit c = false ∧ c.val ≠ 0x2E

/-- The motive of `parse_complete`: on a text that stands for `p`, followed by `rest`, the
scanner for `p` gives `p` and leaves `rest`, unless its recursion bound is too small. -/
def Parses (fuel depth : Nat) (t : List Byte) (p : Phrase) (rest : List Byte) : Prop :=
  match p with
  | .value v => Delim rest →
    (parseValue fuel depth (t ++ rest) = .ok (v, rest) ∨
      parseValue fuel depth (t ++ rest) = .error .outOfFuel)
  | .members ms =>
    (parseMembers fuel depth (t ++ rest) = .ok (ms, rest) ∨
      parseMembers fuel depth (t ++ rest) = .error .outOfFuel)
  | .elems vs =>
    (parseElems fuel depth (t ++ rest) = .ok (vs, rest) ∨
      parseElems fuel depth (t ++ rest) = .error .outOfFuel)

/-- The JSON values that fit a field of kind `string`: a string, and `null`. -/
def fitsString : JSON → Bool
  | .str _ => true
  | .null => true
  | _ => false

/-- The JSON values that fit an element of a `[]byte`: `null`, and a number written as an
unsigned integer below 256. -/
def fitsByte : JSON → Bool
  | .null => true
  | .num lit => (parseUint8 lit).isSome
  | _ => false

/-- The JSON values that fit a field of type `[]byte`: `null`, a string that is base64 of
`StdEncoding`, and an array of values that fit a byte. -/
def fitsBytes : JSON → Bool
  | .null => true
  | .str t => (base64Decode t).isSome
  | .arr elems => elems.all fitsByte
  | _ => false

/-- The members of a record object that fit `Item`: the name selects no field, or the value
fits the field that the name selects. -/
def fitsMember (m : GoString × JSON) : Bool :=
  match fieldOf m.1 with
  | none => true
  | some .Data => fitsBytes m.2
  | some _ => fitsString m.2

/-- The JSON values that fit an `Item`: `null`, and an object all of whose members fit. No
member has to be there. -/
def fitsItem : JSON → Bool
  | .null => true
  | .obj members => members.all fitsMember
  | _ => false

/-- The JSON objects that fit a `map[string]Item`: every entry holds a value that fits an
`Item`. -/
def fitsMap : JSON → Bool
  | .obj members => members.all (fun m => fitsItem m.2)
  | _ => false

/-! ## Concrete file systems and stores used to instantiate the results -/

/-- A file system without files in which no operation is made to fail. -/
def emptyFS : FS :=
  { files := fun _ => none, statFault := fun _ => none, readFault := fun _ => none,
    writeFault := fun _ _ => none }

/-- A file system without files in which every write fails for lack of space and leaves
nothing behind. -/
def fullDiskFS : FS :=
  { files := fun _ => none, statFault := fun _ => none, readFault := fun _ => none,
    writeFault := fun _ _ => some (.ENOSPC, none) }

/-- A file system in which every path holds the given content. -/
def constFS (content : List Byte) : FS :=
  { files := fun _ => some content, statFault := fun _ => none, readFault := fun _ => none,
    writeFault := fun _ _ => none }

/-- A file system in which every path holds the given content, every `stat` is refused for
lack of permission and nothing else is made to fail. -/
def statDeniedFS (content : List Byte) : FS :=
  { files := fun _ => some content, statFault := fun _ => some .EACCES,
    readFault := fun _ => none, writeFault := fun _ _ => none }

/-- A file system in which every path exists and can be inspected but not read. -/
def unreadableFS : FS :=
  { files := fun _ => some [], statFault := fun _ => none, readFault := fun _ => some .EACCES,
    writeFault := fun _ _ => none }

/-- The path used in the instances. -/
def authPath : GoString := ascii "ipatool-auth.json"

/-- A record with key `a` and a three-byte payload. -/
def sampleItem : Item := ⟨ascii "a", some [1, 2, 3], ascii "label", ascii "text"⟩

/-- A record whose label is the single byte 0xFF, which is not valid UTF-8. -/
def latin1Item : Item := ⟨ascii "a", none, [0xFF], []⟩

/-- Another record under the key `a`, differing from `sampleItem` in every other field. -/
def otherItem : Item := ⟨ascii "a", none, ascii "old", ascii "older"⟩

/-- A backing file that holds `sampleItem` under the key `a`. -/
def sampleDocument : List Byte :=
  ascii ("\x7b\"a\":\x7b\"Key\":\"a\",\"Data\":\"AQID\",\"Label\":\"label\"," ++
    "\"Description\":\"text\"\x7d\x7d")

/-! ## The map operations -/

theorem mapLookup_insert_self (es : GoMap) (key : GoString) (item : Item) :
    mapLookup (some (mapInsert es key item)) key = some item := by
  simp [mapLookup, mapInsert]

theorem find_filter_ne (es : GoMap) (key key1 : GoString) (h : key1 ≠ key) :
    (es.filter (fun e => e.1 ≠ key)).find? (fun e => e.1 = key1) =
      es.find? (fun e => e.1 = key1) := by
  rw [List.find?_filter]
  congr 1
  funext a
  by_cases h1 : a.1 = key1
  · have h2 : a.1 ≠ key := fun h3 => h (h1.symm.trans h3)
    simp [h1, h2, h]
  · simp [h1]

theorem mapLookup_insert_ne (es : GoMap) (key key1 : GoString) (item : Item) (h : key1 ≠ key) :
    mapLookup (some (mapInsert es key item)) key1 = mapLookup (some es) key1 := by
  have hne : ¬ key = key1 := fun h1 => h h1.symm
  simp only [mapLookup, mapInsert, List.find?_cons, hne, decide_False]
  rw [find_filter_ne es key key1 h]

theorem mapLookup_delete_self (m : Option GoMap) (key : GoString) :
    mapLookup (mapDelete m key) key = none := by
  cases m with
  | none => rfl
  | some es => simp [mapLookup, mapDelete]

theorem mapLookup_delete_ne (m : Option GoMap) (key key1 : GoString) (h : key1 ≠ key) :
    mapLookup (mapDelete m key) key1 = mapLookup m key1 := by
  cases m with
  | none => rfl
  | some es =>
    simp only [mapLookup, mapDelete, Option.map_some']
    rw [find_filter_ne es key key1 h]

theorem mapDelete_absent (m : Option GoMap) (key : GoString) (h : mapLookup m key = none) :
    mapDelete m key = m := by
  cases m with
  | none => rfl
  | some es =>
    simp only [mapLookup, Option.map_eq_none', List.find?_eq_none] at h
    simp only [mapDelete, Option.map_some', Option.some.injEq, List.filter_eq_self]
    intro e he
    simpa using h e he

/-! ## The file operations and `save` -/

theorem MarshalIndent_ok (m : Option GoMap) : ∃ data, MarshalIndent m = .ok data := by
  unfold MarshalIndent
  split
  · exact ⟨_, rfl⟩
  · split <;> exact ⟨_, rfl⟩

theorem save_eq_write (k : JSONKeyring) (fs : FS) (data : List Byte)
    (h : MarshalIndent k.data = .ok data) : k.save fs = osWriteFile fs k.filePath data := by
  unfold JSONKeyring.save
  rw [h]

theorem osWriteFile_no_fault (fs : FS) (path : GoString) (data : List Byte)
    (h : fs.writeFault path data = none) :
    osWriteFile fs path data =
      (none, { fs with files := Function.update fs.files path (some data) }) := by
  unfold osWriteFile
  rw [h]

/-! ## The constructor -/

theorem new_of_missing (filePath : GoString) (fs : FS) (h : fs.files filePath = none) :
    NewJSONKeyring filePath fs = (.ok ⟨filePath, some []⟩, fs) := by
  unfold NewJSONKeyring osStat
  cases hs : fs.statFault filePath with
  | none => simp only [h]
  | some errno => simp only

theorem new_of_readable (filePath : GoString) (fs : FS) (content : List Byte)
    (hstat : (osStat fs filePath).1 = none) (hread : (osReadFile fs filePath).1 = .ok content) :
    NewJSONKeyring filePath fs =
      (match Unmarshal content (some []) with
        | .error err => .error (.UnmarshalError err)
        | .ok data => .ok ⟨filePath, data⟩, fs) := by
  have hs : osStat fs filePath = (none, fs) := by
    unfold osStat at hstat ⊢
    cases h1 : fs.statFault filePath with
    | some errno => simp [h1] at hstat
    | none =>
      cases h2 : fs.files filePath with
      | none => simp [h1, h2] at hstat
      | some c => rfl
  have hfs : (osReadFile fs filePath).2 = fs := by
    unfold osReadFile
    cases fs.readFault filePath with
    | some errno => rfl
    | none => cases fs.files filePath <;> rfl
  have hr : osReadFile fs filePath = (.ok content, fs) := Prod.ext hread hfs
  simp only [NewJSONKeyring, hs, hr]
  cases Unmarshal content (some []) <;> rfl

/-! ## UTF-8: one decoding step -/

theorem byte_val (n : Nat) : (byte n).val = n % 256 := rfl

theorem byte_eq_of_val (n : Nat) (b : Byte) (h : n = b.val) : byte n = b := by
  apply Fin.ext
  have := b.isLt
  simp only [byte_val, h]
  omega

/-- The facts about one decoding step on a byte that starts a valid multi-byte encoding. -/
theorem decodeRune_valid (b : Byte) (rest : List Byte) (hb : ¬ b.val < 0x80)
    (hv : ¬ ((decodeRune (b :: rest)).1 = RuneError ∧ (decodeRune (b :: rest)).2 = 1)) :
    2 ≤ (decodeRune (b :: rest)).2 ∧ (decodeRune (b :: rest)).2 ≤ (b :: rest).length ∧
    encodeRune (decodeRune (b :: rest)).1 = (b :: rest).take (decodeRune (b :: rest)).2 ∧
    (∀ t, decodeRune ((b :: rest).take (decodeRune (b :: rest)).2 ++ t) = decodeRune (b :: rest)) ∧
    (∀ x ∈ (b :: rest).take (decodeRune (b :: rest)).2, 0x80 ≤ x.val) := by
  have hb0 := b.isLt
  unfold decodeRune at hv ⊢
  simp only [hb, if_false] at hv ⊢
  by_cases h2 : 0xC2 ≤ b.val ∧ b.val ≤ 0xDF
  · simp only [h2, and_self, if_true] at hv ⊢
    cases rest with
    | nil => simp [RuneError] at hv
    | cons b1 rest1 =>
      have hb1 := b1.isLt
      by_cases hc : isCont b1 = true
      · simp only [hc, if_true] at hv ⊢
        simp only [isCont, Bool.and_eq_true, decide_eq_true_eq] at hc
        refine ⟨by omega, by simp, ?_, ?_, ?_⟩
        · unfold encodeRune
          rw [if_neg (by omega), if_pos (by omega)]
          simp only [List.take_succ_cons, List.take_zero]
          rw [byte_eq_of_val _ b (by omega), byte_eq_of_val _ b1 (by omega)]
        · intro t
          simp only [List.take_succ_cons, List.take_zero, List.cons_append, List.nil_append, decodeRune, hb, if_false, h2, and_self, if_true, isCont, Bool.and_eq_true, decide_eq_true_eq, hc]
        · intro x hx
          simp only [List.take_succ_cons, List.take_zero, List.mem_cons, List.mem_singleton, List.not_mem_nil, or_false] at hx
          rcases hx with h | h <;> subst h <;> omega
      · simp [hc, RuneError] at hv
  · simp only [h2, if_false] at hv ⊢
    by_cases h3 : 0xE0 ≤ b.val ∧ b.val ≤ 0xEF
    · simp only [h3, and_self, if_true] at hv ⊢
      match rest, hv with
      | [], hv => simp [RuneError] at hv
      | [_], hv => simp [RuneError] at hv
      | b1 :: b2 :: rest2, hv =>
        have hb1 := b1.isLt
        have hb2 := b2.isLt
        by_cases hc : acceptLo b ≤ b1.val ∧ b1.val ≤ acceptHi b ∧ isCont b2 = true
        · simp only [hc, and_self, if_true] at hv ⊢
          obtain ⟨hlo, hhi, hc2⟩ := hc
          simp only [isCont, Bool.and_eq_true, decide_eq_true_eq] at hc2
          have hlo1 : 0x80 ≤ b1.val := by
            unfold acceptLo at hlo; split_ifs at hlo <;> omega
          have hhi1 : b1.val ≤ 0xBF := by
            unfold acceptHi at hhi; split_ifs at hhi <;> omega
          have hlo2 : b.val = 0xE0 → 0xA0 ≤ b1.val := by
            intro h; simpa [acceptLo, h] using hlo
          have hhi2 : b.val = 0xED → b1.val ≤ 0x9F := by
            intro h; simpa [acceptHi, h] using hhi
          refine ⟨by omega, by simp, ?_, ?_, ?_⟩
          · unfold encodeRune
            rw [if_neg (by omega), if_neg (by omega), if_neg (by omega), if_pos (by omega)]
            simp only [List.take_succ_cons, List.take_zero]
            rw [byte_eq_of_val _ b (by omega), byte_eq_of_val _ b1 (by omega),
              byte_eq_of_val _ b2 (by omega)]
          · intro t
            simp only [List.take_succ_cons, List.take_zero, List.cons_append, List.nil_append,
              decodeRune, hb, if_false, h2, h3, and_self, if_true, isCont, Bool.and_eq_true,
              decide_eq_true_eq, hc2, hlo, hhi]
          · intro x hx
            simp only [List.take_succ_cons, List.take_zero, List.mem_cons, List.mem_singleton,
              List.not_mem_nil, or_false] at hx
            rcases hx with h | h | h <;> subst h <;> omega
        · simp [hc, RuneError] at hv
    · simp only [h3, if_false] at hv ⊢
      by_cases h4 : 0xF0 ≤ b.val ∧ b.val ≤ 0xF4
      · simp only [h4, and_self, if_true] at hv ⊢
        match rest, hv with
        | [], hv => simp [RuneError] at hv
        | [_], hv => simp [RuneError] at hv
        | [_, _], hv => simp [RuneError] at hv
        | b1 :: b2 :: b3 :: rest3, hv =>
          have hb1 := b1.isLt
          have hb2 := b2.isLt
          have hb3 := b3.isLt
          by_cases hc : acceptLo b ≤ b1.val ∧ b1.val ≤ acceptHi b ∧ isCont b2 = true ∧
              isCont b3 = true
          · simp only [hc, and_self, if_true] at hv ⊢
            obtain ⟨hlo, hhi, hc2, hc3⟩ := hc
            simp only [isCont, Bool.and_eq_true, decide_eq_true_eq] at hc2 hc3
            have hlo1 : 0x80 ≤ b1.val := by
              unfold acceptLo at hlo; split_ifs at hlo <;> omega
            have hhi1 : b1.val ≤ 0xBF := by
              unfold acceptHi at hhi; split_ifs at hhi <;> omega
            have hlo2 : b.val = 0xF0 → 0x90 ≤ b1.val := by
              intro h; simpa [acceptLo, h] using hlo
            have hhi2 : b.val = 0xF4 → b1.val ≤ 0x8F := by
              intro h; simpa [acceptHi, h] using hhi
            refine ⟨by omega, by simp, ?_, ?_, ?_⟩
            · unfold encodeRune
              rw [if_neg (by omega), if_neg (by omega), if_neg (by omega), if_neg (by omega)]
              simp only [List.take_succ_cons, List.take_zero]
              rw [byte_eq_of_val _ b (by omega), byte_eq_of_val _ b1 (by omega),
                byte_eq_of_val _ b2 (by omega), byte_eq_of_val _ b3 (by omega)]
            · intro t
              simp only [List.take_succ_cons, List.take_zero, List.cons_append, List.nil_append,
                decodeRune, hb, if_false, h2, h3, h4, and_self, if_true, isCont,
                Bool.and_eq_true, decide_eq_true_eq, hc2, hc3, hlo, hhi]
            · intro x hx
              simp only [List.take_succ_cons, List.take_zero, List.mem_cons, List.mem_singleton,
                List.not_mem_nil, or_false] at hx
              rcases hx with h | h | h | h <;> subst h <;> omega
          · simp [hc, RuneError] at hv
      · simp [h4, RuneError] at hv

/-! ## The string scanner on an encoded string -/

theorem scanString_cons (c : Byte) (rest : List Byte) :
    scanString (c :: rest) =
      if c.val = 0x22 then some ([], rest)
      else if c.val = 0x5C then
        match rest with
        | [] => none
        | e :: rest1 =>
          if isSimpleEscape e then
            (scanString rest1).map (fun r => (c :: e :: r.1, r.2))
          else if e.val = 0x75 then
            match rest1 with
            | h1 :: h2 :: h3 :: h4 :: rest2 =>
              if (hexVal h1).isSome ∧ (hexVal h2).isSome ∧ (hexVal h3).isSome ∧
                  (hexVal h4).isSome then
                (scanString rest2).map (fun r => (c :: e :: h1 :: h2 :: h3 :: h4 :: r.1, r.2))
              else none
            | _ => none
          else none
      else if c.val < 0x20 then none
      else (scanString rest).map (fun r => (c :: r.1, r.2)) := by
  conv_lhs => rw [scanString.eq_def]

theorem scanChunk_nil : ScanChunk [] := by
  intro X
  simp only [List.nil_append]
  cases scanString X <;> rfl

theorem scanChunk_append {p q : List Byte} (hp : ScanChunk p) (hq : ScanChunk q) :
    ScanChunk (p ++ q) := by
  intro X
  rw [List.append_assoc, hp, hq]
  cases scanString X <;> simp

theorem scanChunk_plain (b : Byte) (h1 : b.val ≠ 0x22) (h2 : b.val ≠ 0x5C) (h3 : ¬ b.val < 0x20) :
    ScanChunk [b] := by
  intro X
  rw [List.singleton_append, scanString_cons, if_neg h1, if_neg h2, if_neg h3]
  rfl

theorem scanChunk_high (p : List Byte) (h : ∀ x ∈ p, 0x80 ≤ x.val) : ScanChunk p := by
  induction p with
  | nil => exact scanChunk_nil
  | cons b p ih =>
    have hb := h b (List.mem_cons_self _ _)
    have := scanChunk_append (scanChunk_plain b (by omega) (by omega) (by omega))
      (ih (fun x hx => h x (List.mem_cons_of_mem _ hx)))
    simpa using this

theorem scanChunk_simple (e : Byte) (h : isSimpleEscape e = true) : ScanChunk [0x5C, e] := by
  intro X
  have h0 : ¬ ((0x5C : Byte).val = 0x22) := by decide
  have h1 : (0x5C : Byte).val = 0x5C := by decide
  show scanString (0x5C :: e :: X) = _
  rw [scanString_cons, if_neg h0, if_pos h1]
  simp only [h, if_true]
  rfl

theorem scanChunk_u (h1 h2 h3 h4 : Byte) (x1 : (hexVal h1).isSome) (x2 : (hexVal h2).isSome)
    (x3 : (hexVal h3).isSome) (x4 : (hexVal h4).isSome) :
    ScanChunk [0x5C, 0x75, h1, h2, h3, h4] := by
  intro X
  have h0 : ¬ ((0x5C : Byte).val = 0x22) := by decide
  have h00 : (0x5C : Byte).val = 0x5C := by decide
  have h5 : isSimpleEscape 0x75 = false := by decide
  have h6 : (0x75 : Byte).val = 0x75 := by decide
  show scanString (0x5C :: 0x75 :: h1 :: h2 :: h3 :: h4 :: X) = _
  rw [scanString_cons, if_neg h0, if_pos h00]
  simp only [h5, h6, x1, x2, x3, x4, and_self, if_true, Bool.false_eq_true, if_false]
  rfl

theorem hexVal_hexDigit (n : Nat) (h : n < 16) : hexVal (hexDigit n) = some n := by
  interval_cases n <;> rfl

theorem scanChunk_escapeByte (b : Byte) (hb : b.val < 0x80) :
    ScanChunk (escapeByte b) := by
  unfold escapeByte
  split_ifs with c1 c2 c3 c4 c5 c6
  · exact scanChunk_simple b (by
      simp only [isSimpleEscape, Bool.or_eq_true, decide_eq_true_eq]
      omega)
  · exact scanChunk_simple _ (by decide)
  · exact scanChunk_simple _ (by decide)
  · exact scanChunk_simple _ (by decide)
  · exact scanChunk_simple _ (by decide)
  · exact scanChunk_simple _ (by decide)
  · exact scanChunk_u _ _ _ _ (by decide) (by decide)
      (by rw [hexVal_hexDigit _ (by omega)]; rfl) (by rw [hexVal_hexDigit _ (by omega)]; rfl)

theorem scanString_appendStringLoop (n : Nat) (s rest : List Byte) :
    scanString (appendStringLoop n s ++ 0x22 :: rest) = some (appendStringLoop n s, rest) := by
  have hq : ∀ X : List Byte, scanString ((0x22 : Byte) :: X) = some ([], X) := by
    intro X
    rw [scanString_cons, if_pos (by decide)]
  induction n generalizing s with
  | zero =>
    cases s <;> simp [appendStringLoop, hq]
  | succ n ih =>
    cases s with
    | nil => simp [appendStringLoop, hq]
    | cons b rest1 =>
      have step : ∀ (chunk s1 : List Byte), ScanChunk chunk →
          scanString (chunk ++ appendStringLoop n s1 ++ 0x22 :: rest) =
            some (chunk ++ appendStringLoop n s1, rest) := by
        intro chunk s1 hc
        rw [List.append_assoc, hc, ih s1]
        rfl
      unfold appendStringLoop
      by_cases hb : b.val < 0x80
      · simp only [hb, if_true]
        by_cases hs : htmlSafe b = true
        · simp only [hs, if_true]
          apply step
          simp only [htmlSafe, Bool.and_eq_true, decide_eq_true_eq] at hs
          exact scanChunk_plain b (by omega) (by omega) (by omega)
        · simp only [hs, if_false]
          apply step
          exact scanChunk_escapeByte b hb
      · simp only [hb, if_false]
        by_cases he : (decodeRune (b :: rest1)).1 = RuneError ∧ (decodeRune (b :: rest1)).2 = 1
        · simp only [he, and_self, if_true]
          apply step
          exact scanChunk_u _ _ _ _ (by decide) (by decide) (by decide) (by decide)
        · simp only [he, if_false]
          by_cases hl : (decodeRune (b :: rest1)).1 = 0x2028 ∨ (decodeRune (b :: rest1)).1 = 0x2029
          · simp only [hl, if_true]
            apply step
            refine scanChunk_u _ _ _ _ (by decide) (by decide) (by decide) ?_
            rw [hexVal_hexDigit _ (by omega)]; rfl
          · simp only [hl, if_false]
            apply step
            exact scanChunk_high _ (decodeRune_valid b rest1 hb he).2.2.2.2

/-! ## Unquoting an encoded string -/

theorem unquoteLoop_nil (f : Nat) : unquoteLoop f [] = some [] := by
  cases f <;> rfl

theorem appendStringLoop_nil (n : Nat) : appendStringLoop n [] = [] := by
  cases n <;> rfl

theorem unquoteLoop_cons (f : Nat) (c : Byte) (rest : List Byte) :
    unquoteLoop (f + 1) (c :: rest) =
      if c.val = 0x5C then
        match rest with
        | [] => none
        | e :: rest1 =>
          if e.val = 0x22 ∨ e.val = 0x5C ∨ e.val = 0x2F ∨ e.val = 0x27 then
            (unquoteLoop f rest1).map (fun t => e :: t)
          else if e.val = 0x62 then (unquoteLoop f rest1).map (fun t => 0x08 :: t)
          else if e.val = 0x66 then (unquoteLoop f rest1).map (fun t => 0x0C :: t)
          else if e.val = 0x6E then (unquoteLoop f rest1).map (fun t => 0x0A :: t)
          else if e.val = 0x72 then (unquoteLoop f rest1).map (fun t => 0x0D :: t)
          else if e.val = 0x74 then (unquoteLoop f rest1).map (fun t => 0x09 :: t)
          else if e.val = 0x75 then
            match getu4 (c :: rest) with
            | none => none
            | some rr =>
              let after := rest1.drop 4
              if isSurrogate rr then
                let dec := utf16DecodeRune rr (getu4 after)
                if dec ≠ RuneError then
                  (unquoteLoop f (after.drop 6)).map (fun t => encodeRune dec ++ t)
                else (unquoteLoop f after).map (fun t => encodeRune RuneError ++ t)
              else (unquoteLoop f after).map (fun t => encodeRune rr ++ t)
          else none
      else if c.val = 0x22 ∨ c.val < 0x20 then none
      else if c.val < 0x80 then (unquoteLoop f rest).map (fun t => c :: t)
      else
        let d := decodeRune (c :: rest)
        (unquoteLoop f ((c :: rest).drop d.2)).map (fun t => encodeRune d.1 ++ t) := by
  rfl

theorem unqChunk_plain (b : Byte) (h1 : b.val ≠ 0x22) (h2 : b.val ≠ 0x5C) (h3 : ¬ b.val < 0x20)
    (h4 : b.val < 0x80) : UnqChunk [b] [b] := by
  intro f X
  rw [List.singleton_append, unquoteLoop_cons, if_neg h2, if_neg (by omega), if_pos h4]
  rfl

theorem unqChunk_u (h1 h2 h3 h4 : Byte) (r : Nat) (bytes : List Byte)
    (hg : ∀ X, getu4 (0x5C :: 0x75 :: h1 :: h2 :: h3 :: h4 :: X) = some r)
    (hs : isSurrogate r = false) (he : encodeRune r = bytes) :
    UnqChunk [0x5C, 0x75, h1, h2, h3, h4] bytes := by
  intro f X
  have h00 : (0x5C : Byte).val = 0x5C := by decide
  show unquoteLoop (f + 1) (0x5C :: 0x75 :: h1 :: h2 :: h3 :: h4 :: X) = _
  rw [unquoteLoop_cons, if_pos h00]
  have h75 : (0x75 : Byte).val = 0x75 := rfl
  simp [h75, hg X, hs, he]

theorem unqChunk_simple (e out : Byte)
    (h : ∀ f X, unquoteLoop (f + 1) (0x5C :: e :: X) = (unquoteLoop f X).map (fun t => out :: t)) :
    UnqChunk [0x5C, e] [out] := by
  intro f X
  exact h f X

theorem getu4_00 (h1 h2 : Byte) (x1 x2 : Nat) (e1 : hexVal h1 = some x1) (e2 : hexVal h2 = some x2)
    (X : List Byte) : getu4 (0x5C :: 0x75 :: 0x30 :: 0x30 :: h1 :: h2 :: X) = some (x1 * 16 + x2) := by
  simp only [getu4, show (0x5C : Byte).val = 0x5C by decide, show (0x75 : Byte).val = 0x75 by decide,
    and_self, if_true, show hexVal 0x30 = some 0 by decide, e1, e2]
  simp

theorem unqChunk_escapeByte (b : Byte) (hb : b.val < 0x80) : UnqChunk (escapeByte b) [b] := by
  have h00 : (0x5C : Byte).val = 0x5C := by decide
  unfold escapeByte
  split_ifs with c1 c2 c3 c4 c5 c6
  · intro f X
    show unquoteLoop (f + 1) (0x5C :: b :: X) = _
    rw [unquoteLoop_cons, if_pos h00]
    simp only [show (b.val = 0x22 ∨ b.val = 0x5C ∨ b.val = 0x2F ∨ b.val = 0x27) by omega, if_true]
    rfl
  · have hb8 : b = 0x08 := Fin.ext c2
    subst hb8
    intro f X
    show unquoteLoop (f + 1) (0x5C :: 0x62 :: X) = _
    rw [unquoteLoop_cons, if_pos h00]
    rfl
  · have hb8 : b = 0x0C := Fin.ext c3
    subst hb8
    intro f X
    show unquoteLoop (f + 1) (0x5C :: 0x66 :: X) = _
    rw [unquoteLoop_cons, if_pos h00]
    rfl
  · have hb8 : b = 0x0A := Fin.ext c4
    subst hb8
    intro f X
    show unquoteLoop (f + 1) (0x5C :: 0x6E :: X) = _
    rw [unquoteLoop_cons, if_pos h00]
    rfl
  · have hb8 : b = 0x0D := Fin.ext c5
    subst hb8
    intro f X
    show unquoteLoop (f + 1) (0x5C :: 0x72 :: X) = _
    rw [unquoteLoop_cons, if_pos h00]
    rfl
  · have hb8 : b = 0x09 := Fin.ext c6
    subst hb8
    intro f X
    show unquoteLoop (f + 1) (0x5C :: 0x74 :: X) = _
    rw [unquoteLoop_cons, if_pos h00]
    rfl
  · apply unqChunk_u _ _ _ _ b.val
    · intro X
      rw [getu4_00 _ _ _ _ (hexVal_hexDigit _ (by omega)) (hexVal_hexDigit _ (by omega))]
      congr 1
      omega
    · simp only [isSurrogate, Bool.and_eq_false_imp, decide_eq_true_eq, decide_eq_false_iff_not]
      omega
    · unfold encodeRune
      rw [if_pos (by omega)]
      rw [byte_eq_of_val _ b rfl]

theorem unqChunk_high (b : Byte) (rest : List Byte) (hb : ¬ b.val < 0x80)
    (hv : ¬ ((decodeRune (b :: rest)).1 = RuneError ∧ (decodeRune (b :: rest)).2 = 1)) :
    UnqChunk ((b :: rest).take (decodeRune (b :: rest)).2)
      ((b :: rest).take (decodeRune (b :: rest)).2) := by
  obtain ⟨h2, hlen, henc, hdec, _⟩ := decodeRune_valid b rest hb hv
  intro f X
  obtain ⟨n, hn⟩ : ∃ n, (decodeRune (b :: rest)).2 = n + 1 :=
    ⟨_, (Nat.sub_add_cancel (by omega)).symm⟩
  have hp : (b :: rest).take (decodeRune (b :: rest)).2 = b :: rest.take n := by
    rw [hn, List.take_succ_cons]
  have hd := hdec X
  have hl : ((b :: rest).take (decodeRune (b :: rest)).2).length = (decodeRune (b :: rest)).2 := by
    rw [List.length_take]; omega
  have hdrop : (List.take (decodeRune (b :: rest)).2 (b :: rest) ++ X).drop
      (decodeRune (b :: rest)).2 = X := by
    rw [List.drop_append_of_le_length (by omega), List.drop_of_length_le (by omega)]
    rfl
  rw [hp] at hd hdrop henc ⊢
  rw [List.cons_append] at hd hdrop ⊢
  rw [unquoteLoop_cons, if_neg (by omega), if_neg (by omega), if_neg hb]
  simp only [hd, hdrop, henc]

theorem unqChunk_lineSep (b : Byte) (rest : List Byte) (hb : ¬ b.val < 0x80)
    (hv : ¬ ((decodeRune (b :: rest)).1 = RuneError ∧ (decodeRune (b :: rest)).2 = 1))
    (hl : (decodeRune (b :: rest)).1 = 0x2028 ∨ (decodeRune (b :: rest)).1 = 0x2029) :
    UnqChunk [0x5C, 0x75, 0x32, 0x30, 0x32, hexDigit ((decodeRune (b :: rest)).1 % 16)]
      ((b :: rest).take (decodeRune (b :: rest)).2) := by
  obtain ⟨_, _, henc, _, _⟩ := decodeRune_valid b rest hb hv
  apply unqChunk_u _ _ _ _ (decodeRune (b :: rest)).1
  · intro X
    simp only [getu4, show (0x5C : Byte).val = 0x5C by decide,
      show (0x75 : Byte).val = 0x75 by decide, and_self, if_true,
      show hexVal 0x32 = some 2 by decide, show hexVal 0x30 = some 0 by decide,
      hexVal_hexDigit _ (show (decodeRune (b :: rest)).1 % 16 < 16 by omega)]
    congr 1
    omega
  · rcases hl with h | h <;> rw [h] <;> decide
  · exact henc

theorem unquoteLoop_appendStringLoop (n : Nat) (s : List Byte) (f : Nat)
    (hv : validLoop n s = true) (hf : (appendStringLoop n s).length ≤ f) :
    unquoteLoop f (appendStringLoop n s) = some s := by
  induction n generalizing s f with
  | zero =>
    cases s with
    | nil => rw [appendStringLoop_nil, unquoteLoop_nil]
    | cons b rest => simp [validLoop] at hv
  | succ n ih =>
    cases s with
    | nil => rw [appendStringLoop_nil, unquoteLoop_nil]
    | cons b rest =>
      have step : ∀ (chunk bytes s1 : List Byte), UnqChunk chunk bytes → chunk ≠ [] →
          validLoop n s1 = true → (chunk ++ appendStringLoop n s1).length ≤ f →
          unquoteLoop f (chunk ++ appendStringLoop n s1) = some (bytes ++ s1) := by
        intro chunk bytes s1 hc hne hv1 hf1
        have hpos : 0 < chunk.length := List.length_pos.mpr hne
        rw [List.length_append] at hf1
        obtain ⟨f1, rfl⟩ : ∃ f1, f = f1 + 1 := ⟨f - 1, by omega⟩
        rw [hc, ih s1 f1 hv1 (by omega)]
        rfl
      unfold validLoop at hv
      unfold appendStringLoop at hf ⊢
      by_cases hb : b.val < 0x80
      · have hd : decodeRune (b :: rest) = (b.val, 1) := by
          simp only [decodeRune, hb, if_true]
        have hv1 : validLoop n rest = true := by
          simp only [hd, List.drop_succ_cons, List.drop_zero] at hv
          split_ifs at hv
          exact hv
        clear hv
        have hv := hv1
        simp only [hb, if_true] at hf ⊢
        by_cases hs : htmlSafe b = true
        · simp only [hs, if_true] at hf ⊢
          simp only [htmlSafe, Bool.and_eq_true, decide_eq_true_eq] at hs
          exact step [b] [b] rest (unqChunk_plain b (by omega) (by omega) (by omega) hb)
            (by simp) hv hf
        · simp only [hs, if_false] at hf ⊢
          refine step (escapeByte b) [b] rest (unqChunk_escapeByte b hb) ?_ hv hf
          unfold escapeByte
          split_ifs <;> simp
      · by_cases he : (decodeRune (b :: rest)).1 = RuneError ∧ (decodeRune (b :: rest)).2 = 1
        · simp [he] at hv
        · simp only [he, if_false] at hv
          simp only [hb, he, if_false] at hf ⊢
          have htd := List.take_append_drop (decodeRune (b :: rest)).2 (b :: rest)
          by_cases hl : (decodeRune (b :: rest)).1 = 0x2028 ∨ (decodeRune (b :: rest)).1 = 0x2029
          · simp only [hl, if_true] at hf ⊢
            have := step _ _ _ (unqChunk_lineSep b rest hb he hl) (by simp) hv hf
            rw [htd] at this
            exact this
          · simp only [hl, if_false] at hf ⊢
            have h2 := (decodeRune_valid b rest hb he).1
            have := step _ _ _ (unqChunk_high b rest hb he) (by
              obtain ⟨m, hm⟩ : ∃ m, (decodeRune (b :: rest)).2 = m + 1 :=
                ⟨_, (Nat.sub_add_cancel (by omega)).symm⟩
              rw [hm, List.take_succ_cons]
              simp) hv hf
            rw [htd] at this
            exact this

theorem unquote_appendStringLoop (s : GoString) (hv : validUTF8 s = true) :
    unquote (appendStringLoop s.length s) = some s :=
  unquoteLoop_appendStringLoop s.length s _ hv (le_refl _)

/-! ## Base64 -/

theorem b64Val_b64Char (n : Nat) (h : n < 64) : b64Val (b64Char n) = some n := by
  interval_cases n <;> rfl

theorem b64Char_plain (n : Nat) :
    htmlSafe (b64Char n) = true ∧ (b64Char n).val ≠ 0x0A ∧ (b64Char n).val ≠ 0x0D := by
  unfold b64Char htmlSafe
  simp only [byte_val, Bool.and_eq_true, decide_eq_true_eq]
  split_ifs <;> omega

theorem base64Encode_plain (bs : List Byte) :
    ∀ x ∈ base64Encode bs, htmlSafe x = true ∧ x.val ≠ 0x0A ∧ x.val ≠ 0x0D := by
  have hpad : htmlSafe (0x3D : Byte) = true ∧ (0x3D : Byte).val ≠ 0x0A ∧
      (0x3D : Byte).val ≠ 0x0D := by decide
  induction bs using base64Encode.induct with
  | case1 => simp [base64Encode]
  | case2 a =>
    intro x hx
    simp only [base64Encode, List.mem_cons, List.mem_singleton, List.not_mem_nil, or_false] at hx
    rcases hx with h | h | h | h <;> subst h <;> first | exact b64Char_plain _ | exact hpad
  | case3 a b =>
    intro x hx
    simp only [base64Encode, List.mem_cons, List.mem_singleton, List.not_mem_nil, or_false] at hx
    rcases hx with h | h | h | h <;> subst h <;> first | exact b64Char_plain _ | exact hpad
  | case4 a b c rest ih =>
    intro x hx
    simp only [base64Encode, List.mem_cons] at hx
    rcases hx with h | h | h | h | h
    · subst h; exact b64Char_plain _
    · subst h; exact b64Char_plain _
    · subst h; exact b64Char_plain _
    · subst h; exact b64Char_plain _
    · exact ih x h

theorem base64DecodeQuanta_encode (bs : List Byte) :
    base64DecodeQuanta (base64Encode bs) = some bs := by
  have hpad : b64Val (0x3D : Byte) = none := by decide
  induction bs using base64Encode.induct with
  | case1 => rfl
  | case2 a =>
    have ha := a.isLt
    simp only [base64Encode, base64DecodeQuanta, b64Val_b64Char _ (show a.val / 4 < 64 by omega),
      b64Val_b64Char _ (show a.val % 4 * 16 < 64 by omega), hpad]
    simp only [show (0x3D : Byte).val = 0x3D from rfl, and_self, if_true, Option.some.injEq,
      List.cons.injEq, and_true]
    exact byte_eq_of_val _ a (by omega)
  | case3 a b =>
    have ha := a.isLt
    have hb := b.isLt
    simp only [base64Encode, base64DecodeQuanta, b64Val_b64Char _ (show a.val / 4 < 64 by omega),
      b64Val_b64Char _ (show a.val % 4 * 16 + b.val / 16 < 64 by omega),
      b64Val_b64Char _ (show b.val % 16 * 4 < 64 by omega), hpad]
    simp only [show (0x3D : Byte).val = 0x3D from rfl, and_self, if_true, Option.some.injEq,
      List.cons.injEq, and_true]
    exact ⟨byte_eq_of_val _ a (by omega), byte_eq_of_val _ b (by omega)⟩
  | case4 a b c rest ih =>
    have ha := a.isLt
    have hb := b.isLt
    have hc := c.isLt
    simp only [base64Encode, base64DecodeQuanta, b64Val_b64Char _ (show a.val / 4 < 64 by omega),
      b64Val_b64Char _ (show a.val % 4 * 16 + b.val / 16 < 64 by omega),
      b64Val_b64Char _ (show b.val % 16 * 4 + c.val / 64 < 64 by omega),
      b64Val_b64Char _ (show c.val % 64 < 64 by omega), ih, Option.map_some',
      Option.some.injEq, List.cons.injEq, and_true]
    exact ⟨byte_eq_of_val _ a (by omega), byte_eq_of_val _ b (by omega),
      byte_eq_of_val _ c (by omega)⟩

theorem base64Decode_encode (bs : List Byte) : base64Decode (base64Encode bs) = some bs := by
  unfold base64Decode
  rw [List.filter_eq_self.mpr, base64DecodeQuanta_encode]
  intro x hx
  have := base64Encode_plain bs x hx
  simp only [Bool.not_eq_true', Bool.or_eq_false_iff, decide_eq_false_iff_not]
  exact ⟨this.2.1, this.2.2⟩

theorem scanChunk_plainText (t : List Byte) (h : ∀ x ∈ t, htmlSafe x = true) : ScanChunk t := by
  induction t with
  | nil => exact scanChunk_nil
  | cons b t ih =>
    have hb := h b (List.mem_cons_self _ _)
    simp only [htmlSafe, Bool.and_eq_true, decide_eq_true_eq] at hb
    have := scanChunk_append (scanChunk_plain b (by omega) (by omega) (by omega))
      (ih (fun x hx => h x (List.mem_cons_of_mem _ hx)))
    simpa using this

theorem unquoteLoop_plainText (t : List Byte) (h : ∀ x ∈ t, htmlSafe x = true) (f : Nat)
    (hf : t.length ≤ f) : unquoteLoop f t = some t := by
  induction t generalizing f with
  | nil => exact unquoteLoop_nil f
  | cons b t ih =>
    have hb := h b (List.mem_cons_self _ _)
    simp only [htmlSafe, Bool.and_eq_true, decide_eq_true_eq] at hb
    obtain ⟨f1, rfl⟩ : ∃ f1, f = f1 + 1 := ⟨f - 1, by simp at hf; omega⟩
    have := unqChunk_plain b (by omega) (by omega) (by omega) (by omega) f1 t
    rw [List.singleton_append] at this
    rw [this, ih (fun x hx => h x (List.mem_cons_of_mem _ hx)) f1 (by simp at hf; omega)]
    rfl

/-! ## The scanner on the parts of a document -/

theorem skipSpace_cons_of_not (c : Byte) (X : List Byte) (h : isSpace c = false) :
    skipSpace (c :: X) = c :: X := by
  simp only [skipSpace, h, Bool.false_eq_true, if_false]

theorem skipSpace_cons_of_space (c : Byte) (X : List Byte) (h : isSpace c = true) :
    skipSpace (c :: X) = skipSpace X := by
  simp only [skipSpace, h, if_true]

theorem skipSpace_quote (X : List Byte) : skipSpace (0x22 :: X) = 0x22 :: X :=
  skipSpace_cons_of_not _ _ (by decide)

theorem skipSpace_appendString (s : GoString) (X : List Byte) :
    skipSpace (appendString s ++ X) = appendString s ++ X := by
  simp only [appendString, List.singleton_append, List.cons_append, List.append_assoc]
  exact skipSpace_quote _

theorem parseMembers_succ (fuel depth : Nat) (s : List Byte) :
    parseMembers (fuel + 1) depth s =
      match s with
      | [] => .error .SyntaxError
      | q :: rest =>
        if q.val = 0x22 then
          match scanString rest with
          | none => .error .SyntaxError
          | some (raw, rest1) =>
            match unquote raw with
            | none => .error .SyntaxError
            | some key =>
              match skipSpace rest1 with
              | [] => .error .SyntaxError
              | colon :: rest2 =>
                if colon.val = 0x3A then
                  match parseValue fuel depth rest2 with
                  | .error e => .error e
                  | .ok (v, rest3) =>
                    match skipSpace rest3 with
                    | [] => .error .SyntaxError
                    | t :: rest4 =>
                      if t.val = 0x2C then
                        match parseMembers fuel depth (skipSpace rest4) with
                        | .error e => .error e
                        | .ok (ms, rest5) => .ok ((key, v) :: ms, rest5)
                      else if t.val = 0x7D then .ok ([(key, v)], rest4)
                      else .error .SyntaxError
                else .error .SyntaxError
        else .error .SyntaxError := by
  rfl

theorem parseMembers_appendString (fuel depth : Nat) (name : GoString)
    (hn : validUTF8 name = true) (tail : List Byte) :
    parseMembers (fuel + 1) depth (appendString name ++ 0x3A :: tail) =
      afterName fuel depth name tail := by
  rw [parseMembers_succ]
  simp only [appendString, List.singleton_append, List.cons_append, List.append_assoc,
    show (0x22 : Byte).val = 0x22 from rfl, if_true, List.nil_append,
    scanString_appendStringLoop, unquote_appendStringLoop name hn,
    skipSpace_cons_of_not (0x3A : Byte) tail (by decide), show (0x3A : Byte).val = 0x3A from rfl]
  rfl

theorem parseValue_succ (fuel depth : Nat) (s : List Byte) :
    parseValue (fuel + 1) depth s =
      match skipSpace s with
      | [] => .error .SyntaxError
      | c :: rest =>
        if c.val = 0x7B then
          if maxNestingDepth ≤ depth then .error .SyntaxError
          else
            match skipSpace rest with
            | [] => .error .SyntaxError
            | d :: rest1 =>
              if d.val = 0x7D then .ok (.obj [], rest1)
              else
                match parseMembers fuel (depth + 1) (d :: rest1) with
                | .error e => .error e
                | .ok (ms, rest2) => .ok (.obj ms, rest2)
        else if c.val = 0x5B then
          if maxNestingDepth ≤ depth then .error .SyntaxError
          else
            match skipSpace rest with
            | [] => .error .SyntaxError
            | d :: rest1 =>
              if d.val = 0x5D then .ok (.arr [], rest1)
              else
                match parseElems fuel (depth + 1) (d :: rest1) with
                | .error e => .error e
                | .ok (vs, rest2) => .ok (.arr vs, rest2)
        else if c.val = 0x22 then
          match scanString rest with
          | none => .error .SyntaxError
          | some (raw, rest1) =>
            match unquote raw with
            | none => .error .SyntaxError
            | some t => .ok (.str t, rest1)
        else if c.val = 0x2D ∨ isDigit c then
          match scanNumber (c :: rest) with
          | none => .error .SyntaxError
          | some (lit, rest1) => .ok (.num lit, rest1)
        else if c.val = 0x74 then
          match dropLit (ascii "rue") rest with
          | none => .error .SyntaxError
          | some rest1 => .ok (.bool true, rest1)
        else if c.val = 0x66 then
          match dropLit (ascii "alse") rest with
          | none => .error .SyntaxError
          | some rest1 => .ok (.bool false, rest1)
        else if c.val = 0x6E then
          match dropLit (ascii "ull") rest with
          | none => .error .SyntaxError
          | some rest1 => .ok (.null, rest1)
        else .error .SyntaxError := by
  rfl

theorem parseValue_string (fuel depth : Nat) (s : GoString) (hs : validUTF8 s = true)
    (rest : List Byte) :
    parseValue (fuel + 1) depth (0x20 :: (appendString s ++ rest)) = .ok (.str s, rest) := by
  rw [parseValue_succ, skipSpace_cons_of_space _ _ (by decide), skipSpace_appendString]
  simp only [appendString, List.singleton_append, List.cons_append, List.append_assoc,
    show (0x22 : Byte).val = 0x22 from rfl, List.nil_append,
    scanString_appendStringLoop, unquote_appendStringLoop s hs]
  rfl

theorem parseValue_data (fuel depth : Nat) (data : Option (List Byte)) (rest : List Byte) :
    parseValue (fuel + 1) depth (0x20 :: (encodeByteSlice data ++ rest)) =
      .ok (dataJSON data, rest) := by
  rw [parseValue_succ, skipSpace_cons_of_space _ _ (by decide)]
  cases data with
  | none =>
    have hnull : ascii "null" = [0x6E, 0x75, 0x6C, 0x6C] := rfl
    simp only [encodeByteSlice, hnull, List.cons_append, List.nil_append]
    rw [skipSpace_cons_of_not _ _ (by decide)]
    rfl
  | some bs =>
    have hp := base64Encode_plain bs
    have h1 := scanChunk_plainText (base64Encode bs) (fun x hx => (hp x hx).1) (0x22 :: rest)
    have hq : scanString ((0x22 : Byte) :: rest) = some ([], rest) := by
      rw [scanString_cons, if_pos (by decide)]
    rw [hq] at h1
    simp only [Option.map_some', List.append_nil] at h1
    simp only [encodeByteSlice, List.singleton_append, List.cons_append, List.append_assoc,
      skipSpace_quote, show (0x22 : Byte).val = 0x22 from rfl, List.nil_append, h1, unquote,
      unquoteLoop_plainText (base64Encode bs) (fun x hx => (hp x hx).1) _ (le_refl _), dataJSON]
    rfl

theorem appendString_append (s : GoString) (X : List Byte) :
    appendString s ++ X = 0x22 :: (appendStringLoop s.length s ++ 0x22 :: X) := by
  simp only [appendString, List.singleton_append, List.cons_append, List.append_assoc,
    List.nil_append]

theorem member_comma (fuel depth : Nat) (name : GoString) (hn : validUTF8 name = true)
    (tail : List Byte) (v : JSON) (gap next : List Byte) (ms : List (GoString × JSON))
    (rest : List Byte) (hv : parseValue fuel depth tail = .ok (v, 0x2C :: gap))
    (hgap : skipSpace gap = next) (hms : parseMembers fuel depth next = .ok (ms, rest)) :
    parseMembers (fuel + 1) depth (appendString name ++ 0x3A :: tail) =
      .ok ((name, v) :: ms, rest) := by
  rw [parseMembers_appendString fuel depth name hn]
  simp only [afterName, hv, skipSpace_cons_of_not (0x2C : Byte) gap (by decide),
    show (0x2C : Byte).val = 0x2C from rfl, if_true, hgap, hms]

theorem member_close (fuel depth : Nat) (name : GoString) (hn : validUTF8 name = true)
    (tail : List Byte) (v : JSON) (gap rest : List Byte)
    (hv : parseValue fuel depth tail = .ok (v, gap)) (hgap : skipSpace gap = 0x7D :: rest) :
    parseMembers (fuel + 1) depth (appendString name ++ 0x3A :: tail) =
      .ok ([(name, v)], rest) := by
  rw [parseMembers_appendString fuel depth name hn]
  simp only [afterName, hv, hgap, show (0x7D : Byte).val = 0x7D from rfl]
  rfl

theorem object_open (fuel depth : Nat) (s body : List Byte) (name : GoString) (X : List Byte)
    (ms : List (GoString × JSON)) (rest : List Byte) (hd : depth < maxNestingDepth)
    (hs : skipSpace s = 0x7B :: body) (hbody : skipSpace body = appendString name ++ X)
    (hms : parseMembers fuel (depth + 1) (appendString name ++ X) = .ok (ms, rest)) :
    parseValue (fuel + 1) depth s = .ok (.obj ms, rest) := by
  rw [parseValue_succ, hs]
  rw [appendString_append] at hbody hms
  simp only [show (0x7B : Byte).val = 0x7B from rfl, if_true, if_neg (Nat.not_le.mpr hd), hbody,
    show ¬ (0x22 : Byte).val = 0x7D by decide, if_false, hms]

theorem encodeItem_append (it : Item) (rest : List Byte) :
    encodeItem it ++ rest =
      0x7B :: 0x0A :: 0x20 :: 0x20 :: 0x20 :: 0x20 ::
        (appendString (ascii "Key") ++ 0x3A :: 0x20 :: (appendString it.Key ++
          0x2C :: 0x0A :: 0x20 :: 0x20 :: 0x20 :: 0x20 ::
        (appendString (ascii "Data") ++ 0x3A :: 0x20 :: (encodeByteSlice it.Data ++
          0x2C :: 0x0A :: 0x20 :: 0x20 :: 0x20 :: 0x20 ::
        (appendString (ascii "Label") ++ 0x3A :: 0x20 :: (appendString it.Label ++
          0x2C :: 0x0A :: 0x20 :: 0x20 :: 0x20 :: 0x20 ::
        (appendString (ascii "Description") ++ 0x3A :: 0x20 :: (appendString it.Description ++
          0x0A :: 0x20 :: 0x20 :: 0x7D :: rest)))))))) := by
  have h1 : ascii "\x7b\n    \"Key\": " =
      0x7B :: 0x0A :: 0x20 :: 0x20 :: 0x20 :: 0x20 :: (appendString (ascii "Key") ++ [0x3A, 0x20]) :=
    rfl
  have h2 : ascii ",\n    \"Data\": " =
      0x2C :: 0x0A :: 0x20 :: 0x20 :: 0x20 :: 0x20 :: (appendString (ascii "Data") ++ [0x3A, 0x20]) :=
    rfl
  have h3 : ascii ",\n    \"Label\": " =
      0x2C :: 0x0A :: 0x20 :: 0x20 :: 0x20 :: 0x20 :: (appendString (ascii "Label") ++ [0x3A, 0x20]) :=
    rfl
  have h4 : ascii ",\n    \"Description\": " =
      0x2C :: 0x0A :: 0x20 :: 0x20 :: 0x20 :: 0x20 ::
        (appendString (ascii "Description") ++ [0x3A, 0x20]) :=
    rfl
  have h5 : ascii "\n  \x7d" = [0x0A, 0x20, 0x20, 0x7D] := rfl
  rw [encodeItem, h1, h2, h3, h4, h5]
  simp only [List.append_assoc, List.cons_append, List.nil_append]

theorem parseValue_item (fuel depth : Nat) (it : Item) (hit : it.validStrings)
    (hd : depth < maxNestingDepth) (rest : List Byte) :
    parseValue (fuel + 6) depth (0x20 :: (encodeItem it ++ rest)) = .ok (itemJSON it, rest) := by
  have hsp : ∀ X : List Byte, skipSpace (0x0A :: 0x20 :: 0x20 :: 0x20 :: 0x20 :: X) = skipSpace X := by
    intro X
    rw [skipSpace_cons_of_space _ _ (by decide), skipSpace_cons_of_space _ _ (by decide),
      skipSpace_cons_of_space _ _ (by decide), skipSpace_cons_of_space _ _ (by decide),
      skipSpace_cons_of_space _ _ (by decide)]
  rw [encodeItem_append]
  refine object_open (fuel + 5) depth _ _ (ascii "Key") _ _ rest hd
    (by rw [skipSpace_cons_of_space _ _ (by decide), skipSpace_cons_of_not _ _ (by decide)])
    (by rw [hsp, skipSpace_appendString]) ?_
  refine member_comma (fuel + 4) (depth + 1) (ascii "Key") (by decide) _ _ _ _ _ rest
    (parseValue_string (fuel + 3) (depth + 1) it.Key hit.1 _)
    (by rw [hsp, skipSpace_appendString]) ?_
  refine member_comma (fuel + 3) (depth + 1) (ascii "Data") (by decide) _ _ _ _ _ rest
    (parseValue_data (fuel + 2) (depth + 1) it.Data _)
    (by rw [hsp, skipSpace_appendString]) ?_
  refine member_comma (fuel + 2) (depth + 1) (ascii "Label") (by decide) _ _ _ _ _ rest
    (parseValue_string (fuel + 1) (depth + 1) it.Label hit.2.1 _)
    (by rw [hsp, skipSpace_appendString]) ?_
  exact member_close (fuel + 1) (depth + 1) (ascii "Description") (by decide) _ _ _ rest
    (parseValue_string fuel (depth + 1) it.Description hit.2.2 _)
    (by rw [skipSpace_cons_of_space _ _ (by decide), skipSpace_cons_of_space _ _ (by decide),
      skipSpace_cons_of_space _ _ (by decide), skipSpace_cons_of_not _ _ (by decide)])

theorem entriesTail_nil (rest : List Byte) : entriesTail [] rest = 0x0A :: 0x7D :: rest := rfl

theorem entriesTail_cons (e : GoString × Item) (es : List (GoString × Item)) (rest : List Byte) :
    entriesTail (e :: es) rest =
      0x2C :: 0x0A :: 0x20 :: 0x20 :: (appendString e.1 ++ 0x3A :: 0x20 ::
        (encodeItem e.2 ++ entriesTail es rest)) := by
  have h1 : ascii ",\n" = [0x2C, 0x0A] := rfl
  have h2 : ascii "  " = [0x20, 0x20] := rfl
  have h3 : ascii ": " = [0x3A, 0x20] := rfl
  simp only [entriesTail, List.map_cons, List.flatten_cons, encodeEntry, h1, h2, h3,
    List.append_assoc, List.cons_append, List.nil_append]

theorem entriesTail_length (es : List (GoString × Item)) (rest : List Byte) :
    2 * es.length + 2 ≤ (entriesTail es rest).length := by
  induction es with
  | nil => simp [entriesTail_nil]
  | cons e es ih =>
    rw [entriesTail_cons]
    simp only [List.length_cons, List.length_append]
    omega

theorem parseMembers_entries (es : List (GoString × Item)) (e : GoString × Item) (fuel : Nat)
    (rest : List Byte) (he : validUTF8 e.1 = true ∧ e.2.validStrings)
    (hes : ∀ x ∈ es, validUTF8 x.1 = true ∧ x.2.validStrings) :
    parseMembers (fuel + es.length + 7) 1
        (appendString e.1 ++ 0x3A :: 0x20 :: (encodeItem e.2 ++ entriesTail es rest)) =
      .ok ((e.1, itemJSON e.2) :: es.map (fun x => (x.1, itemJSON x.2)), rest) := by
  induction es generalizing e with
  | nil =>
    rw [entriesTail_nil]
    exact member_close (fuel + 6) 1 e.1 he.1 _ _ _ rest
      (parseValue_item fuel 1 e.2 he.2 (by decide) _)
      (by rw [skipSpace_cons_of_space _ _ (by decide), skipSpace_cons_of_not _ _ (by decide)])
  | cons e2 es ih =>
    rw [entriesTail_cons]
    have hF : fuel + (e2 :: es).length + 7 = (fuel + es.length + 1 + 6) + 1 := by
      simp only [List.length_cons]; omega
    rw [hF]
    refine member_comma (fuel + es.length + 1 + 6) 1 e.1 he.1 _ _ _ _ _ rest
      (parseValue_item (fuel + es.length + 1) 1 e.2 he.2 (by decide) _)
      (by rw [skipSpace_cons_of_space _ _ (by decide), skipSpace_cons_of_space _ _ (by decide),
        skipSpace_cons_of_space _ _ (by decide), skipSpace_appendString]) ?_
    have hF2 : fuel + es.length + 1 + 6 = fuel + es.length + 7 := by omega
    rw [hF2]
    exact ih e2 (hes e2 (List.mem_cons_self _ _)) (fun x hx => hes x (List.mem_cons_of_mem _ hx))

theorem parseDocument_entries (e : GoString × Item) (es : List (GoString × Item))
    (he : validUTF8 e.1 = true ∧ e.2.validStrings)
    (hes : ∀ x ∈ es, validUTF8 x.1 = true ∧ x.2.validStrings) :
    parseDocument (ascii "\x7b\n" ++ encodeEntry e ++
        (es.map (fun e => ascii ",\n" ++ encodeEntry e)).flatten ++ ascii "\n\x7d") =
      .ok (.obj ((e.1, itemJSON e.2) :: es.map (fun x => (x.1, itemJSON x.2)))) := by
  have h1 : ascii "\x7b\n" = [0x7B, 0x0A] := rfl
  have h2 : ascii "  " = [0x20, 0x20] := rfl
  have h3 : ascii ": " = [0x3A, 0x20] := rfl
  have h4 : ascii "\n\x7d" = [0x0A, 0x7D] := rfl
  have hdoc : ascii "\x7b\n" ++ encodeEntry e ++
      (es.map (fun e => ascii ",\n" ++ encodeEntry e)).flatten ++ ascii "\n\x7d" =
      0x7B :: 0x0A :: 0x20 :: 0x20 :: (appendString e.1 ++ 0x3A :: 0x20 ::
        (encodeItem e.2 ++ entriesTail es [])) := by
    simp only [entriesTail, encodeEntry, h1, h2, h3, h4, List.append_assoc, List.cons_append,
      List.nil_append]
  rw [hdoc]
  unfold parseDocument
  have hlen := entriesTail_length es []
  obtain ⟨fuel, hfuel⟩ : ∃ fuel, 2 * (0x7B :: 0x0A :: 0x20 :: 0x20 :: (appendString e.1 ++
      0x3A :: 0x20 :: (encodeItem e.2 ++ entriesTail es []))).length + 2 =
      (fuel + es.length + 7) + 1 := by
    refine ⟨2 * (0x7B :: 0x0A :: 0x20 :: 0x20 :: (appendString e.1 ++
      0x3A :: 0x20 :: (encodeItem e.2 ++ entriesTail es []))).length + 2 - (es.length + 8), ?_⟩
    simp only [List.length_cons, List.length_append]
    omega
  rw [hfuel, object_open (fuel + es.length + 7) 0 _ _ e.1 _ _ [] (by decide)
    (skipSpace_cons_of_not _ _ (by decide))
    (by rw [skipSpace_cons_of_space _ _ (by decide), skipSpace_cons_of_space _ _ (by decide),
      skipSpace_cons_of_space _ _ (by decide), skipSpace_appendString])
    (parseMembers_entries es e fuel [] he hes)]
  rfl

theorem decodeItem_itemJSON (it : Item) : decodeItem (itemJSON it) = .ok it := by
  have h1 : fieldOf (ascii "Key") = some .Key := by decide
  have h2 : fieldOf (ascii "Data") = some .Data := by decide
  have h3 : fieldOf (ascii "Label") = some .Label := by decide
  have h4 : fieldOf (ascii "Description") = some .Description := by decide
  have hd : storeBytes none [] (dataJSON it.Data) = .ok (it.Data, []) := by
    cases it.Data with
    | none => rfl
    | some bs => simp only [dataJSON, storeBytes, base64Decode_encode]
  simp only [decodeItem, itemJSON, storeMembers, storeMember, h1, h2, h3, h4, storeString,
    Except.map, Item.zero, hd]

theorem decodeEntries_map (L : List (GoString × Item)) (acc : GoMap) :
    decodeEntries acc (L.map (fun x => (x.1, itemJSON x.2))) =
      .ok (L.foldl (fun m x => mapInsert m x.1 x.2) acc) := by
  induction L generalizing acc with
  | nil => rfl
  | cons x L ih =>
    simp only [List.map_cons, decodeEntries, decodeItem_itemJSON, List.foldl_cons, ih]

/-! ## Decoding what was encoded -/

theorem mem_sortedKeys (es : GoMap) (k : GoString) :
    k ∈ sortedKeys es ↔ ∃ e ∈ es, e.1 = k := by
  unfold sortedKeys
  rw [(List.perm_insertionSort _ _).mem_iff, List.mem_dedup, List.mem_map]

theorem mapLookup_some_mem (es : GoMap) (k : GoString) (it : Item)
    (h : mapLookup (some es) k = some it) : ∃ e ∈ es, e.1 = k := by
  simp only [mapLookup, Option.map_eq_some'] at h
  obtain ⟨e, he, _⟩ := h
  exact ⟨e, List.mem_of_find?_eq_some he, by simpa using List.find?_some he⟩

theorem mem_sortedEntries (es : GoMap) (e : GoString × Item) :
    e ∈ sortedEntries es ↔ mapLookup (some es) e.1 = some e.2 := by
  unfold sortedEntries
  rw [List.mem_filterMap]
  constructor
  · rintro ⟨k, _, hk⟩
    simp only [Option.map_eq_some'] at hk
    obtain ⟨it, hit, rfl⟩ := hk
    exact hit
  · intro h
    refine ⟨e.1, (mem_sortedKeys es e.1).mpr (mapLookup_some_mem es e.1 e.2 h), ?_⟩
    rw [h]
    rfl

theorem lookup_foldl_sound (es : GoMap) (L : List (GoString × Item)) (acc : GoMap)
    (hL : ∀ x ∈ L, mapLookup (some es) x.1 = some x.2)
    (hacc : ∀ k it, mapLookup (some acc) k = some it → mapLookup (some es) k = some it) :
    ∀ k it, mapLookup (some (L.foldl (fun m x => mapInsert m x.1 x.2) acc)) k = some it →
      mapLookup (some es) k = some it := by
  induction L generalizing acc with
  | nil => exact hacc
  | cons x L ih =>
    rw [List.foldl_cons]
    apply ih _ (fun y hy => hL y (List.mem_cons_of_mem _ hy))
    intro k it h
    by_cases hk : k = x.1
    · subst hk
      rw [mapLookup_insert_self] at h
      rw [hL x (List.mem_cons_self _ _), ← h]
    · rw [mapLookup_insert_ne acc x.1 k x.2 hk] at h
      exact hacc k it h

theorem lookup_foldl_present (L : List (GoString × Item)) (acc : GoMap) (k : GoString)
    (h : (mapLookup (some acc) k).isSome ∨ ∃ x ∈ L, x.1 = k) :
    (mapLookup (some (L.foldl (fun m x => mapInsert m x.1 x.2) acc)) k).isSome := by
  induction L generalizing acc with
  | nil =>
    rcases h with h | ⟨x, hx, _⟩
    · exact h
    · simp at hx
  | cons y L ih =>
    rw [List.foldl_cons]
    apply ih
    by_cases hk : k = y.1
    · left
      subst hk
      rw [mapLookup_insert_self]
      rfl
    · rcases h with h | ⟨x, hx, hxk⟩
      · left
        rw [mapLookup_insert_ne acc y.1 k y.2 hk]
        exact h
      · rcases List.mem_cons.mp hx with h1 | h1
        · subst h1
          exact absurd hxk.symm hk
        · right
          exact ⟨x, h1, hxk⟩

theorem lookup_foldl_sortedEntries (es : GoMap) (k : GoString) :
    mapLookup (some ((sortedEntries es).foldl (fun m x => mapInsert m x.1 x.2) [])) k =
      mapLookup (some es) k := by
  have hsound := lookup_foldl_sound es (sortedEntries es) []
    (fun x hx => (mem_sortedEntries es x).mp hx) (fun k it h => by simp [mapLookup] at h)
  cases h : mapLookup (some es) k with
  | some it =>
    have hp := lookup_foldl_present (sortedEntries es) [] k
      (Or.inr ⟨(k, it), (mem_sortedEntries es (k, it)).mpr h, rfl⟩)
    obtain ⟨it1, h1⟩ := Option.isSome_iff_exists.mp hp
    rw [h1, ← h, hsound k it1 h1]
  | none =>
    cases h1 : mapLookup (some ((sortedEntries es).foldl (fun m x => mapInsert m x.1 x.2) [])) k with
    | none => rfl
    | some it1 =>
      rw [hsound k it1 h1] at h
      exact absurd h (by simp)

/-- Decoding the document that `MarshalIndent` writes for a map with valid UTF-8 strings, into
a fresh empty map, gives a map with the same entries; the nil map comes back as the nil map. -/
theorem Unmarshal_MarshalIndent (m : Option GoMap) (hv : MapValid m) :
    ∃ doc m1, MarshalIndent m = .ok doc ∧ Unmarshal doc (some []) = .ok m1 ∧
      m1.isSome = m.isSome ∧ ∀ k, mapLookup m1 k = mapLookup m k := by
  cases m with
  | none => exact ⟨_, none, rfl, rfl, rfl, fun _ => rfl⟩
  | some es =>
    have hlook := lookup_foldl_sortedEntries es
    have hvalid : ∀ x ∈ sortedEntries es, validUTF8 x.1 = true ∧ x.2.validStrings :=
      fun x hx => hv x.1 x.2 ((mem_sortedEntries es x).mp hx)
    cases hse : sortedEntries es with
    | nil =>
      rw [hse] at hlook
      have hm : MarshalIndent (some es) = .ok (ascii "\x7b\x7d") := by
        simp only [MarshalIndent, hse]
      exact ⟨_, some [], hm, rfl, rfl, hlook⟩
    | cons e rest =>
      rw [hse] at hlook hvalid
      have hm : MarshalIndent (some es) = .ok (ascii "\x7b\n" ++ encodeEntry e ++
          (rest.map (fun e => ascii ",\n" ++ encodeEntry e)).flatten ++ ascii "\n\x7d") := by
        simp only [MarshalIndent, hse]
      refine ⟨_, some ((e :: rest).foldl (fun m x => mapInsert m x.1 x.2) []), hm, ?_, rfl,
        hlook⟩
      simp only [Unmarshal, parseDocument_entries e rest (hvalid e (List.mem_cons_self _ _))
        (fun x hx => hvalid x (List.mem_cons_of_mem _ hx)), Option.getD_some]
      have := decodeEntries_map (e :: rest) []
      simp only [List.map_cons] at this
      rw [this]

/-! ## The bounds of the loops are never what stops them -/

theorem skipSpace_length_le (s : List Byte) : (skipSpace s).length ≤ s.length := by
  induction s with
  | nil => simp [skipSpace]
  | cons c s ih =>
    unfold skipSpace
    split_ifs
    · simp only [List.length_cons]; omega
    · exact le_refl _

theorem scanString_length (n : Nat) : ∀ (s raw r : List Byte), s.length ≤ n →
    scanString s = some (raw, r) → r.length < s.length := by
  induction n with
  | zero =>
    intro s raw r hn h
    cases s with
    | nil => simp [scanString] at h
    | cons c s => simp at hn
  | succ n ih =>
    intro s raw r hn h
    cases s with
    | nil => simp [scanString] at h
    | cons c rest =>
      rw [scanString_cons] at h
      simp only [List.length_cons] at hn ⊢
      split_ifs at h with h1 h2 h3
      · simp only [Option.some.injEq, Prod.mk.injEq] at h
        rw [← h.2]; omega
      · cases rest with
        | nil => simp at h
        | cons e rest1 =>
          simp only at h
          split_ifs at h with h4 h5
          · simp only [Option.map_eq_some'] at h
            obtain ⟨p, hp, hpe⟩ := h
            have := ih rest1 p.1 p.2 (by simp only [List.length_cons] at hn; omega) hp
            simp only [Prod.mk.injEq] at hpe
            rw [← hpe.2]
            simp only [List.length_cons]; omega
          · match rest1, h with
            | h1 :: h2 :: h3 :: h4 :: rest2, h =>
              simp only at h
              split_ifs at h
              simp only [Option.map_eq_some'] at h
              obtain ⟨p, hp, hpe⟩ := h
              have := ih rest2 p.1 p.2 (by simp only [List.length_cons] at hn; omega) hp
              simp only [Prod.mk.injEq] at hpe
              rw [← hpe.2]
              simp only [List.length_cons]; omega
            | [], h => simp at h
            | [_], h => simp at h
            | [_, _], h => simp at h
            | [_, _, _], h => simp at h
      · simp only [Option.map_eq_some'] at h
        obtain ⟨p, hp, hpe⟩ := h
        have := ih rest p.1 p.2 (by omega) hp
        simp only [Prod.mk.injEq] at hpe
        rw [← hpe.2]; omega

theorem span_length (p : Byte → Bool) (s : List Byte) :
    (s.span p).1.length + (s.span p).2.length = s.length := by
  rw [List.span_eq_take_drop, ← List.length_append, List.takeWhile_append_dropWhile]

theorem scanDigits_length (s ds r : List Byte) (h : scanDigits s = some (ds, r)) :
    r.length < s.length := by
  unfold scanDigits at h
  have hl := span_length isDigit s
  split at h
  · simp at h
  · rename_i a b hne heq
    simp only [Option.some.injEq, Prod.mk.injEq] at h
    obtain ⟨h1, h2⟩ := h
    subst h1 h2
    rw [heq] at hl
    simp only at hl
    have : 0 < a.length := List.length_pos.mpr (by
      intro h0
      exact hne h0)
    omega


theorem scanInt_length (s i r : List Byte) (h : scanInt s = some (i, r)) :
    r.length < s.length := by
  cases s with
  | nil => simp [scanInt] at h
  | cons c rest =>
    unfold scanInt at h
    have hl := span_length isDigit rest
    simp only at h
    split_ifs at h
    · simp only [Option.some.injEq, Prod.mk.injEq] at h
      rw [← h.2]; simp
    · simp only [Option.some.injEq, Prod.mk.injEq] at h
      rw [← h.2]; simp only [List.length_cons]; omega

theorem scanFrac_length (s f r : List Byte) (h : scanFrac s = some (f, r)) :
    r.length ≤ s.length := by
  cases s with
  | nil =>
    simp only [scanFrac, Option.some.injEq, Prod.mk.injEq] at h
    rw [← h.2]
  | cons c rest =>
    unfold scanFrac at h
    simp only at h
    split_ifs at h
    · simp only [Option.map_eq_some'] at h
      obtain ⟨p, hp, hpe⟩ := h
      have := scanDigits_length rest p.1 p.2 hp
      simp only [Prod.mk.injEq] at hpe
      rw [← hpe.2]; simp only [List.length_cons]; omega
    · simp only [Option.some.injEq, Prod.mk.injEq] at h
      rw [← h.2]

theorem scanExp_length (s e r : List Byte) (h : scanExp s = some (e, r)) :
    r.length ≤ s.length := by
  cases s with
  | nil =>
    simp only [scanExp, Option.some.injEq, Prod.mk.injEq] at h
    rw [← h.2]
  | cons c rest =>
    unfold scanExp at h
    simp only at h
    split_ifs at h
    · cases rest with
      | nil => simp at h
      | cons g rest1 =>
        simp only at h
        split_ifs at h
        · simp only [Option.map_eq_some'] at h
          obtain ⟨p, hp, hpe⟩ := h
          have := scanDigits_length rest1 p.1 p.2 hp
          simp only [Prod.mk.injEq] at hpe
          rw [← hpe.2]; simp only [List.length_cons]; omega
        · simp only [Option.map_eq_some'] at h
          obtain ⟨p, hp, hpe⟩ := h
          have := scanDigits_length (g :: rest1) p.1 p.2 hp
          simp only [Prod.mk.injEq] at hpe
          rw [← hpe.2]; simp only [List.length_cons] at this ⊢; omega
    · simp only [Option.some.injEq, Prod.mk.injEq] at h
      rw [← h.2]

theorem scanNumber_rest (pre s0 lit r : List Byte)
    (h : (match scanInt s0 with
      | none => none
      | some (i, s1) =>
        match scanFrac s1 with
        | none => none
        | some (f, s2) =>
          match scanExp s2 with
          | none => none
          | some (e, s3) => some (pre ++ i ++ f ++ e, s3)) = some (lit, r)) :
    r.length < s0.length := by
  split at h
  · simp at h
  · rename_i i s1 hi
    split at h
    · simp at h
    · rename_i f s2 hf
      split at h
      · simp at h
      · rename_i e s3 he
        simp only [Option.some.injEq, Prod.mk.injEq] at h
        rw [← h.2]
        have h1 := scanInt_length _ _ _ hi
        have h2 := scanFrac_length _ _ _ hf
        have h3 := scanExp_length _ _ _ he
        omega

theorem scanNumber_length (s lit r : List Byte) (h : scanNumber s = some (lit, r)) :
    r.length < s.length := by
  unfold scanNumber at h
  cases s with
  | nil => simp [scanInt] at h
  | cons c rest =>
    simp only at h
    by_cases hc : c.val = 0x2D
    · simp only [hc, if_true] at h
      have := scanNumber_rest _ _ _ _ h
      simp only [List.length_cons]; omega
    · simp only [hc, if_false] at h
      exact scanNumber_rest _ _ _ _ h

theorem dropLit_length (lit s r : List Byte) (h : dropLit lit s = some r) :
    r.length ≤ s.length := by
  induction lit generalizing s with
  | nil =>
    simp only [dropLit, Option.some.injEq] at h
    rw [h]
  | cons l ls ih =>
    cases s with
    | nil => simp [dropLit] at h
    | cons c cs =>
      unfold dropLit at h
      split_ifs at h
      have := ih cs h
      simp only [List.length_cons]; omega

theorem parseElems_succ (fuel depth : Nat) (s : List Byte) :
    parseElems (fuel + 1) depth s =
      match parseValue fuel depth s with
      | .error e => .error e
      | .ok (v, rest1) =>
        match skipSpace rest1 with
        | [] => .error .SyntaxError
        | t :: rest2 =>
          if t.val = 0x2C then
            match parseElems fuel depth rest2 with
            | .error e => .error e
            | .ok (vs, rest3) => .ok (v :: vs, rest3)
          else if t.val = 0x5D then .ok ([v], rest2)
          else .error .SyntaxError := by
  rfl

/-- Each of the three scanners, when it succeeds, leaves less input than it was given. -/
theorem parse_rest_shorter (fuel : Nat) : ∀ (depth : Nat) (s : List Byte),
    (∀ v r, parseValue fuel depth s = .ok (v, r) → r.length < s.length) ∧
    (∀ ms r, parseMembers fuel depth s = .ok (ms, r) → r.length < s.length) ∧
    (∀ vs r, parseElems fuel depth s = .ok (vs, r) → r.length < s.length) := by
  induction fuel with
  | zero =>
    intro depth s
    refine ⟨?_, ?_, ?_⟩ <;> intro a r h <;> simp [parseValue, parseMembers, parseElems] at h
  | succ fuel ih =>
    intro depth s
    refine ⟨?_, ?_, ?_⟩
    · intro v r h
      rw [parseValue_succ] at h
      have hsk := skipSpace_length_le s
      cases hs : skipSpace s with
      | nil => simp [hs] at h
      | cons c rest =>
        rw [hs] at h hsk
        simp only [List.length_cons] at hsk
        simp only at h
        have hsk2 := skipSpace_length_le rest
        split_ifs at h with c1 c2 c3 c4 c5 c6 c7 c8
        · cases hr : skipSpace rest with
          | nil => simp [hr] at h
          | cons d rest1 =>
            rw [hr] at h hsk2
            simp only [List.length_cons] at hsk2
            simp only at h
            split_ifs at h
            · simp only [Except.ok.injEq, Prod.mk.injEq] at h
              rw [← h.2]; omega
            · cases hm : parseMembers fuel (depth + 1) (d :: rest1) with
              | error e => simp [hm] at h
              | ok p =>
                obtain ⟨ms, rest2⟩ := p
                simp only [hm, Except.ok.injEq, Prod.mk.injEq] at h
                have := (ih (depth + 1) (d :: rest1)).2.1 ms rest2 hm
                simp only [List.length_cons] at this
                rw [← h.2]; omega
        · cases hr : skipSpace rest with
          | nil => simp [hr] at h
          | cons d rest1 =>
            rw [hr] at h hsk2
            simp only [List.length_cons] at hsk2
            simp only at h
            split_ifs at h
            · simp only [Except.ok.injEq, Prod.mk.injEq] at h
              rw [← h.2]; omega
            · cases hm : parseElems fuel (depth + 1) (d :: rest1) with
              | error e => simp [hm] at h
              | ok p =>
                obtain ⟨ms, rest2⟩ := p
                simp only [hm, Except.ok.injEq, Prod.mk.injEq] at h
                have := (ih (depth + 1) (d :: rest1)).2.2 ms rest2 hm
                simp only [List.length_cons] at this
                rw [← h.2]; omega
        · cases hq : scanString rest with
          | none => simp [hq] at h
          | some p =>
            obtain ⟨raw, rest1⟩ := p
            have := scanString_length _ rest raw rest1 (le_refl _) hq
            simp only [hq] at h
            split at h
            · simp at h
            · simp only [Except.ok.injEq, Prod.mk.injEq] at h
              rw [← h.2]; omega
        · cases hq : scanNumber (c :: rest) with
          | none => simp [hq] at h
          | some p =>
            obtain ⟨lit, rest1⟩ := p
            have := scanNumber_length _ lit rest1 hq
            simp only [List.length_cons] at this
            simp only [hq, Except.ok.injEq, Prod.mk.injEq] at h
            rw [← h.2]; omega
        · cases hq : dropLit (ascii "rue") rest with
          | none => simp [hq] at h
          | some rest1 =>
            have := dropLit_length _ _ _ hq
            simp only [hq, Except.ok.injEq, Prod.mk.injEq] at h
            rw [← h.2]; omega
        · cases hq : dropLit (ascii "alse") rest with
          | none => simp [hq] at h
          | some rest1 =>
            have := dropLit_length _ _ _ hq
            simp only [hq, Except.ok.injEq, Prod.mk.injEq] at h
            rw [← h.2]; omega
        · cases hq : dropLit (ascii "ull") rest with
          | none => simp [hq] at h
          | some rest1 =>
            have := dropLit_length _ _ _ hq
            simp only [hq, Except.ok.injEq, Prod.mk.injEq] at h
            rw [← h.2]; omega
    · intro ms r h
      rw [parseMembers_succ] at h
      cases s with
      | nil => simp at h
      | cons q rest =>
        simp only at h
        split_ifs at h
        cases hq : scanString rest with
        | none => simp [hq] at h
        | some p =>
          obtain ⟨raw, rest1⟩ := p
          have h1 := scanString_length _ rest raw rest1 (le_refl _) hq
          simp only [hq] at h
          split at h
          · simp at h
          · have h2 := skipSpace_length_le rest1
            cases hc : skipSpace rest1 with
            | nil => simp [hc] at h
            | cons colon rest2 =>
              rw [hc] at h h2
              simp only [List.length_cons] at h2
              simp only at h
              split_ifs at h
              cases hv : parseValue fuel depth rest2 with
              | error e => simp [hv] at h
              | ok p =>
                obtain ⟨v, rest3⟩ := p
                have h3 := (ih depth rest2).1 v rest3 hv
                simp only [hv] at h
                have h4 := skipSpace_length_le rest3
                cases ht : skipSpace rest3 with
                | nil => simp [ht] at h
                | cons t rest4 =>
                  rw [ht] at h h4
                  simp only [List.length_cons] at h4
                  simp only at h
                  split_ifs at h
                  · have h5 := skipSpace_length_le rest4
                    cases hm : parseMembers fuel depth (skipSpace rest4) with
                    | error e => simp [hm] at h
                    | ok p =>
                      obtain ⟨ms1, rest5⟩ := p
                      have h6 := (ih depth (skipSpace rest4)).2.1 ms1 rest5 hm
                      simp only [hm, Except.ok.injEq, Prod.mk.injEq] at h
                      rw [← h.2]; simp only [List.length_cons]; omega
                  · simp only [Except.ok.injEq, Prod.mk.injEq] at h
                    rw [← h.2]; simp only [List.length_cons]; omega
    · intro vs r h
      rw [parseElems_succ] at h
      cases hv : parseValue fuel depth s with
      | error e => simp [hv] at h
      | ok p =>
        obtain ⟨v, rest1⟩ := p
        have h3 := (ih depth s).1 v rest1 hv
        simp only [hv] at h
        have h4 := skipSpace_length_le rest1
        cases ht : skipSpace rest1 with
        | nil => simp [ht] at h
        | cons t rest2 =>
          rw [ht] at h h4
          simp only [List.length_cons] at h4
          simp only at h
          split_ifs at h
          · cases hm : parseElems fuel depth rest2 with
            | error e => simp [hm] at h
            | ok p =>
              obtain ⟨vs1, rest3⟩ := p
              have h6 := (ih depth rest2).2.2 vs1 rest3 hm
              simp only [hm, Except.ok.injEq, Prod.mk.injEq] at h
              rw [← h.2]; omega
          · simp only [Except.ok.injEq, Prod.mk.injEq] at h
            rw [← h.2]; omega

/-- With fuel of at least twice the length of the input, and one or two more, none of the three
scanners stops for lack of fuel. -/
theorem parse_fuel_suffices (fuel : Nat) : ∀ (depth : Nat) (s : List Byte),
    (2 * s.length + 1 ≤ fuel → parseValue fuel depth s ≠ .error .outOfFuel) ∧
    (2 * s.length + 1 ≤ fuel → parseMembers fuel depth s ≠ .error .outOfFuel) ∧
    (2 * s.length + 2 ≤ fuel → parseElems fuel depth s ≠ .error .outOfFuel) := by
  induction fuel with
  | zero =>
    intro depth s
    refine ⟨?_, ?_, ?_⟩ <;> intro h <;> omega
  | succ fuel ih =>
    intro depth s
    refine ⟨?_, ?_, ?_⟩
    · intro hf h
      rw [parseValue_succ] at h
      have hsk := skipSpace_length_le s
      cases hs : skipSpace s with
      | nil => simp [hs] at h
      | cons c rest =>
        rw [hs] at h hsk
        simp only [List.length_cons] at hsk
        simp only at h
        have hsk2 := skipSpace_length_le rest
        by_cases c1 : c.val = 0x7B
        · simp only [c1, if_true] at h
          by_cases c2 : maxNestingDepth ≤ depth
          · simp [c2] at h
          · simp only [c2, if_false] at h
            cases hr : skipSpace rest with
            | nil => simp [hr] at h
            | cons d rest1 =>
              rw [hr] at h hsk2
              simp only [List.length_cons] at hsk2
              simp only at h
              by_cases c3 : d.val = 0x7D
              · simp [c3] at h
              · simp only [c3, if_false] at h
                cases hm : parseMembers fuel (depth + 1) (d :: rest1) with
                | error e =>
                  simp only [hm, Except.error.injEq] at h
                  subst h
                  exact (ih (depth + 1) (d :: rest1)).2.1
                    (by simp only [List.length_cons]; omega) hm
                | ok p => simp [hm] at h
        · simp only [c1, if_false] at h
          by_cases c4 : c.val = 0x5B
          · simp only [c4, if_true] at h
            by_cases c2 : maxNestingDepth ≤ depth
            · simp [c2] at h
            · simp only [c2, if_false] at h
              cases hr : skipSpace rest with
              | nil => simp [hr] at h
              | cons d rest1 =>
                rw [hr] at h hsk2
                simp only [List.length_cons] at hsk2
                simp only at h
                by_cases c3 : d.val = 0x5D
                · simp [c3] at h
                · simp only [c3, if_false] at h
                  cases hm : parseElems fuel (depth + 1) (d :: rest1) with
                  | error e =>
                    simp only [hm, Except.error.injEq] at h
                    subst h
                    exact (ih (depth + 1) (d :: rest1)).2.2
                      (by simp only [List.length_cons]; omega) hm
                  | ok p => simp [hm] at h
          · simp only [c4, if_false] at h
            split_ifs at h
            · cases hq : scanString rest with
              | none => simp [hq] at h
              | some p =>
                simp only [hq] at h
                split at h <;> simp at h
            · cases hq : scanNumber (c :: rest) with
              | none => simp [hq] at h
              | some p => simp [hq] at h
            · cases hq : dropLit (ascii "rue") rest with
              | none => simp [hq] at h
              | some rest1 => simp [hq] at h
            · cases hq : dropLit (ascii "alse") rest with
              | none => simp [hq] at h
              | some rest1 => simp [hq] at h
            · cases hq : dropLit (ascii "ull") rest with
              | none => simp [hq] at h
              | some rest1 => simp [hq] at h
            · simp at h
    · intro hf h
      rw [parseMembers_succ] at h
      cases s with
      | nil => simp at h
      | cons q rest =>
        simp only [List.length_cons] at hf
        simp only at h
        by_cases cq : q.val = 0x22
        · simp only [cq, if_true] at h
          cases hq : scanString rest with
          | none => simp [hq] at h
          | some p =>
            obtain ⟨raw, rest1⟩ := p
            have h1 := scanString_length _ rest raw rest1 (le_refl _) hq
            simp only [hq] at h
            cases hu : unquote raw with
            | none => simp [hu] at h
            | some key =>
              simp only [hu] at h
              have h2 := skipSpace_length_le rest1
              cases hc : skipSpace rest1 with
              | nil => simp [hc] at h
              | cons colon rest2 =>
                rw [hc] at h h2
                simp only [List.length_cons] at h2
                simp only at h
                by_cases cc : colon.val = 0x3A
                · simp only [cc, if_true] at h
                  cases hv : parseValue fuel depth rest2 with
                  | error e =>
                    simp only [hv, Except.error.injEq] at h
                    subst h
                    exact (ih depth rest2).1 (by omega) hv
                  | ok p =>
                    obtain ⟨v, rest3⟩ := p
                    have h3 := (parse_rest_shorter fuel depth rest2).1 v rest3 hv
                    simp only [hv] at h
                    have h4 := skipSpace_length_le rest3
                    cases ht : skipSpace rest3 with
                    | nil => simp [ht] at h
                    | cons t rest4 =>
                      rw [ht] at h h4
                      simp only [List.length_cons] at h4
                      simp only at h
                      by_cases ct : t.val = 0x2C
                      · simp only [ct, if_true] at h
                        have h5 := skipSpace_length_le rest4
                        cases hm : parseMembers fuel depth (skipSpace rest4) with
                        | error e =>
                          simp only [hm, Except.error.injEq] at h
                          subst h
                          exact (ih depth (skipSpace rest4)).2.1 (by omega) hm
                        | ok p => simp [hm] at h
                      · simp only [ct, if_false] at h
                        split_ifs at h
                        simp at h
                · simp [cc] at h
        · simp [cq] at h
    · intro hf h
      rw [parseElems_succ] at h
      cases hv : parseValue fuel depth s with
      | error e =>
        simp only [hv, Except.error.injEq] at h
        subst h
        exact (ih depth s).1 (by omega) hv
      | ok p =>
        obtain ⟨v, rest1⟩ := p
        have h3 := (parse_rest_shorter fuel depth s).1 v rest1 hv
        simp only [hv] at h
        have h4 := skipSpace_length_le rest1
        cases ht : skipSpace rest1 with
        | nil => simp [ht] at h
        | cons t rest2 =>
          rw [ht] at h h4
          simp only [List.length_cons] at h4
          simp only at h
          by_cases ct : t.val = 0x2C
          · simp only [ct, if_true] at h
            cases hm : parseElems fuel depth rest2 with
            | error e =>
              simp only [hm, Except.error.injEq] at h
              subst h
              exact (ih depth rest2).2.2 (by omega) hm
            | ok p => simp [hm] at h
          · simp only [ct, if_false] at h
            split_ifs at h
            simp at h

theorem storeString_ne_outOfFuel (cur : GoString) (v : JSON) :
    storeString cur v ≠ .error .outOfFuel := by
  cases v <;> simp [storeString]

theorem storeElems_ne_outOfFuel (es : List JSON) (cur : List Byte) :
    storeElems cur es ≠ .error .outOfFuel := by
  induction es generalizing cur with
  | nil => simp [storeElems]
  | cons e es ih =>
    intro h
    unfold storeElems at h
    simp only at h
    have hrest := ih cur.tail
    cases e with
    | num lit =>
      simp only at h
      cases hp : parseUint8 lit with
      | none => simp [hp] at h
      | some b =>
        simp only [hp] at h
        cases hr : storeElems cur.tail es with
        | error err =>
          simp only [hr, Except.error.injEq] at h
          subst h
          exact hrest hr
        | ok bs => simp [hr] at h
    | null =>
      simp only at h
      cases hr : storeElems cur.tail es with
      | error err =>
        simp only [hr, Except.error.injEq] at h
        subst h
        exact hrest hr
      | ok bs => simp [hr] at h
    | bool b => simp at h
    | str t => simp at h
    | arr vs => simp at h
    | obj ms => simp at h

theorem storeBytes_ne_outOfFuel (cur : Option (List Byte)) (spare : List Byte) (v : JSON) :
    storeBytes cur spare v ≠ .error .outOfFuel := by
  intro h
  cases v with
  | str t =>
    simp only [storeBytes] at h
    cases hb : base64Decode t <;> simp [hb] at h
  | arr elems =>
    cases elems with
    | nil => simp [storeBytes] at h
    | cons e es =>
      simp only [storeBytes] at h
      cases hr : storeElems (cur.getD [] ++ spare) (e :: es) with
      | error err =>
        simp only [hr, Except.error.injEq] at h
        subst h
        exact storeElems_ne_outOfFuel _ _ hr
      | ok bs => simp [hr] at h
  | null => simp [storeBytes] at h
  | bool b => simp [storeBytes] at h
  | num lit => simp [storeBytes] at h
  | obj ms => simp [storeBytes] at h

theorem storeMember_ne_outOfFuel (st : Item × List Byte) (m : GoString × JSON) :
    storeMember st m ≠ .error .outOfFuel := by
  intro h
  unfold storeMember at h
  cases hf : fieldOf m.1 with
  | none => simp [hf] at h
  | some fld =>
    cases fld with
    | Key =>
      simp only [hf] at h
      cases hs : storeString st.1.Key m.2 with
      | error err =>
        simp only [hs, Except.map, Except.error.injEq] at h
        subst h
        exact storeString_ne_outOfFuel _ _ hs
      | ok t => simp [hs, Except.map] at h
    | Data =>
      simp only [hf] at h
      cases hs : storeBytes st.1.Data st.2 m.2 with
      | error err =>
        simp only [hs, Except.map, Except.error.injEq] at h
        subst h
        exact storeBytes_ne_outOfFuel _ _ _ hs
      | ok t => simp [hs, Except.map] at h
    | Label =>
      simp only [hf] at h
      cases hs : storeString st.1.Label m.2 with
      | error err =>
        simp only [hs, Except.map, Except.error.injEq] at h
        subst h
        exact storeString_ne_outOfFuel _ _ hs
      | ok t => simp [hs, Except.map] at h
    | Description =>
      simp only [hf] at h
      cases hs : storeString st.1.Description m.2 with
      | error err =>
        simp only [hs, Except.map, Except.error.injEq] at h
        subst h
        exact storeString_ne_outOfFuel _ _ hs
      | ok t => simp [hs, Except.map] at h

theorem storeMembers_ne_outOfFuel (ms : List (GoString × JSON)) (st : Item × List Byte) :
    storeMembers st ms ≠ .error .outOfFuel := by
  induction ms generalizing st with
  | nil => simp [storeMembers]
  | cons m ms ih =>
    intro h
    unfold storeMembers at h
    cases hm : storeMember st m with
    | error err =>
      simp only [hm, Except.error.injEq] at h
      subst h
      exact storeMember_ne_outOfFuel _ _ hm
    | ok it1 =>
      simp only [hm] at h
      exact ih it1 h

theorem decodeItem_ne_outOfFuel (v : JSON) : decodeItem v ≠ .error .outOfFuel := by
  cases v with
  | obj ms =>
    intro h
    cases hm : storeMembers (Item.zero, []) ms with
    | error err =>
      simp only [decodeItem, hm, Except.map, Except.error.injEq] at h
      subst h
      exact storeMembers_ne_outOfFuel _ _ hm
    | ok st => simp [decodeItem, hm, Except.map] at h
  | null => simp [decodeItem]
  | bool b => simp [decodeItem]
  | num lit => simp [decodeItem]
  | str t => simp [decodeItem]
  | arr vs => simp [decodeItem]

theorem decodeEntries_ne_outOfFuel (ms : List (GoString × JSON)) (es : GoMap) :
    decodeEntries es ms ≠ .error .outOfFuel := by
  induction ms generalizing es with
  | nil => simp [decodeEntries]
  | cons m ms ih =>
    intro h
    unfold decodeEntries at h
    cases hm : decodeItem m.2 with
    | error err =>
      simp only [hm, Except.error.injEq] at h
      subst h
      exact decodeItem_ne_outOfFuel _ hm
    | ok it =>
      simp only [hm] at h
      exact ih _ h

/-- The recursion bound of the scanner is never what stops `json.Unmarshal`. -/
theorem Unmarshal_ne_outOfFuel (data : List Byte) (cur : Option GoMap) :
    Unmarshal data cur ≠ .error .outOfFuel := by
  have hp : parseDocument data ≠ .error .outOfFuel := by
    unfold parseDocument
    have := (parse_fuel_suffices (2 * data.length + 2) 0 data).1 (by omega)
    cases hv : parseValue (2 * data.length + 2) 0 data with
    | error e =>
      simp only [Except.error.injEq, ne_eq]
      intro he
      subst he
      exact this hv
    | ok p =>
      simp only
      split_ifs <;> simp
  intro h
  unfold Unmarshal at h
  cases hd : parseDocument data with
  | error err =>
    simp only [hd, Except.error.injEq] at h
    subst h
    exact hp hd
  | ok v =>
    cases v with
    | obj ms =>
      simp only [hd] at h
      cases he : decodeEntries (cur.getD []) ms with
      | error err =>
        simp only [he, Except.error.injEq] at h
        subst h
        exact decodeEntries_ne_outOfFuel _ _ he
      | ok es => simp [he] at h
    | null => simp [hd] at h
    | bool b => simp [hd] at h
    | num lit => simp [hd] at h
    | str t => simp [hd] at h
    | arr vs => simp [hd] at h

theorem scannable_nil : Scannable [] := by
  unfold Scannable
  rfl

theorem map_scan_eq (p : List Byte) (o : Option (List Byte × List Byte)) (raw : List Byte) :
    o.map (fun r => (p ++ r.1, r.2)) = some (p ++ raw, []) ↔ o = some (raw, []) := by
  cases o with
  | none => simp
  | some q =>
    obtain ⟨a, b⟩ := q
    simp

theorem scannable_plain (c : Byte) (raw : List Byte) (h1 : c.val ≠ 0x22) (h2 : c.val ≠ 0x5C)
    (h3 : ¬ c.val < 0x20) : Scannable (c :: raw) ↔ Scannable raw := by
  unfold Scannable
  rw [List.cons_append, scanString_cons, if_neg h1, if_neg h2, if_neg h3]
  exact map_scan_eq [c] _ raw

theorem scannable_simple (e : Byte) (raw : List Byte) (h : isSimpleEscape e = true) :
    Scannable (0x5C :: e :: raw) ↔ Scannable raw := by
  unfold Scannable
  rw [List.cons_append, List.cons_append, scanString_cons, if_neg (by decide), if_pos (by decide)]
  simp only [h, if_true]
  exact map_scan_eq [0x5C, e] _ raw

theorem scannable_u (h1 h2 h3 h4 : Byte) (raw : List Byte)
    (hx : (hexVal h1).isSome ∧ (hexVal h2).isSome ∧ (hexVal h3).isSome ∧ (hexVal h4).isSome) :
    Scannable (0x5C :: 0x75 :: h1 :: h2 :: h3 :: h4 :: raw) ↔ Scannable raw := by
  unfold Scannable
  simp only [List.cons_append]
  rw [scanString_cons, if_neg (by decide), if_pos (by decide)]
  simp only [show isSimpleEscape 0x75 = false by decide, Bool.false_eq_true, if_false,
    show (0x75 : Byte).val = 0x75 from rfl, if_true, hx, and_self]
  exact map_scan_eq [0x5C, 0x75, h1, h2, h3, h4] _ raw

/-- The shape of accepted text: it is empty, or starts with a plain byte, a simple escape or a
`\\u` escape with four hexadecimal digits, and goes on with accepted text. -/
theorem scannable_cases (c : Byte) (rest : List Byte) (h : Scannable (c :: rest)) :
    (c.val ≠ 0x22 ∧ c.val ≠ 0x5C ∧ ¬ c.val < 0x20 ∧ Scannable rest) ∨
    (c.val = 0x5C ∧ ∃ e rest1, rest = e :: rest1 ∧ isSimpleEscape e = true ∧ Scannable rest1) ∨
    (c.val = 0x5C ∧ ∃ h1 h2 h3 h4 rest2, rest = 0x75 :: h1 :: h2 :: h3 :: h4 :: rest2 ∧
      ((hexVal h1).isSome ∧ (hexVal h2).isSome ∧ (hexVal h3).isSome ∧ (hexVal h4).isSome) ∧
      Scannable rest2) := by
  have h0 := h
  unfold Scannable at h
  rw [List.cons_append, scanString_cons] at h
  by_cases c1 : c.val = 0x22
  · simp [c1] at h
  · rw [if_neg c1] at h
    by_cases c2 : c.val = 0x5C
    · rw [if_pos c2] at h
      have hc : c = 0x5C := Fin.ext c2
      subst hc
      right
      cases rest with
      | nil =>
        simp only [List.nil_append] at h
        exact absurd h (by decide)
      | cons e rest1 =>
        simp only [List.cons_append] at h
        by_cases c3 : isSimpleEscape e = true
        · left
          exact ⟨rfl, e, rest1, rfl, c3, (scannable_simple e rest1 c3).mp h0⟩
        · right
          simp only [c3, Bool.false_eq_true, if_false] at h
          by_cases c4 : e.val = 0x75
          · have he : e = 0x75 := Fin.ext c4
            subst he
            simp only [show (0x75 : Byte).val = 0x75 from rfl, if_true] at h
            match rest1, h, h0 with
            | [], h, _ => exact absurd h (by decide)
            | [_], h, _ => simp at h
            | [_, _], h, _ => simp at h
            | [_, _, _], h, _ => simp at h
            | h1 :: h2 :: h3 :: h4 :: rest2, h, h0 =>
              by_cases c5 : (hexVal h1).isSome ∧ (hexVal h2).isSome ∧ (hexVal h3).isSome ∧
                  (hexVal h4).isSome
              · exact ⟨rfl, h1, h2, h3, h4, rest2, rfl, c5, (scannable_u h1 h2 h3 h4 rest2 c5).mp h0⟩
              · simp [c5] at h
          · simp [c4] at h
    · rw [if_neg c2] at h
      by_cases c3 : c.val < 0x20
      · simp [c3] at h
      · left
        exact ⟨c1, c2, c3, (scannable_plain c rest c1 c2 c3).mp h0⟩

theorem scannable_of_scanString (n : Nat) : ∀ (s raw r : List Byte), s.length ≤ n →
    scanString s = some (raw, r) → Scannable raw := by
  induction n with
  | zero =>
    intro s raw r hn h
    cases s with
    | nil => simp [scanString] at h
    | cons c s => simp at hn
  | succ n ih =>
    intro s raw r hn h
    cases s with
    | nil => simp [scanString] at h
    | cons c rest =>
      rw [scanString_cons] at h
      simp only [List.length_cons] at hn
      by_cases c1 : c.val = 0x22
      · simp only [c1, if_true, Option.some.injEq, Prod.mk.injEq] at h
        rw [← h.1]
        exact scannable_nil
      · rw [if_neg c1] at h
        by_cases c2 : c.val = 0x5C
        · rw [if_pos c2] at h
          have hc : c = 0x5C := Fin.ext c2
          subst hc
          cases rest with
          | nil => simp at h
          | cons e rest1 =>
            simp only at h
            by_cases c3 : isSimpleEscape e = true
            · simp only [c3, if_true, Option.map_eq_some'] at h
              obtain ⟨p, hp, hpe⟩ := h
              simp only [Prod.mk.injEq] at hpe
              rw [← hpe.1]
              exact (scannable_simple e p.1 c3).mpr
                (ih rest1 p.1 p.2 (by simp only [List.length_cons] at hn; omega) hp)
            · simp only [c3, Bool.false_eq_true, if_false] at h
              by_cases c4 : e.val = 0x75
              · have he : e = 0x75 := Fin.ext c4
                subst he
                simp only [show (0x75 : Byte).val = 0x75 from rfl, if_true] at h
                match rest1, h, hn with
                | [], h, _ => simp at h
                | [_], h, _ => simp at h
                | [_, _], h, _ => simp at h
                | [_, _, _], h, _ => simp at h
                | h1 :: h2 :: h3 :: h4 :: rest2, h, hn =>
                  by_cases c5 : (hexVal h1).isSome ∧ (hexVal h2).isSome ∧ (hexVal h3).isSome ∧
                      (hexVal h4).isSome
                  · simp only [c5, and_self, if_true, Option.map_eq_some'] at h
                    obtain ⟨p, hp, hpe⟩ := h
                    simp only [Prod.mk.injEq] at hpe
                    rw [← hpe.1]
                    exact (scannable_u h1 h2 h3 h4 p.1 c5).mpr
                      (ih rest2 p.1 p.2 (by simp only [List.length_cons] at hn; omega) hp)
                  · simp [c5] at h
              · simp [c4] at h
        · rw [if_neg c2] at h
          by_cases c3 : c.val < 0x20
          · simp [c3] at h
          · simp only [c3, if_false, Option.map_eq_some'] at h
            obtain ⟨p, hp, hpe⟩ := h
            simp only [Prod.mk.injEq] at hpe
            rw [← hpe.1]
            exact (scannable_plain c p.1 c1 c2 c3).mpr (ih rest p.1 p.2 (by omega) hp)

theorem getu4_some (h1 h2 h3 h4 : Byte) (X : List Byte)
    (hx : (hexVal h1).isSome ∧ (hexVal h2).isSome ∧ (hexVal h3).isSome ∧ (hexVal h4).isSome) :
    ∃ r, getu4 (0x5C :: 0x75 :: h1 :: h2 :: h3 :: h4 :: X) = some r := by
  obtain ⟨x1, e1⟩ := Option.isSome_iff_exists.mp hx.1
  obtain ⟨x2, e2⟩ := Option.isSome_iff_exists.mp hx.2.1
  obtain ⟨x3, e3⟩ := Option.isSome_iff_exists.mp hx.2.2.1
  obtain ⟨x4, e4⟩ := Option.isSome_iff_exists.mp hx.2.2.2
  refine ⟨((x1 * 16 + x2) * 16 + x3) * 16 + x4, ?_⟩
  simp only [getu4, show (0x5C : Byte).val = 0x5C from rfl, show (0x75 : Byte).val = 0x75 from rfl,
    and_self, if_true, e1, e2, e3, e4]

theorem getu4_shape (s : List Byte) (r : Nat) (h : getu4 s = some r) :
    ∃ g1 g2 g3 g4 X, s = 0x5C :: 0x75 :: g1 :: g2 :: g3 :: g4 :: X ∧
      ((hexVal g1).isSome ∧ (hexVal g2).isSome ∧ (hexVal g3).isSome ∧ (hexVal g4).isSome) := by
  match s, h with
  | b :: u :: g1 :: g2 :: g3 :: g4 :: X, h =>
    simp only [getu4] at h
    split_ifs at h with hc
    have hb : b = 0x5C := Fin.ext hc.1
    have hu : u = 0x75 := Fin.ext hc.2
    subst hb hu
    refine ⟨g1, g2, g3, g4, X, rfl, ?_⟩
    cases e1 : hexVal g1 <;> cases e2 : hexVal g2 <;> cases e3 : hexVal g3 <;>
      cases e4 : hexVal g4 <;> simp [e1, e2, e3, e4] at h ⊢
  | [], h => simp [getu4] at h
  | [_], h => simp [getu4] at h
  | [_, _], h => simp [getu4] at h
  | [_, _, _], h => simp [getu4] at h
  | [_, _, _, _], h => simp [getu4] at h
  | [_, _, _, _, _], h => simp [getu4] at h

theorem scannable_drop_high (p t : List Byte) (hp : ∀ x ∈ p, 0x80 ≤ x.val)
    (h : Scannable (p ++ t)) : Scannable t := by
  induction p with
  | nil => exact h
  | cons c p ih =>
    have hc := hp c (List.mem_cons_self _ _)
    rw [List.cons_append] at h
    exact ih (fun x hx => hp x (List.mem_cons_of_mem _ hx))
      ((scannable_plain c (p ++ t) (by omega) (by omega) (by omega)).mp h)

/-- On text that the string scanner has accepted, `unquoteBytes` gives a string. -/
theorem unquoteLoop_total (n : Nat) : ∀ (raw : List Byte), raw.length ≤ n → Scannable raw →
    ∀ f, raw.length ≤ f → (unquoteLoop f raw).isSome = true := by
  induction n with
  | zero =>
    intro raw hn _ f _
    have : raw = [] := List.length_eq_zero.mp (by omega)
    subst this
    rw [unquoteLoop_nil]
    rfl
  | succ n ih =>
    intro raw hn hs f hf
    cases raw with
    | nil => rw [unquoteLoop_nil]; rfl
    | cons c rest =>
      simp only [List.length_cons] at hn hf
      obtain ⟨f1, rfl⟩ : ∃ f1, f = f1 + 1 := ⟨f - 1, by omega⟩
      rw [unquoteLoop_cons]
      rcases scannable_cases c rest hs with ⟨c1, c2, c3, hrest⟩ | ⟨c2, e, rest1, hr, he, hrest⟩ |
        ⟨c2, h1, h2, h3, h4, rest2, hr, hx, hrest⟩
      · rw [if_neg c2, if_neg (by omega)]
        by_cases c4 : c.val < 0x80
        · rw [if_pos c4, Option.isSome_map']
          exact ih rest (by omega) hrest f1 (by omega)
        · rw [if_neg c4]
          simp only [Option.isSome_map']
          by_cases hv : (decodeRune (c :: rest)).1 = RuneError ∧ (decodeRune (c :: rest)).2 = 1
          · rw [hv.2]
            exact ih rest (by omega) hrest f1 (by omega)
          · obtain ⟨hd2, hlen, _, _, hhigh⟩ := decodeRune_valid c rest c4 hv
            have htd := List.take_append_drop (decodeRune (c :: rest)).2 (c :: rest)
            have hsc : Scannable ((c :: rest).drop (decodeRune (c :: rest)).2) := by
              apply scannable_drop_high _ _ hhigh
              rw [htd]
              exact hs
            have hl : ((c :: rest).drop (decodeRune (c :: rest)).2).length ≤ n := by
              rw [List.length_drop]
              simp only [List.length_cons]
              omega
            exact ih _ hl hsc f1 (by
              rw [List.length_drop]
              simp only [List.length_cons]
              omega)
      · subst hr
        rw [if_pos c2]
        simp only [List.length_cons] at hn hf
        have hrec := ih rest1 (by omega) hrest f1 (by omega)
        simp only [isSimpleEscape, Bool.or_eq_true, decide_eq_true_eq] at he
        simp only
        have hm : ∀ g : List Byte → List Byte, ((unquoteLoop f1 rest1).map g).isSome = true := by
          intro g
          rw [Option.isSome_map']
          exact hrec
        by_cases e1 : e.val = 0x22 ∨ e.val = 0x5C ∨ e.val = 0x2F ∨ e.val = 0x27
        · rw [if_pos e1]; exact hm _
        · rw [if_neg e1]
          by_cases e2 : e.val = 0x62
          · rw [if_pos e2]; exact hm _
          · rw [if_neg e2]
            by_cases e3 : e.val = 0x66
            · rw [if_pos e3]; exact hm _
            · rw [if_neg e3]
              by_cases e4 : e.val = 0x6E
              · rw [if_pos e4]; exact hm _
              · rw [if_neg e4]
                by_cases e5 : e.val = 0x72
                · rw [if_pos e5]; exact hm _
                · rw [if_neg e5]
                  by_cases e6 : e.val = 0x74
                  · rw [if_pos e6]; exact hm _
                  · exfalso; omega
      · subst hr
        rw [if_pos c2]
        have hc : c = 0x5C := Fin.ext c2
        subst hc
        simp only [List.length_cons] at hn hf
        obtain ⟨rr, hrr⟩ := getu4_some h1 h2 h3 h4 rest2 hx
        have hrec := ih rest2 (by omega) hrest f1 (by omega)
        show Option.isSome (if (0x75 : Byte).val = 0x22 ∨ (0x75 : Byte).val = 0x5C ∨ (0x75 : Byte).val = 0x2F ∨
              (0x75 : Byte).val = 0x27 then _
            else if (0x75 : Byte).val = 0x62 then _
            else if (0x75 : Byte).val = 0x66 then _
            else if (0x75 : Byte).val = 0x6E then _
            else if (0x75 : Byte).val = 0x72 then _
            else if (0x75 : Byte).val = 0x74 then _
            else if (0x75 : Byte).val = 0x75 then _ else _) = true
        rw [if_neg (by decide), if_neg (by decide), if_neg (by decide), if_neg (by decide),
          if_neg (by decide), if_neg (by decide), if_pos (by decide), hrr]
        simp only [List.drop_succ_cons, List.drop_zero]
        split_ifs with hsur hdec
        · rw [Option.isSome_map']
          cases hg : getu4 rest2 with
          | none =>
            rw [hg] at hdec
            exact absurd rfl hdec
          | some r2 =>
            obtain ⟨g1, g2, g3, g4, X, hX, hgx⟩ := getu4_shape rest2 r2 hg
            subst hX
            simp only [List.drop_succ_cons, List.drop_zero]
            simp only [List.length_cons] at hn hf
            exact ih X (by omega) ((scannable_u g1 g2 g3 g4 X hgx).mp hrest) f1 (by omega)
        · rw [Option.isSome_map']
          exact hrec
        · rw [Option.isSome_map']
          exact hrec

/-- The text that the string scanner delimits is always unquoted to a string. -/
theorem unquote_of_scanString (s raw r : List Byte) (h : scanString s = some (raw, r)) :
    ∃ t, unquote raw = some t :=
  Option.isSome_iff_exists.mp
    (unquoteLoop_total raw.length raw (le_refl _)
      (scannable_of_scanString s.length s raw r (le_refl _) h) raw.length (le_refl _))

theorem decodeRune_width_pos (b : Byte) (rest : List Byte) : 1 ≤ (decodeRune (b :: rest)).2 := by
  by_cases hb : b.val < 0x80
  · simp only [decodeRune, hb, if_true, le_refl]
  · by_cases hv : (decodeRune (b :: rest)).1 = RuneError ∧ (decodeRune (b :: rest)).2 = 1
    · rw [hv.2]
    · have := (decodeRune_valid b rest hb hv).1
      omega

theorem drop_width_length (b : Byte) (rest : List Byte) :
    ((b :: rest).drop (decodeRune (b :: rest)).2).length ≤ rest.length := by
  have := decodeRune_width_pos b rest
  rw [List.length_drop]
  simp only [List.length_cons]
  omega

/-- The loop of `utf8.Valid` does not depend on its bound once that is the length of the
input. -/
theorem validLoop_fuel (n : Nat) : ∀ (m : Nat) (s : List Byte), s.length ≤ n → s.length ≤ m →
    validLoop n s = validLoop m s := by
  induction n with
  | zero =>
    intro m s hn _
    have : s = [] := List.length_eq_zero.mp (by omega)
    subst this
    cases m <;> rfl
  | succ n ih =>
    intro m s hn hm
    cases s with
    | nil => cases m <;> rfl
    | cons b rest =>
      simp only [List.length_cons] at hn hm
      obtain ⟨m1, rfl⟩ : ∃ m1, m = m1 + 1 := ⟨m - 1, by omega⟩
      have hl := drop_width_length b rest
      simp only [validLoop]
      rw [ih m1 _ (by omega) (by omega)]

/-- The loop of `appendString` does not depend on its bound once that is the length of the
input. -/
theorem appendStringLoop_fuel (n : Nat) : ∀ (m : Nat) (s : List Byte), s.length ≤ n →
    s.length ≤ m → appendStringLoop n s = appendStringLoop m s := by
  induction n with
  | zero =>
    intro m s hn _
    have : s = [] := List.length_eq_zero.mp (by omega)
    subst this
    cases m <;> rfl
  | succ n ih =>
    intro m s hn hm
    cases s with
    | nil => cases m <;> rfl
    | cons b rest =>
      simp only [List.length_cons] at hn hm
      obtain ⟨m1, rfl⟩ : ∃ m1, m = m1 + 1 := ⟨m - 1, by omega⟩
      have hl := drop_width_length b rest
      simp only [appendStringLoop]
      rw [ih m1 rest (by omega) (by omega), ih m1 _ (by omega) (by omega)]

/-- The loop of `appendFoldedName` does not depend on its bound once that is the length of the
input. -/
theorem foldNameLoop_fuel (n : Nat) : ∀ (m : Nat) (s : List Byte), s.length ≤ n →
    s.length ≤ m → foldNameLoop n s = foldNameLoop m s := by
  induction n with
  | zero =>
    intro m s hn _
    have : s = [] := List.length_eq_zero.mp (by omega)
    subst this
    cases m <;> rfl
  | succ n ih =>
    intro m s hn hm
    cases s with
    | nil => cases m <;> rfl
    | cons b rest =>
      simp only [List.length_cons] at hn hm
      obtain ⟨m1, rfl⟩ : ∃ m1, m = m1 + 1 := ⟨m - 1, by omega⟩
      have hl := drop_width_length b rest
      simp only [foldNameLoop]
      rw [ih m1 rest (by omega) (by omega), ih m1 _ (by omega) (by omega)]

/-! ## Calls made one after the other -/

theorem applyOps_sets_other_key (items : List Item) (filePath : GoString) (es : GoMap) (fs : FS)
    (key : GoString) (hkey : ∀ r ∈ items, r.Key ≠ key) :
    ∃ kN fsN, applyOps (items.map Op.set) ⟨filePath, some es⟩ fs = .ret (kN, fsN) ∧
      kN.filePath = filePath ∧ kN.data.isSome = true ∧
      mapLookup kN.data key = mapLookup (some es) key := by
  induction items generalizing es fs with
  | nil => exact ⟨_, _, rfl, rfl, rfl, rfl⟩
  | cons r items ih =>
    obtain ⟨kN, fsN, h1, h2, h3, h4⟩ := ih (mapInsert es r.Key r)
      ((JSONKeyring.mk filePath (some (mapInsert es r.Key r))).save fs).2
      (fun x hx => hkey x (List.mem_cons_of_mem _ hx))
    refine ⟨kN, fsN, h1, h2, h3, ?_⟩
    rw [h4]
    exact mapLookup_insert_ne es r.Key key r (fun h => hkey r (List.mem_cons_self _ _) h.symm)

/-- Calls of `Set` for records with distinct keys, made one after the other in any order and
whatever their saves return, leave a store that holds every one of the records. (This is the
sequential content of the absence of lost updates; that concurrent callers are serialised by the
mutex is outside this embedding.) -/
theorem sets_keep_all_records (items : List Item) (filePath : GoString) (es : GoMap) (fs : FS)
    (hnodup : (items.map (fun r => r.Key)).Nodup) :
    ∃ kN fsN, applyOps (items.map Op.set) ⟨filePath, some es⟩ fs = .ret (kN, fsN) ∧
      ∀ r ∈ items, kN.Get r.Key = (r, none) := by
  induction items generalizing es fs with
  | nil => exact ⟨_, _, rfl, fun r hr => absurd hr (List.not_mem_nil r)⟩
  | cons r items ih =>
    rw [List.map_cons, List.nodup_cons] at hnodup
    obtain ⟨kN, fsN, h1, h2⟩ := ih (mapInsert es r.Key r)
      ((JSONKeyring.mk filePath (some (mapInsert es r.Key r))).save fs).2 hnodup.2
    refine ⟨kN, fsN, h1, ?_⟩
    intro x hx
    rcases List.mem_cons.mp hx with hxr | hxi
    · subst hxr
      have hother : ∀ y ∈ items, y.Key ≠ x.Key := by
        intro y hy hyk
        exact hnodup.1 (List.mem_map.mpr ⟨y, hy, hyk⟩)
      obtain ⟨kN1, fsN1, g1, _, _, g4⟩ := applyOps_sets_other_key items filePath
        (mapInsert es x.Key x)
        ((JSONKeyring.mk filePath (some (mapInsert es x.Key x))).save fs).2 x.Key hother
      rw [h1] at g1
      cases g1
      simp only [JSONKeyring.Get, g4, mapLookup_insert_self]
    · exact h2 x hxi

/-! ## Reopening the store -/

theorem set_success (k : JSONKeyring) (item : Item) (fs : FS) (k1 : JSONKeyring) (fs1 : FS)
    (h : k.Set item fs = .ret (k1, none, fs1)) :
    k1.filePath = k.filePath ∧
      ∃ doc, MarshalIndent k1.data = .ok doc ∧ fs1.files k1.filePath = some doc := by
  unfold JSONKeyring.Set at h
  cases hd : k.data with
  | none => simp [hd] at h
  | some es =>
    simp only [hd, Run.ret.injEq, Prod.mk.injEq] at h
    obtain ⟨hk, hsave⟩ := h
    subst hk
    refine ⟨rfl, ?_⟩
    obtain ⟨doc, hdoc⟩ := MarshalIndent_ok (some (mapInsert es item.Key item))
    refine ⟨doc, hdoc, ?_⟩
    have hs := save_eq_write ⟨k.filePath, some (mapInsert es item.Key item)⟩ fs doc hdoc
    rw [hs] at hsave
    unfold osWriteFile at hsave
    cases hw : fs.writeFault k.filePath doc with
    | some p =>
      simp only [hw] at hsave
      exact absurd (congrArg Prod.fst hsave) (by simp)
    | none =>
      simp only [hw] at hsave
      have h2 := congrArg Prod.snd hsave
      simp only at h2
      rw [← h2]
      simp

theorem setAll_success (items : List Item) (item : Item) (k : JSONKeyring) (fs : FS)
    (kN : JSONKeyring) (fsN : FS) (h : setAll (item :: items) k fs = some (kN, fsN)) :
    kN.filePath = k.filePath ∧
      ∃ doc, MarshalIndent kN.data = .ok doc ∧ fsN.files kN.filePath = some doc := by
  induction items generalizing item k fs with
  | nil =>
    unfold setAll at h
    cases hs : k.Set item fs with
    | panic => simp [hs] at h
    | ret r =>
      obtain ⟨k1, err, fs1⟩ := r
      cases err with
      | some e => simp [hs] at h
      | none =>
        simp only [hs, setAll, Option.some.injEq, Prod.mk.injEq] at h
        obtain ⟨h1, h2⟩ := h
        subst h1 h2
        exact set_success k item fs k1 fs1 hs
  | cons item2 items ih =>
    unfold setAll at h
    cases hs : k.Set item fs with
    | panic => simp [hs] at h
    | ret r =>
      obtain ⟨k1, err, fs1⟩ := r
      cases err with
      | some e => simp [hs] at h
      | none =>
        simp only [hs] at h
        obtain ⟨hp, hdoc⟩ := ih item2 k1 fs1 h
        exact ⟨hp.trans (set_success k item fs k1 fs1 hs).1, hdoc⟩

/-! ## White space -/

theorem ws_nil : WS [] := fun _ h => absurd h (List.not_mem_nil _)

theorem ws_cons (c : Byte) (s : List Byte) (hc : isSpace c = true) (hs : WS s) : WS (c :: s) := by
  intro x hx
  rcases List.mem_cons.mp hx with h | h
  · rw [h]; exact hc
  · exact hs x h

theorem skipSpace_ws_append (a X : List Byte) (ha : WS a) : skipSpace (a ++ X) = skipSpace X := by
  induction a with
  | nil => rfl
  | cons c a ih =>
    rw [List.cons_append, skipSpace_cons_of_space c _ (ha c (List.mem_cons_self _ _))]
    exact ih (fun x hx => ha x (List.mem_cons_of_mem _ hx))

/-- The input is the white space at its head and what `skipSpace` leaves. -/
theorem skipSpace_split (s : List Byte) : ∃ a, s = a ++ skipSpace s ∧ WS a := by
  induction s with
  | nil => exact ⟨[], rfl, ws_nil⟩
  | cons c s ih =>
    by_cases hc : isSpace c = true
    · obtain ⟨a, h1, h2⟩ := ih
      refine ⟨c :: a, ?_, ws_cons c a hc h2⟩
      rw [skipSpace_cons_of_space c s hc, List.cons_append, ← h1]
    · refine ⟨[], ?_, ws_nil⟩
      rw [skipSpace_cons_of_not c s (by simpa using hc)]
      rfl

theorem skipSpace_head (s : List Byte) (c : Byte) (rest : List Byte)
    (h : skipSpace s = c :: rest) : isSpace c = false := by
  induction s with
  | nil => simp [skipSpace] at h
  | cons d s ih =>
    by_cases hd : isSpace d = true
    · rw [skipSpace_cons_of_space d s hd] at h
      exact ih h
    · rw [skipSpace_cons_of_not d s (by simpa using hd)] at h
      simp only [List.cons.injEq] at h
      rw [← h.1]
      simpa using hd

theorem ws_of_skipSpace_nil (s : List Byte) (h : skipSpace s = []) : WS s := by
  obtain ⟨a, h1, h2⟩ := skipSpace_split s
  rw [h, List.append_nil] at h1
  rw [h1]
  exact h2

theorem skipSpace_of_ws (s : List Byte) (h : WS s) : skipSpace s = [] := by
  have := skipSpace_ws_append s [] h
  rw [List.append_nil] at this
  rw [this]
  rfl

theorem ws_append (a b : List Byte) (ha : WS a) (hb : WS b) : WS (a ++ b) := by
  intro x hx
  rcases List.mem_append.mp hx with h | h
  · exact ha x h
  · exact hb x h

/-! ## The scanner accepts only what the grammar describes -/

theorem scanString_sound (n : Nat) : ∀ (s raw r : List Byte), s.length ≤ n →
    scanString s = some (raw, r) → s = raw ++ 0x22 :: r ∧ StringText raw := by
  induction n with
  | zero =>
    intro s raw r hn h
    cases s with
    | nil => simp [scanString] at h
    | cons c s => simp at hn
  | succ n ih =>
    intro s raw r hn h
    cases s with
    | nil => simp [scanString] at h
    | cons c rest =>
      rw [scanString_cons] at h
      simp only [List.length_cons] at hn
      split_ifs at h with h1 h2 h3
      · simp only [Option.some.injEq, Prod.mk.injEq] at h
        rw [← h.1, ← h.2]
        have hc : c = 0x22 := Fin.ext h1
        rw [hc]
        exact ⟨rfl, .nil⟩
      · have hc : c = 0x5C := Fin.ext h2
        subst hc
        cases rest with
        | nil => simp at h
        | cons e rest1 =>
          simp only at h
          split_ifs at h with h4 h5
          · simp only [Option.map_eq_some'] at h
            obtain ⟨p, hp, hpe⟩ := h
            obtain ⟨e1, e2⟩ := ih rest1 p.1 p.2 (by simp only [List.length_cons] at hn; omega)
              hp
            simp only [Prod.mk.injEq] at hpe
            rw [← hpe.1, ← hpe.2]
            refine ⟨?_, .simple e p.1 h4 e2⟩
            rw [e1]
            rfl
          · have he : e = 0x75 := Fin.ext h5
            subst he
            match rest1, h with
            | g1 :: g2 :: g3 :: g4 :: rest2, h =>
              simp only at h
              split_ifs at h with h6
              simp only [Option.map_eq_some'] at h
              obtain ⟨p, hp, hpe⟩ := h
              obtain ⟨e1, e2⟩ := ih rest2 p.1 p.2
                (by simp only [List.length_cons] at hn; omega) hp
              simp only [Prod.mk.injEq] at hpe
              rw [← hpe.1, ← hpe.2]
              refine ⟨?_, .hex4 g1 g2 g3 g4 p.1 h6 e2⟩
              rw [e1]
              rfl
            | [], h => simp at h
            | [_], h => simp at h
            | [_, _], h => simp at h
            | [_, _, _], h => simp at h
      · simp only [Option.map_eq_some'] at h
        obtain ⟨p, hp, hpe⟩ := h
        obtain ⟨e1, e2⟩ := ih rest p.1 p.2 (by omega) hp
        simp only [Prod.mk.injEq] at hpe
        rw [← hpe.1, ← hpe.2]
        refine ⟨?_, .plain c p.1 h1 h2 h3 e2⟩
        rw [e1]
        rfl

theorem span_digits (s : List Byte) :
    s = (s.span isDigit).1 ++ (s.span isDigit).2 ∧ ∀ d ∈ (s.span isDigit).1, isDigit d = true := by
  rw [List.span_eq_take_drop]
  exact ⟨(List.takeWhile_append_dropWhile _ _).symm, fun d hd => List.mem_takeWhile_imp hd⟩

theorem scanDigits_sound (s ds r : List Byte) (h : scanDigits s = some (ds, r)) :
    s = ds ++ r ∧ Digits ds := by
  unfold scanDigits at h
  obtain ⟨h1, h2⟩ := span_digits s
  cases hsp : s.span isDigit with
  | mk a b =>
    rw [hsp] at h h1 h2
    simp only at h1 h2
    cases a with
    | nil => simp at h
    | cons x xs =>
      simp only [Option.some.injEq, Prod.mk.injEq] at h
      rw [← h.1, ← h.2]
      exact ⟨h1, by simp, h2⟩

theorem scanInt_sound (s i r : List Byte) (h : scanInt s = some (i, r)) :
    s = i ++ r ∧ IntText i := by
  cases s with
  | nil => simp [scanInt] at h
  | cons c rest =>
    unfold scanInt at h
    simp only at h
    split_ifs at h with h1 h2
    · simp only [Option.some.injEq, Prod.mk.injEq] at h
      rw [← h.1, ← h.2]
      have hc : c = 0x30 := Fin.ext h1
      rw [hc]
      exact ⟨rfl, .zero⟩
    · simp only [Option.some.injEq, Prod.mk.injEq] at h
      obtain ⟨e1, e2⟩ := span_digits rest
      rw [← h.1, ← h.2]
      refine ⟨?_, .pos c _ h2 e2⟩
      rw [List.cons_append, ← e1]

theorem scanFrac_sound (s f r : List Byte) (h : scanFrac s = some (f, r)) :
    s = f ++ r ∧ FracText f := by
  cases s with
  | nil =>
    simp only [scanFrac, Option.some.injEq, Prod.mk.injEq] at h
    rw [← h.1, ← h.2]
    exact ⟨rfl, .none⟩
  | cons c rest =>
    unfold scanFrac at h
    simp only at h
    split_ifs at h with h1
    · simp only [Option.map_eq_some'] at h
      obtain ⟨p, hp, hpe⟩ := h
      obtain ⟨e1, e2⟩ := scanDigits_sound rest p.1 p.2 hp
      simp only [Prod.mk.injEq] at hpe
      have hc : c = 0x2E := Fin.ext h1
      rw [← hpe.1, ← hpe.2, hc]
      refine ⟨?_, .dot p.1 e2⟩
      rw [e1]
      rfl
    · simp only [Option.some.injEq, Prod.mk.injEq] at h
      rw [← h.1, ← h.2]
      exact ⟨rfl, .none⟩

theorem scanExp_sound (s e r : List Byte) (h : scanExp s = some (e, r)) :
    s = e ++ r ∧ ExpText e := by
  cases s with
  | nil =>
    simp only [scanExp, Option.some.injEq, Prod.mk.injEq] at h
    rw [← h.1, ← h.2]
    exact ⟨rfl, .none⟩
  | cons c rest =>
    unfold scanExp at h
    simp only at h
    split_ifs at h with h1
    · cases rest with
      | nil => simp at h
      | cons g rest1 =>
        simp only at h
        split_ifs at h with h2
        · simp only [Option.map_eq_some'] at h
          obtain ⟨p, hp, hpe⟩ := h
          obtain ⟨e1, e2⟩ := scanDigits_sound rest1 p.1 p.2 hp
          simp only [Prod.mk.injEq] at hpe
          rw [← hpe.1, ← hpe.2]
          refine ⟨?_, .signed c g p.1 h1 h2 e2⟩
          rw [e1]
          rfl
        · simp only [Option.map_eq_some'] at h
          obtain ⟨p, hp, hpe⟩ := h
          obtain ⟨e1, e2⟩ := scanDigits_sound (g :: rest1) p.1 p.2 hp
          simp only [Prod.mk.injEq] at hpe
          rw [← hpe.1, ← hpe.2]
          refine ⟨?_, .plain c p.1 h1 e2⟩
          rw [e1]
          rfl
    · simp only [Option.some.injEq, Prod.mk.injEq] at h
      rw [← h.1, ← h.2]
      exact ⟨rfl, .none⟩

theorem scanNumber_tail_sound (sign s0 lit r : List Byte) (hsg : sign = [] ∨ sign = [0x2D])
    (h : (match scanInt s0 with
      | none => none
      | some (i, s1) =>
        match scanFrac s1 with
        | none => none
        | some (f, s2) =>
          match scanExp s2 with
          | none => none
          | some (e, s3) => some (sign ++ i ++ f ++ e, s3)) = some (lit, r)) :
    sign ++ s0 = lit ++ r ∧ NumberText lit := by
  cases hi : scanInt s0 with
  | none => simp [hi] at h
  | some p =>
    obtain ⟨i, s1⟩ := p
    simp only [hi] at h
    cases hf : scanFrac s1 with
    | none => simp [hf] at h
    | some p =>
      obtain ⟨f, s2⟩ := p
      simp only [hf] at h
      cases he : scanExp s2 with
      | none => simp [he] at h
      | some p =>
        obtain ⟨e, s3⟩ := p
        simp only [he, Option.some.injEq, Prod.mk.injEq] at h
        obtain ⟨a1, a2⟩ := scanInt_sound s0 i s1 hi
        obtain ⟨b1, b2⟩ := scanFrac_sound s1 f s2 hf
        obtain ⟨c1, c2⟩ := scanExp_sound s2 e s3 he
        rw [← h.1, ← h.2]
        refine ⟨?_, .mk sign i f e hsg a2 b2 c2⟩
        rw [a1, b1, c1]
        simp only [List.append_assoc]

theorem scanNumber_sound (s lit r : List Byte) (h : scanNumber s = some (lit, r)) :
    s = lit ++ r ∧ NumberText lit := by
  unfold scanNumber at h
  cases s with
  | nil => exact scanNumber_tail_sound [] [] lit r (Or.inl rfl) h
  | cons c rest =>
    by_cases hc : c.val = 0x2D
    · have hc1 : c = 0x2D := Fin.ext hc
      subst hc1
      exact scanNumber_tail_sound [0x2D] rest lit r (Or.inr rfl) h
    · simp only [hc, if_false] at h
      exact scanNumber_tail_sound [] (c :: rest) lit r (Or.inl rfl) h

theorem dropLit_sound (lit s r : List Byte) (h : dropLit lit s = some r) : s = lit ++ r := by
  induction lit generalizing s with
  | nil =>
    simp only [dropLit, Option.some.injEq] at h
    rw [h]
    rfl
  | cons l ls ih =>
    cases s with
    | nil => simp [dropLit] at h
    | cons c cs =>
      unfold dropLit at h
      split_ifs at h with h1
      rw [h1, ih cs h]
      rfl

/-- White space may stand before the first element of an array. -/
theorem denotes_elems_ws (n : Nat) (a2 t : List Byte) (vs : List JSON)
    (h : Denotes n t (.elems vs)) (hw : WS a2) : Denotes n (a2 ++ t) (.elems vs) := by
  cases h with
  | lastElem _ a t1 b v ha hv hb =>
    have := Denotes.lastElem n (a2 ++ a) t1 b v (ws_append a2 a hw ha) hv hb
    simpa only [List.append_assoc] using this
  | consElem _ a t1 b body v vs1 ha hv hb hbody =>
    have := Denotes.consElem n (a2 ++ a) t1 b body v vs1 (ws_append a2 a hw ha) hv hb hbody
    simpa only [List.append_assoc] using this

/-- Each of the three scanners, when it succeeds, has read a text of the grammar that stands
for the result, nested no deeper than `maxNestingDepth` allows at the depth of the call. -/
theorem parse_sound (fuel : Nat) : ∀ (depth n : Nat) (s : List Byte),
    depth + n = maxNestingDepth →
    (∀ v r, parseValue fuel depth s = .ok (v, r) →
      ∃ a t, s = a ++ t ++ r ∧ WS a ∧ Denotes n t (.value v)) ∧
    (∀ ms r, parseMembers fuel depth s = .ok (ms, r) →
      ∃ t, s = t ++ r ∧ Denotes n t (.members ms)) ∧
    (∀ vs r, parseElems fuel depth s = .ok (vs, r) →
      ∃ t, s = t ++ r ∧ Denotes n t (.elems vs)) := by
  induction fuel with
  | zero =>
    intro depth n s _
    refine ⟨?_, ?_, ?_⟩ <;> intro a r h <;> simp [parseValue, parseMembers, parseElems] at h
  | succ fuel ih =>
    intro depth n s hdn
    refine ⟨?_, ?_, ?_⟩
    · intro v r h
      rw [parseValue_succ] at h
      obtain ⟨a, hsa, hwa⟩ := skipSpace_split s
      cases hs : skipSpace s with
      | nil => simp [hs] at h
      | cons c rest =>
        rw [hs] at h hsa
        simp only at h
        obtain ⟨a2, hra, hwa2⟩ := skipSpace_split rest
        split_ifs at h with c1 c2 c3 c4 c5 c6 c7 c8
        · have hc : c = 0x7B := Fin.ext (by assumption)
          subst hc
          obtain ⟨n1, hn1⟩ : ∃ n1, n = n1 + 1 := ⟨n - 1, by omega⟩
          subst hn1
          cases hr : skipSpace rest with
          | nil => simp [hr] at h
          | cons d rest1 =>
            rw [hr] at h hra
            simp only at h
            split_ifs at h with c9
            · simp only [Except.ok.injEq, Prod.mk.injEq] at h
              have hd : d = 0x7D := Fin.ext (by assumption)
              subst hd
              rw [← h.1, ← h.2]
              refine ⟨a, 0x7B :: a2 ++ [0x7D], ?_, hwa, .emptyObj n1 a2 hwa2⟩
              rw [hsa, hra]
              simp only [List.append_assoc, List.cons_append, List.nil_append]
            · cases hm : parseMembers fuel (depth + 1) (d :: rest1) with
              | error e => simp [hm] at h
              | ok p =>
                obtain ⟨ms, rest2⟩ := p
                simp only [hm, Except.ok.injEq, Prod.mk.injEq] at h
                obtain ⟨t, ht, hden⟩ := (ih (depth + 1) n1 (d :: rest1) (by omega)).2.1 ms rest2 hm
                rw [← h.1, ← h.2]
                refine ⟨a, 0x7B :: a2 ++ t, ?_, hwa, .obj n1 a2 t ms hwa2 hden⟩
                rw [hsa, hra, ht]
                simp only [List.append_assoc, List.cons_append]
        · have hc : c = 0x5B := Fin.ext (by assumption)
          subst hc
          obtain ⟨n1, hn1⟩ : ∃ n1, n = n1 + 1 := ⟨n - 1, by omega⟩
          subst hn1
          cases hr : skipSpace rest with
          | nil => simp [hr] at h
          | cons d rest1 =>
            rw [hr] at h hra
            simp only at h
            split_ifs at h with c9
            · simp only [Except.ok.injEq, Prod.mk.injEq] at h
              have hd : d = 0x5D := Fin.ext (by assumption)
              subst hd
              rw [← h.1, ← h.2]
              refine ⟨a, 0x5B :: a2 ++ [0x5D], ?_, hwa, .emptyArr n1 a2 hwa2⟩
              rw [hsa, hra]
              simp only [List.append_assoc, List.cons_append, List.nil_append]
            · cases hm : parseElems fuel (depth + 1) (d :: rest1) with
              | error e => simp [hm] at h
              | ok p =>
                obtain ⟨vs, rest2⟩ := p
                simp only [hm, Except.ok.injEq, Prod.mk.injEq] at h
                obtain ⟨t, ht, hden⟩ := (ih (depth + 1) n1 (d :: rest1) (by omega)).2.2 vs rest2 hm
                rw [← h.1, ← h.2]
                have hden2 : Denotes n1 (a2 ++ t) (.elems vs) := denotes_elems_ws n1 a2 t vs hden hwa2
                refine ⟨a, 0x5B :: (a2 ++ t), ?_, hwa, .arr n1 (a2 ++ t) vs hden2⟩
                rw [hsa, hra, ht]
                simp only [List.append_assoc, List.cons_append]
        · have hc : c = 0x22 := Fin.ext (by assumption)
          subst hc
          cases hq : scanString rest with
          | none => simp [hq] at h
          | some p =>
            obtain ⟨raw, rest1⟩ := p
            obtain ⟨e1, e2⟩ := scanString_sound _ rest raw rest1 (le_refl _) hq
            simp only [hq] at h
            cases hu : unquote raw with
            | none => simp [hu] at h
            | some t =>
              simp only [hu, Except.ok.injEq, Prod.mk.injEq] at h
              rw [← h.1, ← h.2]
              refine ⟨a, 0x22 :: raw ++ [0x22], ?_, hwa, .str n raw t e2 hu⟩
              rw [hsa, e1]
              simp only [List.append_assoc, List.cons_append, List.nil_append]
        · cases hq : scanNumber (c :: rest) with
          | none => simp [hq] at h
          | some p =>
            obtain ⟨lit, rest1⟩ := p
            obtain ⟨e1, e2⟩ := scanNumber_sound _ lit rest1 hq
            simp only [hq, Except.ok.injEq, Prod.mk.injEq] at h
            rw [← h.1, ← h.2]
            refine ⟨a, lit, ?_, hwa, .num n lit e2⟩
            rw [hsa, e1]
            simp only [List.append_assoc]
        · have hc : c = 0x74 := Fin.ext (by assumption)
          subst hc
          cases hq : dropLit (ascii "rue") rest with
          | none => simp [hq] at h
          | some rest1 =>
            have e1 := dropLit_sound _ _ _ hq
            simp only [hq, Except.ok.injEq, Prod.mk.injEq] at h
            rw [← h.1, ← h.2]
            refine ⟨a, ascii "true", ?_, hwa, .true n⟩
            rw [hsa, e1]
            simp only [List.append_assoc]
            rfl
        · have hc : c = 0x66 := Fin.ext (by assumption)
          subst hc
          cases hq : dropLit (ascii "alse") rest with
          | none => simp [hq] at h
          | some rest1 =>
            have e1 := dropLit_sound _ _ _ hq
            simp only [hq, Except.ok.injEq, Prod.mk.injEq] at h
            rw [← h.1, ← h.2]
            refine ⟨a, ascii "false", ?_, hwa, .false n⟩
            rw [hsa, e1]
            simp only [List.append_assoc]
            rfl
        · have hc : c = 0x6E := Fin.ext (by assumption)
          subst hc
          cases hq : dropLit (ascii "ull") rest with
          | none => simp [hq] at h
          | some rest1 =>
            have e1 := dropLit_sound _ _ _ hq
            simp only [hq, Except.ok.injEq, Prod.mk.injEq] at h
            rw [← h.1, ← h.2]
            refine ⟨a, ascii "null", ?_, hwa, .null n⟩
            rw [hsa, e1]
            simp only [List.append_assoc]
            rfl
    · intro ms r h
      rw [parseMembers_succ] at h
      cases s with
      | nil => simp at h
      | cons q rest =>
        simp only at h
        split_ifs at h with c1
        have hq1 : q = 0x22 := Fin.ext (by assumption)
        subst hq1
        cases hq : scanString rest with
        | none => simp [hq] at h
        | some p =>
          obtain ⟨raw, rest1⟩ := p
          obtain ⟨e1, e2⟩ := scanString_sound _ rest raw rest1 (le_refl _) hq
          simp only [hq] at h
          cases hu : unquote raw with
          | none => simp [hu] at h
          | some key =>
            simp only [hu] at h
            obtain ⟨b, hb1, hb2⟩ := skipSpace_split rest1
            cases hc : skipSpace rest1 with
            | nil => simp [hc] at h
            | cons colon rest2 =>
              rw [hc] at h hb1
              simp only at h
              split_ifs at h with c2
              have hcol : colon = 0x3A := Fin.ext (by assumption)
              subst hcol
              cases hv : parseValue fuel depth rest2 with
              | error e => simp [hv] at h
              | ok p =>
                obtain ⟨v, rest3⟩ := p
                obtain ⟨c, t, hv1, hv2, hv3⟩ := (ih depth n rest2 hdn).1 v rest3 hv
                simp only [hv] at h
                obtain ⟨d, hd1, hd2⟩ := skipSpace_split rest3
                cases ht : skipSpace rest3 with
                | nil => simp [ht] at h
                | cons tt rest4 =>
                  rw [ht] at h hd1
                  simp only at h
                  split_ifs at h with c3 c4
                  · have htt : tt = 0x2C := Fin.ext (by assumption)
                    subst htt
                    obtain ⟨e, he1, he2⟩ := skipSpace_split rest4
                    cases hm : parseMembers fuel depth (skipSpace rest4) with
                    | error e => simp [hm] at h
                    | ok p =>
                      obtain ⟨ms1, rest5⟩ := p
                      obtain ⟨body, hm1, hm2⟩ := (ih depth n (skipSpace rest4) hdn).2.1 ms1 rest5 hm
                      simp only [hm, Except.ok.injEq, Prod.mk.injEq] at h
                      rw [← h.1, ← h.2]
                      refine ⟨_, ?_, .consMember n raw key b c t d e body v ms1 e2 hu hb2 hv2 hv3
                        hd2 he2 hm2⟩
                      rw [e1, hb1, hv1, hd1, he1, hm1]
                      simp only [List.append_assoc, List.cons_append]
                  · have htt : tt = 0x7D := Fin.ext (by assumption)
                    subst htt
                    simp only [Except.ok.injEq, Prod.mk.injEq] at h
                    rw [← h.1, ← h.2]
                    refine ⟨_, ?_, .lastMember n raw key b c t d v e2 hu hb2 hv2 hv3 hd2⟩
                    rw [e1, hb1, hv1, hd1]
                    simp only [List.append_assoc, List.cons_append, List.nil_append]
    · intro vs r h
      rw [parseElems_succ] at h
      cases hv : parseValue fuel depth s with
      | error e => simp [hv] at h
      | ok p =>
        obtain ⟨v, rest1⟩ := p
        obtain ⟨a, t, hv1, hv2, hv3⟩ := (ih depth n s hdn).1 v rest1 hv
        simp only [hv] at h
        obtain ⟨b, hb1, hb2⟩ := skipSpace_split rest1
        cases ht : skipSpace rest1 with
        | nil => simp [ht] at h
        | cons tt rest2 =>
          rw [ht] at h hb1
          simp only at h
          split_ifs at h with c3 c4
          · have htt : tt = 0x2C := Fin.ext (by assumption)
            subst htt
            cases hm : parseElems fuel depth rest2 with
            | error e => simp [hm] at h
            | ok p =>
              obtain ⟨vs1, rest3⟩ := p
              obtain ⟨body, hm1, hm2⟩ := (ih depth n rest2 hdn).2.2 vs1 rest3 hm
              simp only [hm, Except.ok.injEq, Prod.mk.injEq] at h
              rw [← h.1, ← h.2]
              refine ⟨_, ?_, .consElem n a t b body v vs1 hv2 hv3 hb2 hm2⟩
              rw [hv1, hb1, hm1]
              simp only [List.append_assoc, List.cons_append]
          · have htt : tt = 0x5D := Fin.ext (by assumption)
            subst htt
            simp only [Except.ok.injEq, Prod.mk.injEq] at h
            rw [← h.1, ← h.2]
            refine ⟨_, ?_, .lastElem n a t b v hv2 hv3 hb2⟩
            rw [hv1, hb1]
            simp only [List.append_assoc, List.cons_append, List.nil_append]

/-! ## The scanner accepts every text of the grammar -/

theorem delim_nil : Delim [] := fun _ _ h => absurd h (by simp)

theorem delim_ws_append (b X : List Byte) (hb : WS b) (hX : Delim X) : Delim (b ++ X) := by
  cases b with
  | nil => exact hX
  | cons c b =>
    intro x tl h
    simp only [List.cons_append, List.cons.injEq] at h
    rw [← h.1]
    exact Or.inl (hb c (List.mem_cons_self _ _))

theorem delim_comma (X : List Byte) : Delim (0x2C :: X) := by
  intro c tl h
  simp only [List.cons.injEq] at h
  rw [← h.1]
  exact Or.inr (Or.inl rfl)

theorem delim_bracket (X : List Byte) : Delim (0x5D :: X) := by
  intro c tl h
  simp only [List.cons.injEq] at h
  rw [← h.1]
  exact Or.inr (Or.inr (Or.inl rfl))

theorem delim_brace (X : List Byte) : Delim (0x7D :: X) := by
  intro c tl h
  simp only [List.cons.injEq] at h
  rw [← h.1]
  exact Or.inr (Or.inr (Or.inr rfl))

/-- A delimiter is none of the characters that continue a number. -/
theorem delim_head (c : Byte)
    (h : isSpace c = true ∨ c.val = 0x2C ∨ c.val = 0x5D ∨ c.val = 0x7D) :
    isDigit c = false ∧ c.val ≠ 0x2E ∧ c.val ≠ 0x65 ∧ c.val ≠ 0x45 := by
  simp only [isSpace, Bool.or_eq_true, decide_eq_true_eq] at h
  simp only [isDigit, Bool.and_eq_false_imp, decide_eq_true_eq, decide_eq_false_iff_not]
  refine ⟨?_, ?_, ?_, ?_⟩ <;> omega

theorem scanString_complete (raw : List Byte) (h : StringText raw) (X : List Byte) :
    scanString (raw ++ 0x22 :: X) = some (raw, X) := by
  induction h with
  | nil =>
    rw [List.nil_append, scanString_cons, if_pos (by decide)]
  | plain c t h1 h2 h3 _ ih =>
    have := scanChunk_plain c h1 h2 h3 (t ++ 0x22 :: X)
    rw [ih] at this
    exact this
  | simple e t he _ ih =>
    have := scanChunk_simple e he (t ++ 0x22 :: X)
    rw [ih] at this
    exact this
  | hex4 h1 h2 h3 h4 t hx _ ih =>
    have := scanChunk_u h1 h2 h3 h4 hx.1 hx.2.1 hx.2.2.1 hx.2.2.2 (t ++ 0x22 :: X)
    rw [ih] at this
    exact this

/-- The text between the quotes of a string of the grammar is always unquoted to a string, so
every string of the grammar stands for one. -/
theorem stringText_unquote (raw : List Byte) (h : StringText raw) : ∃ t, unquote raw = some t :=
  unquote_of_scanString (raw ++ [0x22]) raw [] (scanString_complete raw h [])

theorem span_digits_append (ds X : List Byte) (hds : ∀ d ∈ ds, isDigit d = true)
    (hX : NoDigit X) : (ds ++ X).span isDigit = (ds, X) := by
  rw [List.span_eq_take_drop]
  induction ds with
  | nil =>
    cases X with
    | nil => rfl
    | cons c tl =>
      have := hX c tl rfl
      simp [List.takeWhile_cons, List.dropWhile_cons, this]
  | cons d ds ih =>
    have hd := hds d (List.mem_cons_self _ _)
    have := ih (fun x hx => hds x (List.mem_cons_of_mem _ hx))
    simp only [Prod.mk.injEq] at this
    simp [List.takeWhile_cons, List.dropWhile_cons, hd, this.1, this.2]

theorem scanDigits_complete (ds X : List Byte) (hds : Digits ds) (hX : NoDigit X) :
    scanDigits (ds ++ X) = some (ds, X) := by
  unfold scanDigits
  rw [span_digits_append ds X hds.2 hX]
  cases ds with
  | nil => exact absurd rfl hds.1
  | cons d ds => rfl

theorem noDigit_of_delim (X : List Byte) (h : Delim X) : NoDigit X :=
  fun c tl e => (delim_head c (h c tl e)).1

theorem scanExp_complete (e : List Byte) (he : ExpText e) (X : List Byte) (hX : Delim X) :
    scanExp (e ++ X) = some (e, X) := by
  cases he with
  | none =>
    cases X with
    | nil => rfl
    | cons c tl =>
      have hc := delim_head c (hX c tl rfl)
      unfold scanExp
      simp only [List.nil_append]
      rw [if_neg (by
        intro h
        rcases h with h | h
        · exact hc.2.2.1 h
        · exact hc.2.2.2 h)]
  | plain c ds hc hds =>
    obtain ⟨hne, hall⟩ := hds
    cases ds with
    | nil => exact absurd rfl hne
    | cons g ds =>
      have hg := hall g (List.mem_cons_self _ _)
      simp only [isDigit, Bool.and_eq_true, decide_eq_true_eq] at hg
      unfold scanExp
      simp only [List.cons_append]
      rw [if_pos hc, if_neg (by omega)]
      have := scanDigits_complete (g :: ds) X ⟨hne, hall⟩ (noDigit_of_delim X hX)
      simp only [List.cons_append] at this
      rw [this]
      rfl
  | signed c g ds hc hg hds =>
    unfold scanExp
    simp only [List.cons_append]
    rw [if_pos hc, if_pos hg, scanDigits_complete ds X hds (noDigit_of_delim X hX)]
    rfl

theorem noFrac_exp (e : List Byte) (he : ExpText e) (X : List Byte) (hX : Delim X) :
    NoFrac (e ++ X) := by
  intro c tl h
  cases he with
  | none =>
    have hc := delim_head c (hX c tl h)
    exact ⟨hc.1, hc.2.1⟩
  | plain c1 ds hc _ =>
    simp only [List.cons_append, List.cons.injEq] at h
    rw [← h.1]
    simp only [isDigit, Bool.and_eq_false_imp, decide_eq_true_eq, decide_eq_false_iff_not]
    constructor <;> omega
  | signed c1 g ds hc _ _ =>
    simp only [List.cons_append, List.cons.injEq] at h
    rw [← h.1]
    simp only [isDigit, Bool.and_eq_false_imp, decide_eq_true_eq, decide_eq_false_iff_not]
    constructor <;> omega

theorem scanFrac_complete (f : List Byte) (hf : FracText f) (X : List Byte) (hX : NoFrac X) :
    scanFrac (f ++ X) = some (f, X) := by
  cases hf with
  | none =>
    cases X with
    | nil => rfl
    | cons c tl =>
      unfold scanFrac
      simp only [List.nil_append]
      rw [if_neg (hX c tl rfl).2]
  | dot ds hds =>
    unfold scanFrac
    simp only [List.cons_append]
    rw [if_pos (by decide), scanDigits_complete ds X hds (fun c tl e => (hX c tl e).1)]
    rfl

theorem noDigit_frac (f : List Byte) (hf : FracText f) (X : List Byte) (hX : NoFrac X) :
    NoDigit (f ++ X) := by
  intro c tl h
  cases hf with
  | none => exact (hX c tl h).1
  | dot ds _ =>
    simp only [List.cons_append, List.cons.injEq] at h
    rw [← h.1]
    decide

theorem scanInt_complete (i : List Byte) (hi : IntText i) (X : List Byte) (hX : NoDigit X) :
    scanInt (i ++ X) = some (i, X) := by
  cases hi with
  | zero => rfl
  | pos c ds hc hds =>
    unfold scanInt
    simp only [List.cons_append]
    rw [if_neg (by omega), if_pos hc, span_digits_append ds X hds hX]

theorem scanNumber_complete (lit : List Byte) (h : NumberText lit) (X : List Byte)
    (hX : Delim X) : scanNumber (lit ++ X) = some (lit, X) := by
  cases h with
  | mk sign i f e hsg hi hf he =>
    have h3 := scanExp_complete e he X hX
    have h2 := scanFrac_complete f hf (e ++ X) (noFrac_exp e he X hX)
    have h1 := scanInt_complete i hi (f ++ (e ++ X))
      (noDigit_frac f hf (e ++ X) (noFrac_exp e he X hX))
    rcases hsg with hs | hs
    · subst hs
      cases hi with
      | zero =>
        unfold scanNumber
        simp only [List.nil_append, List.append_assoc, List.cons_append] at h1 ⊢
        rw [if_neg (by decide)]
        simp only [h1, h2, h3]
        rfl
      | pos c ds hc hds =>
        unfold scanNumber
        simp only [List.nil_append, List.append_assoc, List.cons_append] at h1 ⊢
        rw [if_neg (by omega)]
        simp only [h1, h2, h3]
        rfl
    · subst hs
      unfold scanNumber
      simp only [List.append_assoc, List.cons_append, List.nil_append]
      rw [if_pos (by decide)]
      simp only [h1, h2, h3]
      rfl

/-- The first character of a number is a minus sign or a digit. -/
theorem numberText_head (lit : List Byte) (h : NumberText lit) :
    ∃ c tl, lit = c :: tl ∧ (c.val = 0x2D ∨ isDigit c = true) := by
  cases h with
  | mk sign i f e hsg hi hf he =>
    rcases hsg with hs | hs
    · subst hs
      cases hi with
      | zero => exact ⟨0x30, f ++ e, rfl, Or.inr (by decide)⟩
      | pos c ds hc hds =>
        refine ⟨c, ds ++ f ++ e, by simp, Or.inr ?_⟩
        simp only [isDigit, Bool.and_eq_true, decide_eq_true_eq]
        omega
    · subst hs
      exact ⟨0x2D, i ++ f ++ e, by simp, Or.inl rfl⟩

theorem parseValue_zero (depth : Nat) (s : List Byte) :
    parseValue 0 depth s = .error .outOfFuel := by
  simp [parseValue]

theorem parseMembers_zero (depth : Nat) (s : List Byte) :
    parseMembers 0 depth s = .error .outOfFuel := by
  simp [parseMembers]

theorem parseElems_zero (depth : Nat) (s : List Byte) :
    parseElems 0 depth s = .error .outOfFuel := by
  simp [parseElems]

theorem skipSpace_idem (s : List Byte) : skipSpace (skipSpace s) = skipSpace s := by
  cases h : skipSpace s with
  | nil => rfl
  | cons c rest => exact skipSpace_cons_of_not c rest (skipSpace_head s c rest h)

/-- The scanner on a value depends on its input only behind the white space at its head. -/
theorem parseValue_skip (fuel depth : Nat) (s : List Byte) :
    parseValue fuel depth (skipSpace s) = parseValue fuel depth s := by
  cases fuel with
  | zero => rw [parseValue_zero, parseValue_zero]
  | succ f => rw [parseValue_succ, parseValue_succ, skipSpace_idem]

theorem parseElems_skip (fuel depth : Nat) (s : List Byte) :
    parseElems fuel depth (skipSpace s) = parseElems fuel depth s := by
  cases fuel with
  | zero => rw [parseElems_zero, parseElems_zero]
  | succ f => rw [parseElems_succ, parseElems_succ, parseValue_skip]

theorem parseValue_ws (fuel depth : Nat) (a X : List Byte) (ha : WS a) :
    parseValue fuel depth (a ++ X) = parseValue fuel depth X := by
  rw [← parseValue_skip, skipSpace_ws_append a X ha, parseValue_skip]

/-- The first character of the text of a value: not white space, not a closing bracket and not
a closing brace. -/
theorem value_head (n : Nat) (t : List Byte) (v : JSON) (h : Denotes n t (.value v)) :
    ∃ c tl, t = c :: tl ∧ isSpace c = false ∧ c.val ≠ 0x5D ∧ c.val ≠ 0x7D := by
  cases h with
  | null => exact ⟨0x6E, _, rfl, by decide, by decide, by decide⟩
  | true => exact ⟨0x74, _, rfl, by decide, by decide, by decide⟩
  | false => exact ⟨0x66, _, rfl, by decide, by decide, by decide⟩
  | @num _ _ hnum =>
    obtain ⟨c, tl, h1, h2⟩ := numberText_head t hnum
    refine ⟨c, tl, h1, ?_⟩
    simp only [isDigit, Bool.and_eq_true, decide_eq_true_eq] at h2
    simp only [isSpace, Bool.or_eq_false_iff, decide_eq_false_iff_not]
    omega
  | @str _ raw t1 _ _ => exact ⟨0x22, _, rfl, by decide, by decide, by decide⟩
  | @emptyArr n1 a _ => exact ⟨0x5B, _, rfl, by decide, by decide, by decide⟩
  | @arr n1 body vs _ => exact ⟨0x5B, _, rfl, by decide, by decide, by decide⟩
  | @emptyObj n1 a _ => exact ⟨0x7B, _, rfl, by decide, by decide, by decide⟩
  | @obj n1 a body ms _ _ => exact ⟨0x7B, _, rfl, by decide, by decide, by decide⟩

/-- The text of the members of an object starts with the quote of the first name. -/
theorem members_head (n : Nat) (t : List Byte) (ms : List (GoString × JSON))
    (h : Denotes n t (.members ms)) : ∃ tl, t = 0x22 :: tl := by
  cases h with
  | lastMember => exact ⟨_, rfl⟩
  | consMember => exact ⟨_, rfl⟩

/-- Behind the white space at its head, the text of the elements of an array starts with the
first character of a value. -/
theorem elems_head (n : Nat) (t : List Byte) (vs : List JSON) (h : Denotes n t (.elems vs))
    (X : List Byte) : ∃ c tl, skipSpace (t ++ X) = c :: tl ∧ c.val ≠ 0x5D := by
  cases h with
  | @lastElem _ a t1 b v ha hv hb =>
    obtain ⟨c, tl, h1, h2, h3, _⟩ := value_head n t1 v hv
    refine ⟨c, tl ++ (b ++ [0x5D] ++ X), ?_, h3⟩
    rw [h1]
    simp only [List.append_assoc]
    rw [skipSpace_ws_append a _ ha, List.cons_append, skipSpace_cons_of_not c _ h2]
  | @consElem _ a t1 b body v vs1 ha hv hb _ =>
    obtain ⟨c, tl, h1, h2, h3, _⟩ := value_head n t1 v hv
    refine ⟨c, tl ++ (b ++ 0x2C :: body ++ X), ?_, h3⟩
    rw [h1]
    simp only [List.append_assoc]
    rw [skipSpace_ws_append a _ ha, List.cons_append, skipSpace_cons_of_not c _ h2]

theorem parseValue_num (fuel depth : Nat) (c : Byte) (X lit rest : List Byte)
    (hc : c.val = 0x2D ∨ isDigit c = true) (hs : scanNumber (c :: X) = some (lit, rest)) :
    parseValue (fuel + 1) depth (c :: X) = .ok (.num lit, rest) := by
  have hc2 : c.val = 0x2D ∨ (0x30 ≤ c.val ∧ c.val ≤ 0x39) := by
    simpa only [isDigit, Bool.and_eq_true, decide_eq_true_eq] using hc
  have hsp : isSpace c = false := by
    simp only [isSpace, Bool.or_eq_false_iff, decide_eq_false_iff_not]
    omega
  rw [parseValue_succ, skipSpace_cons_of_not c X hsp]
  simp only
  rw [if_neg (by omega), if_neg (by omega), if_neg (by omega), if_pos hc, hs]

theorem parseValue_str (fuel depth : Nat) (raw : List Byte) (t : GoString) (rest : List Byte)
    (hraw : StringText raw) (hu : unquote raw = some t) :
    parseValue (fuel + 1) depth (0x22 :: (raw ++ 0x22 :: rest)) = .ok (.str t, rest) := by
  rw [parseValue_succ, skipSpace_quote]
  simp only
  rw [if_neg (by decide), if_neg (by decide), if_pos (by decide),
    scanString_complete raw hraw rest]
  simp only [hu]

theorem parseValue_open_bracket (fuel depth : Nat) (X : List Byte)
    (hd : depth < maxNestingDepth) :
    parseValue (fuel + 1) depth (0x5B :: X) =
      match skipSpace X with
      | [] => .error .SyntaxError
      | d :: rest1 =>
        if d.val = 0x5D then .ok (.arr [], rest1)
        else
          match parseElems fuel (depth + 1) (d :: rest1) with
          | .error e => .error e
          | .ok (vs, rest2) => .ok (.arr vs, rest2) := by
  rw [parseValue_succ, skipSpace_cons_of_not _ _ (by decide)]
  simp only
  rw [if_neg (by decide), if_pos (by decide), if_neg (Nat.not_le.mpr hd)]

theorem parseValue_open_brace (fuel depth : Nat) (X : List Byte)
    (hd : depth < maxNestingDepth) :
    parseValue (fuel + 1) depth (0x7B :: X) =
      match skipSpace X with
      | [] => .error .SyntaxError
      | d :: rest1 =>
        if d.val = 0x7D then .ok (.obj [], rest1)
        else
          match parseMembers fuel (depth + 1) (d :: rest1) with
          | .error e => .error e
          | .ok (ms, rest2) => .ok (.obj ms, rest2) := by
  rw [parseValue_succ, skipSpace_cons_of_not _ _ (by decide)]
  simp only
  rw [if_pos (by decide), if_neg (Nat.not_le.mpr hd)]

/-- What the member scanner does on a name, a colon and what follows. -/
theorem parseMembers_name (fuel depth : Nat) (raw : List Byte) (key : GoString)
    (b tail : List Byte) (hraw : StringText raw) (hu : unquote raw = some key) (hb : WS b) :
    parseMembers (fuel + 1) depth (0x22 :: (raw ++ 0x22 :: (b ++ 0x3A :: tail))) =
      afterName fuel depth key tail := by
  rw [parseMembers_succ]
  simp only
  rw [if_pos (by decide), scanString_complete raw hraw _]
  simp only [hu]
  rw [skipSpace_ws_append b _ hb, skipSpace_cons_of_not _ _ (by decide)]
  simp only
  rw [if_pos (by decide)]
  rfl

theorem afterName_last (fuel depth : Nat) (key : GoString) (c t d rest : List Byte) (v : JSON)
    (hc : WS c) (hd : WS d)
    (hv : parseValue fuel depth (t ++ (d ++ 0x7D :: rest)) = .ok (v, d ++ 0x7D :: rest) ∨
      parseValue fuel depth (t ++ (d ++ 0x7D :: rest)) = .error .outOfFuel) :
    afterName fuel depth key (c ++ (t ++ (d ++ 0x7D :: rest))) = .ok ([(key, v)], rest) ∨
      afterName fuel depth key (c ++ (t ++ (d ++ 0x7D :: rest))) = .error .outOfFuel := by
  unfold afterName
  rw [parseValue_ws fuel depth c _ hc]
  rcases hv with h | h
  · left
    rw [h]
    simp only
    rw [skipSpace_ws_append d _ hd, skipSpace_cons_of_not _ _ (by decide)]
    simp only
    rw [if_neg (by decide), if_pos (by decide)]
  · right
    rw [h]

theorem afterName_cons (fuel depth : Nat) (key : GoString) (c t d e body rest : List Byte)
    (v : JSON) (ms : List (GoString × JSON)) (hc : WS c) (hd : WS d) (he : WS e)
    (hbody : ∃ tl, body = 0x22 :: tl)
    (hv : parseValue fuel depth (t ++ (d ++ 0x2C :: (e ++ (body ++ rest)))) =
        .ok (v, d ++ 0x2C :: (e ++ (body ++ rest))) ∨
      parseValue fuel depth (t ++ (d ++ 0x2C :: (e ++ (body ++ rest)))) = .error .outOfFuel)
    (hm : parseMembers fuel depth (body ++ rest) = .ok (ms, rest) ∨
      parseMembers fuel depth (body ++ rest) = .error .outOfFuel) :
    afterName fuel depth key (c ++ (t ++ (d ++ 0x2C :: (e ++ (body ++ rest))))) =
        .ok ((key, v) :: ms, rest) ∨
      afterName fuel depth key (c ++ (t ++ (d ++ 0x2C :: (e ++ (body ++ rest))))) =
        .error .outOfFuel := by
  unfold afterName
  rw [parseValue_ws fuel depth c _ hc]
  rcases hv with h | h
  · rw [h]
    simp only
    rw [skipSpace_ws_append d _ hd, skipSpace_cons_of_not _ _ (by decide)]
    simp only
    rw [if_pos (by decide), skipSpace_ws_append e _ he]
    obtain ⟨tl, htl⟩ := hbody
    have hsk : skipSpace (body ++ rest) = body ++ rest := by
      rw [htl, List.cons_append]
      exact skipSpace_quote _
    rw [hsk]
    rcases hm with h2 | h2
    · left
      rw [h2]
    · right
      rw [h2]
  · right
    rw [h]

/-- Each of the three scanners accepts every text of the grammar that is nested no deeper than
`maxNestingDepth` allows at the depth of the call, and gives what the text stands for. -/
theorem parse_complete (n : Nat) (t : List Byte) (p : Phrase) (h : Denotes n t p) :
    ∀ depth, depth + n ≤ maxNestingDepth → ∀ fuel rest, Parses fuel depth t p rest := by
  induction h with
  | null n =>
    intro depth _ fuel rest _
    cases fuel with
    | zero => exact Or.inr (parseValue_zero _ _)
    | succ f => exact Or.inl rfl
  | true n =>
    intro depth _ fuel rest _
    cases fuel with
    | zero => exact Or.inr (parseValue_zero _ _)
    | succ f => exact Or.inl rfl
  | false n =>
    intro depth _ fuel rest _
    cases fuel with
    | zero => exact Or.inr (parseValue_zero _ _)
    | succ f => exact Or.inl rfl
  | num n lit hnum =>
    intro depth _ fuel rest hdelim
    cases fuel with
    | zero => exact Or.inr (parseValue_zero _ _)
    | succ f =>
      left
      obtain ⟨c, tl, h1, h2⟩ := numberText_head lit hnum
      have hs := scanNumber_complete lit hnum rest hdelim
      subst h1
      exact parseValue_num f depth c (tl ++ rest) (c :: tl) rest h2 hs
  | str n raw t1 hraw hu =>
    intro depth _ fuel rest _
    cases fuel with
    | zero => exact Or.inr (parseValue_zero _ _)
    | succ f =>
      left
      have := parseValue_str f depth raw t1 rest hraw hu
      simpa only [List.cons_append, List.append_assoc, List.nil_append] using this
  | emptyArr n a ha =>
    intro depth hd fuel rest _
    cases fuel with
    | zero => exact Or.inr (parseValue_zero _ _)
    | succ f =>
      left
      show parseValue (f + 1) depth ((0x5B :: a ++ [0x5D]) ++ rest) = _
      simp only [List.cons_append, List.append_assoc, List.nil_append]
      rw [parseValue_open_bracket f depth _ (by omega), skipSpace_ws_append a _ ha,
        skipSpace_cons_of_not _ _ (by decide)]
      rfl
  | arr n body vs _ ih =>
    intro depth hd fuel rest _
    cases fuel with
    | zero => exact Or.inr (parseValue_zero _ _)
    | succ f =>
      show parseValue (f + 1) depth ((0x5B :: body) ++ rest) = _ ∨ _
      simp only [List.cons_append]
      rw [parseValue_open_bracket f depth _ (by omega)]
      obtain ⟨c, tl, h1, h2⟩ := elems_head n body vs (by assumption) rest
      have h3 : parseElems f (depth + 1) (c :: tl) = parseElems f (depth + 1) (body ++ rest) := by
        rw [← h1, parseElems_skip]
      rw [h1]
      simp only
      rw [if_neg h2, h3]
      rcases ih (depth + 1) (by omega) f rest with h4 | h4
      · left
        rw [h4]
      · right
        rw [h4]
  | emptyObj n a ha =>
    intro depth hd fuel rest _
    cases fuel with
    | zero => exact Or.inr (parseValue_zero _ _)
    | succ f =>
      left
      show parseValue (f + 1) depth ((0x7B :: a ++ [0x7D]) ++ rest) = _
      simp only [List.cons_append, List.append_assoc, List.nil_append]
      rw [parseValue_open_brace f depth _ (by omega), skipSpace_ws_append a _ ha,
        skipSpace_cons_of_not _ _ (by decide)]
      rfl
  | obj n a body ms ha hbody ih =>
    intro depth hd fuel rest _
    cases fuel with
    | zero => exact Or.inr (parseValue_zero _ _)
    | succ f =>
      show parseValue (f + 1) depth ((0x7B :: a ++ body) ++ rest) = _ ∨ _
      simp only [List.cons_append, List.append_assoc]
      rw [parseValue_open_brace f depth _ (by omega), skipSpace_ws_append a _ ha]
      obtain ⟨tl, htl⟩ := members_head n body ms hbody
      have h3 := ih (depth + 1) (by omega) f rest
      simp only [Parses] at h3
      rw [htl] at h3 ⊢
      simp only [List.cons_append] at h3 ⊢
      rw [skipSpace_quote]
      simp only
      rw [if_neg (by decide)]
      rcases h3 with h4 | h4
      · left
        rw [h4]
      · right
        rw [h4]
  | lastElem n a t1 b v ha _ hb ih =>
    intro depth hd fuel rest
    cases fuel with
    | zero => exact Or.inr (parseElems_zero _ _)
    | succ f =>
      show parseElems (f + 1) depth ((a ++ t1 ++ b ++ [0x5D]) ++ rest) = _ ∨ _
      simp only [List.append_assoc, List.cons_append, List.nil_append]
      rw [parseElems_succ, parseValue_ws f depth a _ ha]
      rcases ih depth hd f (b ++ 0x5D :: rest) (delim_ws_append b _ hb (delim_bracket rest))
        with h4 | h4
      · left
        rw [h4]
        simp only
        rw [skipSpace_ws_append b _ hb, skipSpace_cons_of_not _ _ (by decide)]
        simp only
        rw [if_neg (by decide), if_pos (by decide)]
      · right
        rw [h4]
  | consElem n a t1 b body v vs ha _ hb _ ihv ihb =>
    intro depth hd fuel rest
    cases fuel with
    | zero => exact Or.inr (parseElems_zero _ _)
    | succ f =>
      show parseElems (f + 1) depth ((a ++ t1 ++ b ++ 0x2C :: body) ++ rest) = _ ∨ _
      simp only [List.append_assoc, List.cons_append]
      rw [parseElems_succ, parseValue_ws f depth a _ ha]
      rcases ihv depth hd f (b ++ 0x2C :: (body ++ rest))
        (delim_ws_append b _ hb (delim_comma _)) with h4 | h4
      · rw [h4]
        simp only
        rw [skipSpace_ws_append b _ hb, skipSpace_cons_of_not _ _ (by decide)]
        simp only
        rw [if_pos (by decide)]
        rcases ihb depth hd f rest with h5 | h5
        · left
          rw [h5]
        · right
          rw [h5]
      · right
        rw [h4]
  | lastMember n raw key b c t1 d v hraw hu hb hc _ hd1 ih =>
    intro depth hd fuel rest
    cases fuel with
    | zero => exact Or.inr (parseMembers_zero _ _)
    | succ f =>
      show parseMembers (f + 1) depth
        ((0x22 :: raw ++ 0x22 :: b ++ 0x3A :: c ++ t1 ++ d ++ [0x7D]) ++ rest) = _ ∨ _
      simp only [List.append_assoc, List.cons_append, List.nil_append]
      rw [parseMembers_name f depth raw key b _ hraw hu hb]
      exact afterName_last f depth key c t1 d rest v hc hd1
        (ih depth hd f (d ++ 0x7D :: rest) (delim_ws_append d _ hd1 (delim_brace rest)))
  | consMember n raw key b c t1 d e body v ms hraw hu hb hc _ hd1 he hbody ihv ihb =>
    intro depth hd fuel rest
    cases fuel with
    | zero => exact Or.inr (parseMembers_zero _ _)
    | succ f =>
      show parseMembers (f + 1) depth
        ((0x22 :: raw ++ 0x22 :: b ++ 0x3A :: c ++ t1 ++ d ++ 0x2C :: e ++ body) ++ rest) =
          _ ∨ _
      simp only [List.append_assoc, List.cons_append]
      rw [parseMembers_name f depth raw key b _ hraw hu hb]
      exact afterName_cons f depth key c t1 d e body rest v ms hc hd1 he
        (members_head n body ms hbody)
        (ihv depth hd f (d ++ 0x2C :: (e ++ (body ++ rest)))
          (delim_ws_append d _ hd1 (delim_comma _)))
        (ihb depth hd f rest)

/-! ## The scanner and the grammar agree on documents -/

/-- The only error of the three scanners, besides the one of the recursion bound, is the syntax
error. -/
theorem parse_error_kind (fuel : Nat) : ∀ (depth : Nat) (s : List Byte),
    (∀ e, parseValue fuel depth s = .error e → e = .SyntaxError ∨ e = .outOfFuel) ∧
    (∀ e, parseMembers fuel depth s = .error e → e = .SyntaxError ∨ e = .outOfFuel) ∧
    (∀ e, parseElems fuel depth s = .error e → e = .SyntaxError ∨ e = .outOfFuel) := by
  induction fuel with
  | zero =>
    intro depth s
    refine ⟨?_, ?_, ?_⟩
    · intro e h
      rw [parseValue_zero] at h
      cases h
      exact Or.inr rfl
    · intro e h
      rw [parseMembers_zero] at h
      cases h
      exact Or.inr rfl
    · intro e h
      rw [parseElems_zero] at h
      cases h
      exact Or.inr rfl
  | succ fuel ih =>
    intro depth s
    refine ⟨?_, ?_, ?_⟩
    · intro e h
      rw [parseValue_succ] at h
      repeat' split at h
      all_goals first
        | (cases h; exact Or.inl rfl)
        | (cases h; exact (ih _ _).2.1 _ (by assumption))
        | (cases h; exact (ih _ _).2.2 _ (by assumption))
        | cases h
    · intro e h
      rw [parseMembers_succ] at h
      repeat' split at h
      all_goals first
        | (cases h; exact Or.inl rfl)
        | (cases h; exact (ih _ _).1 _ (by assumption))
        | (cases h; exact (ih _ _).2.1 _ (by assumption))
        | cases h
    · intro e h
      rw [parseElems_succ] at h
      repeat' split at h
      all_goals first
        | (cases h; exact Or.inl rfl)
        | (cases h; exact (ih _ _).1 _ (by assumption))
        | (cases h; exact (ih _ _).2.2 _ (by assumption))
        | cases h

theorem delim_of_ws (b : List Byte) (hb : WS b) : Delim b := by
  have := delim_ws_append b [] hb delim_nil
  rwa [List.append_nil] at this

/-- The scanner accepts exactly the documents of the grammar, and gives the value they stand
for. -/
theorem parseDocument_iff (content : List Byte) (v : JSON) :
    parseDocument content = .ok v ↔ DocumentOf content v := by
  constructor
  · intro h
    unfold parseDocument at h
    cases hv : parseValue (2 * content.length + 2) 0 content with
    | error e => simp [hv] at h
    | ok p =>
      obtain ⟨v1, rest⟩ := p
      simp only [hv] at h
      split_ifs at h with h1
      simp only [Except.ok.injEq] at h
      subst h
      obtain ⟨a, t, h2, h3, h4⟩ :=
        (parse_sound (2 * content.length + 2) 0 maxNestingDepth content (by omega)).1 v1 rest hv
      exact ⟨a, t, rest, h2, h3, ws_of_skipSpace_nil rest h1, h4⟩
  · intro h
    obtain ⟨a, t, b, h1, h2, h3, h4⟩ := h
    have hc := parse_complete maxNestingDepth t (.value v) h4 0 (by omega)
      (2 * content.length + 2) b (delim_of_ws b h3)
    have hne := (parse_fuel_suffices (2 * content.length + 2) 0 content).1 (by omega)
    have hrw : parseValue (2 * content.length + 2) 0 content =
        parseValue (2 * content.length + 2) 0 (t ++ b) := by
      rw [h1, List.append_assoc, parseValue_ws _ _ a _ h2]
    rw [hrw] at hne
    rcases hc with h5 | h5
    · unfold parseDocument
      rw [hrw, h5]
      simp only [skipSpace_of_ws b h3, if_true]
    · exact absurd h5 hne

/-- A content that is no document of the grammar is refused with a syntax error. -/
theorem parseDocument_error (content : List Byte) (h : ∀ v, ¬ DocumentOf content v) :
    parseDocument content = .error .SyntaxError := by
  cases hp : parseDocument content with
  | ok v => exact absurd ((parseDocument_iff content v).mp hp) (h v)
  | error e =>
    have hne : parseDocument content ≠ .error .outOfFuel := by
      intro h1
      have := Unmarshal_ne_outOfFuel content none
      simp only [Unmarshal, h1] at this
      exact this rfl
    rw [hp] at hne
    unfold parseDocument at hp
    cases hv : parseValue (2 * content.length + 2) 0 content with
    | error e1 =>
      simp only [hv, Except.error.injEq] at hp
      subst hp
      rcases (parse_error_kind _ 0 content).1 e1 hv with h1 | h1
      · rw [h1]
      · rw [h1] at hne
        exact absurd rfl hne
    | ok p =>
      simp only [hv] at hp
      split_ifs at hp
      simp only [Except.error.injEq] at hp
      rw [hp]

/-! ## What the decoder stores -/

theorem storeString_ok_iff (cur : GoString) (v : JSON) :
    (∃ t, storeString cur v = .ok t) ↔ fitsString v = true := by
  cases v <;> simp [storeString, fitsString]

theorem storeElems_cons (back : List Byte) (e : JSON) (es : List JSON) :
    storeElems back (e :: es) =
      match (match e with
        | .num lit =>
          match parseUint8 lit with
          | some b => (.ok b : Except JsonError Byte)
          | none => .error .UnmarshalTypeError
        | .null => .ok (back.headD 0)
        | _ => .error .UnmarshalTypeError) with
      | .error err => .error err
      | .ok b =>
        match storeElems back.tail es with
        | .error err => .error err
        | .ok bs => .ok (b :: bs) := by
  rfl

theorem storeElems_ok_iff (es : List JSON) (back : List Byte) :
    (∃ bs, storeElems back es = .ok bs) ↔ es.all fitsByte = true := by
  induction es generalizing back with
  | nil => simp [storeElems]
  | cons e es ih =>
    have hrest := ih back.tail
    rw [List.all_cons, Bool.and_eq_true, ← hrest, storeElems_cons]
    cases e with
    | num lit =>
      cases hp : parseUint8 lit with
      | none => simp [fitsByte, hp]
      | some b =>
        cases hr : storeElems back.tail es with
        | error err => simp [fitsByte, hp]
        | ok bs => simp [fitsByte, hp]
    | null =>
      cases hr : storeElems back.tail es with
      | error err => simp [fitsByte]
      | ok bs => simp [fitsByte]
    | bool b => simp [fitsByte]
    | str t => simp [fitsByte]
    | arr vs => simp [fitsByte]
    | obj ms => simp [fitsByte]

theorem storeBytes_ok_iff (cur : Option (List Byte)) (spare : List Byte) (v : JSON) :
    (∃ r, storeBytes cur spare v = .ok r) ↔ fitsBytes v = true := by
  cases v with
  | str t => cases hb : base64Decode t <;> simp [storeBytes, fitsBytes, hb]
  | arr elems =>
    cases elems with
    | nil => simp [storeBytes, fitsBytes]
    | cons e es =>
      have := storeElems_ok_iff (e :: es) (cur.getD [] ++ spare)
      simp only [fitsBytes, ← this, storeBytes]
      cases hr : storeElems (cur.getD [] ++ spare) (e :: es) with
      | error err => simp
      | ok bs => simp
  | null => simp [storeBytes, fitsBytes]
  | bool b => simp [storeBytes, fitsBytes]
  | num lit => simp [storeBytes, fitsBytes]
  | obj ms => simp [storeBytes, fitsBytes]

theorem except_map_ok_iff {ε α β : Type} (r : Except ε α) (f : α → β) :
    (∃ y, r.map f = .ok y) ↔ ∃ x, r = .ok x := by
  cases r <;> simp [Except.map]

theorem storeMember_ok_iff (st : Item × List Byte) (m : GoString × JSON) :
    (∃ st1, storeMember st m = .ok st1) ↔ fitsMember m = true := by
  unfold storeMember fitsMember
  cases hf : fieldOf m.1 with
  | none => simp
  | some fld =>
    cases fld with
    | Key => simp only [except_map_ok_iff, storeString_ok_iff]
    | Data => simp only [except_map_ok_iff, storeBytes_ok_iff]
    | Label => simp only [except_map_ok_iff, storeString_ok_iff]
    | Description => simp only [except_map_ok_iff, storeString_ok_iff]

theorem storeMembers_ok_iff (ms : List (GoString × JSON)) (st : Item × List Byte) :
    (∃ st1, storeMembers st ms = .ok st1) ↔ ms.all fitsMember = true := by
  induction ms generalizing st with
  | nil => simp [storeMembers]
  | cons m ms ih =>
    rw [List.all_cons, Bool.and_eq_true, ← storeMember_ok_iff st m]
    unfold storeMembers
    cases hm : storeMember st m with
    | error err => simp
    | ok st1 =>
      simp only [Except.ok.injEq, exists_eq', true_and]
      exact ih st1

theorem decodeItem_ok_iff (v : JSON) : (∃ it, decodeItem v = .ok it) ↔ fitsItem v = true := by
  cases v with
  | obj ms =>
    simp only [decodeItem, fitsItem, except_map_ok_iff]
    exact storeMembers_ok_iff ms (Item.zero, [])
  | null => simp [decodeItem, fitsItem]
  | bool b => simp [decodeItem, fitsItem]
  | num lit => simp [decodeItem, fitsItem]
  | str t => simp [decodeItem, fitsItem]
  | arr vs => simp [decodeItem, fitsItem]

theorem decodeEntries_ok_iff (ms : List (GoString × JSON)) (es : GoMap) :
    (∃ es1, decodeEntries es ms = .ok es1) ↔ ms.all (fun m => fitsItem m.2) = true := by
  induction ms generalizing es with
  | nil => simp [decodeEntries]
  | cons m ms ih =>
    rw [List.all_cons, Bool.and_eq_true, ← decodeItem_ok_iff m.2]
    unfold decodeEntries
    cases hm : decodeItem m.2 with
    | error err => simp
    | ok it =>
      simp only [Except.ok.injEq, exists_eq', true_and]
      exact ih _

theorem storeString_error_kind (cur : GoString) (v : JSON) (e : JsonError)
    (h : storeString cur v = .error e) : e = .UnmarshalTypeError := by
  cases v <;> simp [storeString] at h <;> exact h.symm

theorem storeElems_error_kind (es : List JSON) (back : List Byte) (e : JsonError)
    (h : storeElems back es = .error e) : e = .UnmarshalTypeError := by
  induction es generalizing back with
  | nil => simp [storeElems] at h
  | cons x es ih =>
    rw [storeElems_cons] at h
    have hrest := ih back.tail
    cases x with
    | num lit =>
      cases hp : parseUint8 lit with
      | none =>
        simp only [hp, Except.error.injEq] at h
        exact h.symm
      | some b =>
        cases hr : storeElems back.tail es with
        | error err =>
          simp only [hp, hr, Except.error.injEq] at h
          subst h
          exact hrest hr
        | ok bs => simp [hp, hr] at h
    | null =>
      cases hr : storeElems back.tail es with
      | error err =>
        simp only [hr, Except.error.injEq] at h
        subst h
        exact hrest hr
      | ok bs => simp [hr] at h
    | bool b =>
      simp only [Except.error.injEq] at h
      exact h.symm
    | str t =>
      simp only [Except.error.injEq] at h
      exact h.symm
    | arr vs =>
      simp only [Except.error.injEq] at h
      exact h.symm
    | obj ms =>
      simp only [Except.error.injEq] at h
      exact h.symm

theorem storeBytes_error_kind (cur : Option (List Byte)) (spare : List Byte) (v : JSON)
    (e : JsonError) (h : storeBytes cur spare v = .error e) :
    e = .UnmarshalTypeError ∨ e = .CorruptInputError := by
  cases v with
  | str t =>
    simp only [storeBytes] at h
    cases hb : base64Decode t with
    | none =>
      simp only [hb, Except.error.injEq] at h
      exact Or.inr h.symm
    | some bs => simp [hb] at h
  | arr elems =>
    cases elems with
    | nil => simp [storeBytes] at h
    | cons x xs =>
      simp only [storeBytes] at h
      cases hr : storeElems (cur.getD [] ++ spare) (x :: xs) with
      | error err =>
        simp only [hr, Except.error.injEq] at h
        subst h
        exact Or.inl (storeElems_error_kind _ _ _ hr)
      | ok bs => simp [hr] at h
  | null => simp [storeBytes] at h
  | bool b =>
    simp only [storeBytes, Except.error.injEq] at h
    exact Or.inl h.symm
  | num lit =>
    simp only [storeBytes, Except.error.injEq] at h
    exact Or.inl h.symm
  | obj ms =>
    simp only [storeBytes, Except.error.injEq] at h
    exact Or.inl h.symm

theorem except_map_error_iff {ε α β : Type} (r : Except ε α) (f : α → β) (e : ε) :
    r.map f = .error e ↔ r = .error e := by
  cases r <;> simp [Except.map]

theorem storeMember_error_kind (st : Item × List Byte) (m : GoString × JSON) (e : JsonError)
    (h : storeMember st m = .error e) : e = .UnmarshalTypeError ∨ e = .CorruptInputError := by
  unfold storeMember at h
  cases hf : fieldOf m.1 with
  | none => simp [hf] at h
  | some fld =>
    cases fld with
    | Key =>
      simp only [hf, except_map_error_iff] at h
      exact Or.inl (storeString_error_kind _ _ _ h)
    | Data =>
      simp only [hf, except_map_error_iff] at h
      exact storeBytes_error_kind _ _ _ _ h
    | Label =>
      simp only [hf, except_map_error_iff] at h
      exact Or.inl (storeString_error_kind _ _ _ h)
    | Description =>
      simp only [hf, except_map_error_iff] at h
      exact Or.inl (storeString_error_kind _ _ _ h)

theorem storeMembers_error_kind (ms : List (GoString × JSON)) (st : Item × List Byte)
    (e : JsonError) (h : storeMembers st ms = .error e) :
    e = .UnmarshalTypeError ∨ e = .CorruptInputError := by
  induction ms generalizing st with
  | nil => simp [storeMembers] at h
  | cons m ms ih =>
    unfold storeMembers at h
    cases hm : storeMember st m with
    | error err =>
      simp only [hm, Except.error.injEq] at h
      subst h
      exact storeMember_error_kind _ _ _ hm
    | ok st1 =>
      simp only [hm] at h
      exact ih st1 h

theorem decodeItem_error_kind (v : JSON) (e : JsonError) (h : decodeItem v = .error e) :
    e = .UnmarshalTypeError ∨ e = .CorruptInputError := by
  cases v with
  | obj ms =>
    simp only [decodeItem, except_map_error_iff] at h
    exact storeMembers_error_kind _ _ _ h
  | null => simp [decodeItem] at h
  | bool b =>
    simp only [decodeItem, Except.error.injEq] at h
    exact Or.inl h.symm
  | num lit =>
    simp only [decodeItem, Except.error.injEq] at h
    exact Or.inl h.symm
  | str t =>
    simp only [decodeItem, Except.error.injEq] at h
    exact Or.inl h.symm
  | arr vs =>
    simp only [decodeItem, Except.error.injEq] at h
    exact Or.inl h.symm

theorem decodeEntries_error_kind (ms : List (GoString × JSON)) (es : GoMap) (e : JsonError)
    (h : decodeEntries es ms = .error e) :
    e = .UnmarshalTypeError ∨ e = .CorruptInputError := by
  induction ms generalizing es with
  | nil => simp [decodeEntries] at h
  | cons m ms ih =>
    unfold decodeEntries at h
    cases hm : decodeItem m.2 with
    | error err =>
      simp only [hm, Except.error.injEq] at h
      subst h
      exact decodeItem_error_kind _ _ hm
    | ok it =>
      simp only [hm] at h
      exact ih _ h

/-- What `json.Unmarshal` into an initialised map gives, by the grammar and the shape of the
value: a syntax error on what is no document, the nil map on the document `null`, a store on an
object that fits the map, and a type error or a base64 error on every other document. -/
theorem Unmarshal_by_document (content : List Byte) (cur : GoMap) :
    ((∀ v, ¬ DocumentOf content v) → Unmarshal content (some cur) = .error .SyntaxError) ∧
    (∀ v, DocumentOf content v → v.isNull = false → fitsMap v = false →
      ∃ err, (err = .UnmarshalTypeError ∨ err = .CorruptInputError) ∧
        Unmarshal content (some cur) = .error err) ∧
    (∀ v, DocumentOf content v → fitsMap v = true →
      ∃ es, Unmarshal content (some cur) = .ok (some es)) := by
  refine ⟨?_, ?_, ?_⟩
  · intro h
    simp only [Unmarshal, parseDocument_error content h]
  · intro v hv hn hf
    have hp := (parseDocument_iff content v).mpr hv
    cases v with
    | null => exact absurd hn (by simp [JSON.isNull])
    | obj ms =>
      cases hd : decodeEntries cur ms with
      | error err =>
        exact ⟨err, decodeEntries_error_kind ms cur err hd,
          by simp only [Unmarshal, hp, Option.getD_some, hd]⟩
      | ok es =>
        have := (decodeEntries_ok_iff ms cur).mp ⟨es, hd⟩
        simp only [fitsMap] at hf
        rw [this] at hf
        exact absurd hf (by simp)
    | bool b => exact ⟨_, Or.inl rfl, by simp only [Unmarshal, hp]⟩
    | num lit => exact ⟨_, Or.inl rfl, by simp only [Unmarshal, hp]⟩
    | str t => exact ⟨_, Or.inl rfl, by simp only [Unmarshal, hp]⟩
    | arr vs => exact ⟨_, Or.inl rfl, by simp only [Unmarshal, hp]⟩
  · intro v hv hf
    have hp := (parseDocument_iff content v).mpr hv
    cases v with
    | obj ms =>
      obtain ⟨es, hes⟩ := (decodeEntries_ok_iff ms cur).mpr hf
      exact ⟨es, by simp only [Unmarshal, hp, Option.getD_some, hes]⟩
    | null => simp [fitsMap] at hf
    | bool b => simp [fitsMap] at hf
    | num lit => simp [fitsMap] at hf
    | str t => simp [fitsMap] at hf
    | arr vs => simp [fitsMap] at hf

/-- No value is the document of a content that the scanner refuses. -/
theorem not_document_of_error (content : List Byte) (e : JsonError)
    (h : parseDocument content = .error e) : ∀ v, ¬ DocumentOf content v := by
  intro v hv
  rw [(parseDocument_iff content v).mpr hv] at h
  cases h

/-- A member `Data` that stands several times in one record is stored into the same backing
array each time: after `[1,2]` and `[1]`, the array `[1,null]` brings back the 2 that the
second value had cut off. -/
theorem repeated_data_member :
    Unmarshal (ascii "\x7b\"a\":\x7b\"Data\":[1,2],\"Data\":[1],\"Data\":[1,null]\x7d\x7d")
        (some []) =
      .ok (some [(ascii "a", ⟨[], some [1, 2], [], []⟩)]) ∧
    Unmarshal (ascii "\x7b\"a\":\x7b\"Data\":[1,2],\"Data\":\"\",\"Data\":[null,null]\x7d\x7d")
        (some []) =
      .ok (some [(ascii "a", ⟨[], some [0, 0], [], []⟩)]) :=
  ⟨rfl, rfl⟩

/-! ## `Set` and then `Get` -/

/-- On every store whose map is initialised (also one that already holds another record under
the key of `r`), `Set(r)` returns, whatever its save does, and leaves a store on which
`Get(r.Key)` returns `r` itself with no error, so all four fields are those of `r` and nothing
of an earlier record is left. -/
theorem set_then_get_returns_record (filePath : GoString) (es : GoMap) (r : Item) (fs : FS) :
    ∃ k1 res, (JSONKeyring.mk filePath (some es)).Set r fs = .ret (k1, res) ∧
      k1.Get r.Key = (r, none) ∧
      (k1.Get r.Key).1.Key = r.Key ∧ (k1.Get r.Key).1.Data = r.Data ∧
      (k1.Get r.Key).1.Label = r.Label ∧ (k1.Get r.Key).1.Description = r.Description := by
  refine ⟨⟨filePath, some (mapInsert es r.Key r)⟩, _, rfl, ?_⟩
  have h : (JSONKeyring.mk filePath (some (mapInsert es r.Key r))).Get r.Key = (r, none) := by
    simp only [JSONKeyring.Get, mapLookup_insert_self]
  rw [h]
  exact ⟨rfl, rfl, rfl, rfl, rfl⟩

/-! ## Where the failures of the file operations go -/

/-- On a path at which nothing exists `NewJSONKeyring` returns the empty store and no error.
Once `os.Stat` has succeeded, a failure of `os.ReadFile` or of `json.Unmarshal` is returned by
`NewJSONKeyring`, with no store. In `save`, `json.MarshalIndent` always gives a document for
this type, a failure of `os.WriteFile` is returned, and `Set` and `Remove` return what `save`
returns. So after a successful `os.Stat` a store is returned only if the read and the decoding
succeeded, and `save` reports success only if the write succeeded. -/
theorem io_failures_are_returned (filePath : GoString) (fs : FS) (k : JSONKeyring)
    (es : GoMap) (item : Item) (key : GoString) :
    (fs.files filePath = none → NewJSONKeyring filePath fs = (.ok ⟨filePath, some []⟩, fs)) ∧
    ((osStat fs filePath).1 = none →
      (∀ err, (osReadFile fs filePath).1 = .error err →
        (NewJSONKeyring filePath fs).1 = .error err) ∧
      (∀ content err, (osReadFile fs filePath).1 = .ok content →
        Unmarshal content (some []) = .error err →
        (NewJSONKeyring filePath fs).1 = .error (.UnmarshalError err)) ∧
      (∀ k1, (NewJSONKeyring filePath fs).1 = .ok k1 →
        ∃ content, (osReadFile fs filePath).1 = .ok content ∧
          Unmarshal content (some []) = .ok k1.data)) ∧
    (∃ data, MarshalIndent k.data = .ok data) ∧
    (∀ data err, MarshalIndent k.data = .ok data →
      (osWriteFile fs k.filePath data).1 = some err → (k.save fs).1 = some err) ∧
    ((k.save fs).1 = none →
      ∃ data, MarshalIndent k.data = .ok data ∧ (osWriteFile fs k.filePath data).1 = none) ∧
    (∃ k1, (JSONKeyring.mk filePath (some es)).Set item fs = .ret (k1, k1.save fs)) ∧
    (k.Remove key fs).2 = (k.Remove key fs).1.save fs := by
  refine ⟨new_of_missing filePath fs, ?_, ?_, ?_, ?_, ⟨_, rfl⟩, rfl⟩
  · intro hstat
    have hs : osStat fs filePath = (none, fs) := by
      unfold osStat at hstat ⊢
      cases h1 : fs.statFault filePath with
      | some errno => simp [h1] at hstat
      | none =>
        cases h2 : fs.files filePath with
        | none => simp [h1, h2] at hstat
        | some c => rfl
    have hfs : (osReadFile fs filePath).2 = fs := by
      unfold osReadFile
      cases fs.readFault filePath with
      | some errno => rfl
      | none => cases fs.files filePath <;> rfl
    refine ⟨?_, ?_, ?_⟩
    · intro err hr
      have : osReadFile fs filePath = (.error err, fs) := Prod.ext hr hfs
      simp only [NewJSONKeyring, hs, this]
    · intro content err hr hu
      have : osReadFile fs filePath = (.ok content, fs) := Prod.ext hr hfs
      simp only [NewJSONKeyring, hs, this, hu]
    · intro k1 hk
      cases hr : (osReadFile fs filePath).1 with
      | error err =>
        have : osReadFile fs filePath = (.error err, fs) := Prod.ext hr hfs
        simp [NewJSONKeyring, hs, this] at hk
      | ok content =>
        have : osReadFile fs filePath = (.ok content, fs) := Prod.ext hr hfs
        refine ⟨content, rfl, ?_⟩
        cases hu : Unmarshal content (some []) with
        | error err => simp [NewJSONKeyring, hs, this, hu] at hk
        | ok data =>
          simp only [NewJSONKeyring, hs, this, hu, Except.ok.injEq] at hk
          rw [← hk]
  · exact MarshalIndent_ok k.data
  · intro data err hm hw
    rw [save_eq_write k fs data hm]
    exact hw
  · intro h
    obtain ⟨data, hd⟩ := MarshalIndent_ok k.data
    exact ⟨data, hd, by rw [← save_eq_write k fs data hd]; exact h⟩

/-- Witness of `io_failures_are_returned`: a path without a file, a backing file that cannot be
read, a backing file holding an array, and a store whose file cannot be written. -/
theorem io_failures_are_returned_witness :
    (emptyFS.files authPath = none ∧
      NewJSONKeyring authPath emptyFS = (.ok ⟨authPath, some []⟩, emptyFS)) ∧
    ((osStat unreadableFS authPath).1 = none ∧
      (osReadFile unreadableFS authPath).1 = .error (.PathError .EACCES) ∧
      (NewJSONKeyring authPath unreadableFS).1 = .error (.PathError .EACCES)) ∧
    ((osStat (constFS (ascii "[]")) authPath).1 = none ∧
      (osReadFile (constFS (ascii "[]")) authPath).1 = .ok (ascii "[]") ∧
      Unmarshal (ascii "[]") (some []) = .error .UnmarshalTypeError ∧
      (NewJSONKeyring authPath (constFS (ascii "[]"))).1 =
        .error (.UnmarshalError .UnmarshalTypeError)) ∧
    (MarshalIndent (JSONKeyring.mk authPath (some [])).data = .ok (ascii "\x7b\x7d") ∧
      (osWriteFile fullDiskFS authPath (ascii "\x7b\x7d")).1 = some (.PathError .ENOSPC) ∧
      ((JSONKeyring.mk authPath (some [])).save fullDiskFS).1 = some (.PathError .ENOSPC)) ∧
    (((JSONKeyring.mk authPath (some [])).save emptyFS).1 = none ∧
      ∃ data, MarshalIndent (JSONKeyring.mk authPath (some [])).data = .ok data ∧
        (osWriteFile emptyFS authPath data).1 = none) :=
  ⟨⟨rfl,
    (io_failures_are_returned authPath emptyFS ⟨authPath, some []⟩ [] sampleItem
      (ascii "a")).1 rfl⟩,
   ⟨rfl, rfl,
    ((io_failures_are_returned authPath unreadableFS ⟨authPath, some []⟩ [] sampleItem
      (ascii "a")).2.1 rfl).1 _ rfl⟩,
   ⟨rfl, rfl, rfl,
    ((io_failures_are_returned authPath (constFS (ascii "[]")) ⟨authPath, some []⟩ []
      sampleItem (ascii "a")).2.1 rfl).2.1 _ _ rfl rfl⟩,
   ⟨rfl, rfl,
    (io_failures_are_returned authPath fullDiskFS ⟨authPath, some []⟩ [] sampleItem
      (ascii "a")).2.2.2.1 _ _ rfl rfl⟩,
   ⟨rfl,
    (io_failures_are_returned authPath emptyFS ⟨authPath, some []⟩ [] sampleItem
      (ascii "a")).2.2.2.2.1 rfl⟩⟩

/-! ## Results on the claims -/

/-- C1: the code at the failing input. On a backing file that holds ` null` and a line break,
`NewJSONKeyring` returns no error and a store whose map is nil, and on that store `Set(r)`
panics for every record `r`, so that no `Get` follows it. On every store whose map is
initialised the claim holds: `Set(r)` returns and `Get(r.Key)` then gives `r` itself with no
error. -/
theorem set_then_get_on_nil_map :
    (NewJSONKeyring authPath (constFS (ascii " null\n"))).1 = .ok ⟨authPath, none⟩ ∧
    (∀ (r : Item) (fs : FS), (JSONKeyring.mk authPath none).Set r fs = .panic) ∧
    (∀ (filePath : GoString) (es : GoMap) (r : Item) (fs : FS),
      ∃ k1 res, (JSONKeyring.mk filePath (some es)).Set r fs = .ret (k1, res) ∧
        k1.Get r.Key = (r, none)) := by
  refine ⟨rfl, fun _ _ => rfl, ?_⟩
  intro filePath es r fs
  obtain ⟨k1, res, h1, h2, _⟩ := set_then_get_returns_record filePath es r fs
  exact ⟨k1, res, h1, h2⟩

/-- C2, as stated, fails: on a path without a file, `Set` of a record whose label is the byte
0xFF succeeds and the store returns that record; a fresh store on the file just written returns
a record whose label is the three bytes of U+FFFD. -/
theorem invalid_utf8_is_not_preserved :
    (NewJSONKeyring authPath emptyFS).1 = .ok ⟨authPath, some []⟩ ∧
    ∃ k1 fs1, (JSONKeyring.mk authPath (some [])).Set latin1Item emptyFS = .ret (k1, none, fs1) ∧
      k1.Get (ascii "a") = (latin1Item, none) ∧
      ∃ k2, (NewJSONKeyring authPath fs1).1 = .ok k2 ∧
        k2.Get (ascii "a") = (⟨ascii "a", none, [0xEF, 0xBF, 0xBD], []⟩, none) ∧
        k2.Get (ascii "a") ≠ k1.Get (ascii "a") :=
  ⟨rfl, _, _, rfl, rfl, _, rfl, rfl, by decide⟩

/-- C2, amended: after one or more `Set` calls on a store that all returned no error, if every
key and every string field of the mapping is valid UTF-8 (the byte payloads are arbitrary), a
fresh store constructed by `NewJSONKeyring` on the same path, on a file system that holds the
file as the last `Set` left it and lets it be inspected and read, has the same mapping: `Get`
returns the same record, or not-found, for every key. -/
theorem persistence_round_trip (k0 : JSONKeyring) (fs0 : FS) (item : Item) (items : List Item)
    (kN : JSONKeyring) (fsN fs : FS)
    (hsets : setAll (item :: items) k0 fs0 = some (kN, fsN))
    (hvalid : MapValid kN.data)
    (hfile : fs.files k0.filePath = fsN.files k0.filePath)
    (hstat : fs.statFault k0.filePath = none) (hread : fs.readFault k0.filePath = none) :
    ∃ k1, NewJSONKeyring k0.filePath fs = (.ok k1, fs) ∧ k1.filePath = kN.filePath ∧
      k1.data.isSome = kN.data.isSome ∧ ∀ key, k1.Get key = kN.Get key := by
  obtain ⟨hpath, doc, hdoc, hfs⟩ := setAll_success items item k0 fs0 kN fsN hsets
  obtain ⟨doc1, m1, hdoc1, hum, hsome, hlook⟩ := Unmarshal_MarshalIndent kN.data hvalid
  rw [hdoc] at hdoc1
  cases hdoc1
  rw [hpath] at hfs
  have hfile1 : fs.files k0.filePath = some doc := hfile.trans hfs
  have hnew := new_of_readable k0.filePath fs doc
    (by simp only [osStat, hstat, hfile1]) (by simp only [osReadFile, hread, hfile1])
  rw [hum] at hnew
  refine ⟨⟨k0.filePath, m1⟩, hnew, hpath.symm, hsome, ?_⟩
  intro key
  simp only [JSONKeyring.Get, hlook key]

/-- Witness of `persistence_round_trip`: `sampleItem` and then `otherItem` are set on an empty
store on a path without a file, and the store is opened again on the file system the two calls
left. -/
theorem persistence_round_trip_witness :
    setAll [sampleItem, otherItem] ⟨authPath, some []⟩ emptyFS =
        some (⟨authPath, some [(ascii "a", otherItem)]⟩,
          (((JSONKeyring.mk authPath (some [(ascii "a", otherItem)])).save
            ((JSONKeyring.mk authPath (some [(ascii "a", sampleItem)])).save emptyFS).2).2)) ∧
    MapValid (some [(ascii "a", otherItem)]) ∧
    ∃ k1, (NewJSONKeyring authPath
        (((JSONKeyring.mk authPath (some [(ascii "a", otherItem)])).save
          ((JSONKeyring.mk authPath (some [(ascii "a", sampleItem)])).save emptyFS).2).2)).1 =
        .ok k1 ∧
      ∀ key, k1.Get key = (JSONKeyring.mk authPath (some [(ascii "a", otherItem)])).Get key := by
  have hv : MapValid (some [(ascii "a", otherItem)]) := by
    intro k it h
    by_cases hk : k = ascii "a"
    · subst hk
      have h1 : mapLookup (some [(ascii "a", otherItem)]) (ascii "a") = some otherItem := by
        decide
      rw [h1] at h
      have : it = otherItem := (Option.some.inj h).symm
      subst this
      exact ⟨rfl, rfl, rfl, rfl⟩
    · have h1 : mapLookup (some [(ascii "a", otherItem)]) k = none := by
        have h2 : ¬ ascii "a" = k := fun h => hk h.symm
        simp [mapLookup, List.find?_cons, h2]
      rw [h1] at h
      exact absurd h (by simp)
  refine ⟨rfl, hv, ?_⟩
  obtain ⟨k1, h1, _, _, h2⟩ := persistence_round_trip ⟨authPath, some []⟩ emptyFS sampleItem
    [otherItem] ⟨authPath, some [(ascii "a", otherItem)]⟩ _ _ rfl hv rfl rfl rfl
  exact ⟨k1, congrArg Prod.fst h1, h2⟩

/-- C3: `Get(key)` returns the stored record and no error when the key is present, returns the
zero record and `os.ErrNotExist` exactly when it is absent, and returns no other error; and on a
store opened on a path without a file, after any sequence of `Set` and `Remove` calls none of
which sets a record with this key, `Get(key)` is not-found. -/
theorem get_contract (k : JSONKeyring) (key : GoString) :
    (∀ item, mapLookup k.data key = some item → k.Get key = (item, none)) ∧
    (mapLookup k.data key = none ↔ k.Get key = (Item.zero, some .ErrNotExist)) ∧
    ((k.Get key).2 = none ∨ (k.Get key).2 = some .ErrNotExist) ∧
    (∀ (filePath : GoString) (fs : FS) (ops : List Op), fs.files filePath = none →
      (∀ item, Op.set item ∈ ops → item.Key ≠ key) →
      ∃ k0 kN fsN, NewJSONKeyring filePath fs = (.ok k0, fs) ∧
        applyOps ops k0 fs = .ret (kN, fsN) ∧
        kN.Get key = (Item.zero, some .ErrNotExist)) := by
  refine ⟨?_, ?_, ?_, ?_⟩
  · intro item h
    simp only [JSONKeyring.Get, h]
  · constructor
    · intro h
      simp only [JSONKeyring.Get, h]
    · intro h
      cases hl : mapLookup k.data key with
      | none => rfl
      | some item =>
        simp only [JSONKeyring.Get, hl, Prod.mk.injEq] at h
        exact absurd h.2 (by simp)
  · cases hl : mapLookup k.data key with
    | none => right; simp only [JSONKeyring.Get, hl]
    | some item => left; simp only [JSONKeyring.Get, hl]
  · intro filePath fs ops hfile hops
    have hnew := new_of_missing filePath fs hfile
    refine ⟨⟨filePath, some []⟩, ?_⟩
    suffices hgen : ∀ (ops : List Op) (es : GoMap) (fs1 : FS),
        (∀ item, Op.set item ∈ ops → item.Key ≠ key) → mapLookup (some es) key = none →
        ∃ kN fsN, applyOps ops ⟨filePath, some es⟩ fs1 = .ret (kN, fsN) ∧
          kN.Get key = (Item.zero, some .ErrNotExist) by
      obtain ⟨kN, fsN, h1, h2⟩ := hgen ops [] fs hops rfl
      exact ⟨kN, fsN, hnew, h1, h2⟩
    intro ops
    induction ops with
    | nil =>
      intro es fs1 _ hl
      exact ⟨_, _, rfl, by simp only [JSONKeyring.Get, hl]⟩
    | cons op ops ih =>
      intro es fs1 hops hl
      have hrest : ∀ item, Op.set item ∈ ops → item.Key ≠ key :=
        fun item hm => hops item (List.mem_cons_of_mem _ hm)
      cases op with
      | set item =>
        have hk : key ≠ item.Key := fun h => hops item (List.mem_cons_self _ _) h.symm
        have hl1 : mapLookup (some (mapInsert es item.Key item)) key = none := by
          rw [mapLookup_insert_ne es item.Key key item hk]
          exact hl
        obtain ⟨kN, fsN, h1, h2⟩ := ih (mapInsert es item.Key item)
          ((JSONKeyring.mk filePath (some (mapInsert es item.Key item))).save fs1).2 hrest hl1
        exact ⟨kN, fsN, h1, h2⟩
      | remove key1 =>
        have hl1 : mapLookup (some (es.filter (fun e => e.1 ≠ key1))) key = none := by
          by_cases hk : key = key1
          · subst hk
            exact mapLookup_delete_self (some es) key
          · have := mapLookup_delete_ne (some es) key1 key hk
            simp only [mapDelete, Option.map_some'] at this
            rw [this]
            exact hl
        obtain ⟨kN, fsN, h1, h2⟩ := ih (es.filter (fun e => e.1 ≠ key1))
          ((JSONKeyring.mk filePath (some (es.filter (fun e => e.1 ≠ key1)))).save fs1).2
          hrest hl1
        exact ⟨kN, fsN, h1, h2⟩

/-- Witness of `get_contract`: a store holding `sampleItem` returns it, and a store opened on a
path without a file still reports the key `b` as not found after a `Set` of key `a` and a
`Remove`. -/
theorem get_contract_witness :
    (mapLookup (some [(ascii "a", sampleItem)]) (ascii "a") = some sampleItem ∧
      (JSONKeyring.mk authPath (some [(ascii "a", sampleItem)])).Get (ascii "a") =
        (sampleItem, none)) ∧
    (emptyFS.files authPath = none ∧
      ∃ k0 kN fsN, NewJSONKeyring authPath emptyFS = (.ok k0, emptyFS) ∧
        applyOps [.set sampleItem, .remove (ascii "a")] k0 emptyFS = .ret (kN, fsN) ∧
        kN.Get (ascii "b") = (Item.zero, some .ErrNotExist)) :=
  ⟨⟨by decide,
    (get_contract ⟨authPath, some [(ascii "a", sampleItem)]⟩ (ascii "a")).1 sampleItem
      (by decide)⟩,
   ⟨rfl,
    (get_contract ⟨authPath, none⟩ (ascii "b")).2.2.2 authPath emptyFS
      [.set sampleItem, .remove (ascii "a")] rfl
      (by
        intro item h
        simp only [List.mem_cons, Op.set.injEq, List.mem_singleton, reduceCtorEq, or_false,
          List.not_mem_nil] at h
        subst h
        decide)⟩⟩

/-- C4: `Remove(key)` on a store in which the key is absent leaves the store as it is
and returns what `save` returns, which is no error whenever the write of the document does not
fail; and after `Remove(key)` on any store, `Get(key)` returns not-found. -/
theorem remove_contract (k : JSONKeyring) (key : GoString) (fs : FS) :
    (mapLookup k.data key = none → k.Remove key fs = (k, k.save fs)) ∧
    (mapLookup k.data key = none →
      (∀ data, MarshalIndent k.data = .ok data → fs.writeFault k.filePath data = none) →
      (k.Remove key fs).2.1 = none) ∧
    (k.Remove key fs).1.Get key = (Item.zero, some .ErrNotExist) := by
  have habs : mapLookup k.data key = none → k.Remove key fs = (k, k.save fs) := by
    intro h
    simp only [JSONKeyring.Remove, mapDelete_absent k.data key h]
  refine ⟨habs, ?_, ?_⟩
  · intro h hw
    rw [habs h]
    obtain ⟨data, hd⟩ := MarshalIndent_ok k.data
    rw [save_eq_write k fs data hd, osWriteFile_no_fault fs k.filePath data (hw data hd)]
  · simp only [JSONKeyring.Remove, JSONKeyring.Get, mapLookup_delete_self]

/-- Witness of `remove_contract`: removing the absent key `b` from a store that holds
`sampleItem`, on a file system without faults. -/
theorem remove_contract_witness :
    mapLookup (JSONKeyring.mk authPath (some [(ascii "a", sampleItem)])).data (ascii "b") = none ∧
    (∀ data, MarshalIndent (JSONKeyring.mk authPath (some [(ascii "a", sampleItem)])).data =
        .ok data → emptyFS.writeFault authPath data = none) ∧
    ((JSONKeyring.mk authPath (some [(ascii "a", sampleItem)])).Remove (ascii "b") emptyFS).2.1 =
      none :=
  ⟨by decide, fun _ _ => rfl,
    (remove_contract ⟨authPath, some [(ascii "a", sampleItem)]⟩ (ascii "b") emptyFS).2.1
      (by decide) (fun _ _ => rfl)⟩

/-- C5: on a path at which nothing exists, `NewJSONKeyring` returns no error and a store with
the empty mapping, on which `Get` of every key is not-found, and hands back the file system as
it was. -/
theorem new_on_missing_path (filePath : GoString) (fs : FS) (h : fs.files filePath = none) :
    NewJSONKeyring filePath fs = (.ok ⟨filePath, some []⟩, fs) ∧
      ∀ key, (JSONKeyring.mk filePath (some [])).Get key = (Item.zero, some .ErrNotExist) :=
  ⟨new_of_missing filePath fs h, fun _ => rfl⟩

/-- Witness of `new_on_missing_path`: the file system without files. -/
theorem new_on_missing_path_witness :
    emptyFS.files authPath = none ∧
      NewJSONKeyring authPath emptyFS = (.ok ⟨authPath, some []⟩, emptyFS) :=
  ⟨rfl, (new_on_missing_path authPath emptyFS rfl).1⟩

/-- C6, as stated, fails: documents that are not of the stated shape are loaded. A record
object with none of the four members gives the zero record; a member of another name is
dropped; an entry `null` gives the zero record; and a member `null` leaves its field empty,
while an array of numbers and `null` is taken for the payload. -/
theorem incomplete_record_is_accepted :
    (NewJSONKeyring authPath (constFS (ascii "\x7b\"a\":\x7b\x7d\x7d"))).1 =
      .ok ⟨authPath, some [(ascii "a", Item.zero)]⟩ ∧
    (NewJSONKeyring authPath
        (constFS (ascii "\x7b\"a\":\x7b\"Key\":\"a\",\"Secret\":\"x\"\x7d\x7d"))).1 =
      .ok ⟨authPath, some [(ascii "a", ⟨ascii "a", none, [], []⟩)]⟩ ∧
    (NewJSONKeyring authPath (constFS (ascii "\x7b\"a\":null\x7d"))).1 =
      .ok ⟨authPath, some [(ascii "a", Item.zero)]⟩ ∧
    (NewJSONKeyring authPath
        (constFS (ascii "\x7b\"a\":\x7b\"Key\":null,\"Data\":[1,null,255]\x7d\x7d"))).1 =
      .ok ⟨authPath, some [(ascii "a", ⟨[], some [1, 0, 255], [], []⟩)]⟩ :=
  ⟨rfl, rfl, rfl, rfl⟩

/-- C6, amended: when the backing file can be inspected and read, `NewJSONKeyring` returns no
store and a syntax error if the content is not one JSON value, nested at most `maxNestingDepth`
deep, with white space only around it; it returns no store and a type error or a base64 error
if the content is such a value, is not `null`, and is not an object that fits the map: an
object each of whose entries is `null` or an object whose members, where the name selects a
field, hold a value that fits that field (`fitsMap`). Every object that fits the map is
loaded. A content that is rejected on one path and file system is rejected with the same error
on every other where it can be read. -/
theorem malformed_document_rejected (filePath : GoString) (fs : FS) (content : List Byte)
    (hstat : (osStat fs filePath).1 = none)
    (hread : (osReadFile fs filePath).1 = .ok content) :
    ((∀ v, ¬ DocumentOf content v) →
      NewJSONKeyring filePath fs = (.error (.UnmarshalError .SyntaxError), fs)) ∧
    (∀ v, DocumentOf content v → v.isNull = false → fitsMap v = false →
      ∃ err, (err = .UnmarshalTypeError ∨ err = .CorruptInputError) ∧
        NewJSONKeyring filePath fs = (.error (.UnmarshalError err), fs)) ∧
    (∀ v, DocumentOf content v → fitsMap v = true →
      ∃ es, NewJSONKeyring filePath fs = (.ok ⟨filePath, some es⟩, fs)) ∧
    (∀ (filePath1 : GoString) (fs1 : FS) (err : GoError),
      (osStat fs1 filePath1).1 = none → (osReadFile fs1 filePath1).1 = .ok content →
      (NewJSONKeyring filePath fs).1 = .error err →
      NewJSONKeyring filePath1 fs1 = (.error err, fs1)) := by
  have hnew := new_of_readable filePath fs content hstat hread
  obtain ⟨h1, h2, h3⟩ := Unmarshal_by_document content []
  refine ⟨?_, ?_, ?_, ?_⟩
  · intro h
    rw [hnew, h1 h]
  · intro v hv hn hf
    obtain ⟨err, he, hu⟩ := h2 v hv hn hf
    exact ⟨err, he, by rw [hnew, hu]⟩
  · intro v hv hf
    obtain ⟨es, hu⟩ := h3 v hv hf
    exact ⟨es, by rw [hnew, hu]⟩
  · intro filePath1 fs1 err hstat1 hread1 herr
    have hnew1 := new_of_readable filePath1 fs1 content hstat1 hread1
    rw [hnew] at herr
    rw [hnew1]
    cases hu : Unmarshal content (some []) with
    | error e =>
      simp only [hu, Except.error.injEq] at herr
      rw [← herr]
    | ok data => simp [hu] at herr

/-- Witness of `malformed_document_rejected`: an empty file; an object followed by other text;
an array; an entry that is a number; a record whose `Key` is a number; a record whose `Data` is
no base64; a record whose `Data` holds the number 256; loaded, a record with a member of
lower-case name and a member of another name; and the array again, read at another path. -/
theorem malformed_document_rejected_witness :
    ((osStat (constFS []) authPath).1 = none ∧
      (osReadFile (constFS []) authPath).1 = .ok [] ∧
      NewJSONKeyring authPath (constFS []) =
        (.error (.UnmarshalError .SyntaxError), constFS [])) ∧
    (NewJSONKeyring authPath (constFS (ascii "\x7b\x7d x")) =
      (.error (.UnmarshalError .SyntaxError), constFS (ascii "\x7b\x7d x"))) ∧
    (DocumentOf (ascii "[]") (.arr []) ∧
      ∃ err, (err = .UnmarshalTypeError ∨ err = .CorruptInputError) ∧
        NewJSONKeyring authPath (constFS (ascii "[]")) =
          (.error (.UnmarshalError err), constFS (ascii "[]"))) ∧
    (∃ err, (err = .UnmarshalTypeError ∨ err = .CorruptInputError) ∧
      NewJSONKeyring authPath (constFS (ascii "\x7b\"a\":1\x7d")) =
        (.error (.UnmarshalError err), constFS (ascii "\x7b\"a\":1\x7d"))) ∧
    (∃ err, (err = .UnmarshalTypeError ∨ err = .CorruptInputError) ∧
      NewJSONKeyring authPath (constFS (ascii "\x7b\"a\":\x7b\"Key\":1\x7d\x7d")) =
        (.error (.UnmarshalError err), constFS (ascii "\x7b\"a\":\x7b\"Key\":1\x7d\x7d"))) ∧
    (∃ err, (err = .UnmarshalTypeError ∨ err = .CorruptInputError) ∧
      NewJSONKeyring authPath (constFS (ascii "\x7b\"a\":\x7b\"Data\":\"!\"\x7d\x7d")) =
        (.error (.UnmarshalError err), constFS (ascii "\x7b\"a\":\x7b\"Data\":\"!\"\x7d\x7d"))) ∧
    (∃ err, (err = .UnmarshalTypeError ∨ err = .CorruptInputError) ∧
      NewJSONKeyring authPath (constFS (ascii "\x7b\"a\":\x7b\"Data\":[256]\x7d\x7d")) =
        (.error (.UnmarshalError err), constFS (ascii "\x7b\"a\":\x7b\"Data\":[256]\x7d\x7d"))) ∧
    (∃ es, NewJSONKeyring authPath
        (constFS (ascii "\x7b\"a\":\x7b\"key\":\"a\",\"Other\":[1]\x7d\x7d")) =
      (.ok ⟨authPath, some es⟩,
        constFS (ascii "\x7b\"a\":\x7b\"key\":\"a\",\"Other\":[1]\x7d\x7d"))) ∧
    (NewJSONKeyring (ascii "other.json") (constFS (ascii "[]")) =
      (.error (.UnmarshalError .UnmarshalTypeError), constFS (ascii "[]"))) :=
  ⟨⟨rfl, rfl,
    (malformed_document_rejected authPath (constFS []) [] rfl rfl).1
      (not_document_of_error [] .SyntaxError rfl)⟩,
   (malformed_document_rejected authPath (constFS (ascii "\x7b\x7d x")) (ascii "\x7b\x7d x")
      rfl rfl).1 (not_document_of_error _ .SyntaxError rfl),
   ⟨(parseDocument_iff _ _).mp rfl,
    (malformed_document_rejected authPath (constFS (ascii "[]")) (ascii "[]") rfl rfl).2.1
      (.arr []) ((parseDocument_iff _ _).mp rfl) rfl rfl⟩,
   (malformed_document_rejected authPath (constFS (ascii "\x7b\"a\":1\x7d"))
      (ascii "\x7b\"a\":1\x7d") rfl rfl).2.1
      (.obj [(ascii "a", .num (ascii "1"))]) ((parseDocument_iff _ _).mp rfl) rfl rfl,
   (malformed_document_rejected authPath (constFS (ascii "\x7b\"a\":\x7b\"Key\":1\x7d\x7d"))
      (ascii "\x7b\"a\":\x7b\"Key\":1\x7d\x7d") rfl rfl).2.1
      (.obj [(ascii "a", .obj [(ascii "Key", .num (ascii "1"))])])
      ((parseDocument_iff _ _).mp rfl) rfl rfl,
   (malformed_document_rejected authPath
      (constFS (ascii "\x7b\"a\":\x7b\"Data\":\"!\"\x7d\x7d"))
      (ascii "\x7b\"a\":\x7b\"Data\":\"!\"\x7d\x7d") rfl rfl).2.1
      (.obj [(ascii "a", .obj [(ascii "Data", .str (ascii "!"))])])
      ((parseDocument_iff _ _).mp rfl) rfl rfl,
   (malformed_document_rejected authPath
      (constFS (ascii "\x7b\"a\":\x7b\"Data\":[256]\x7d\x7d"))
      (ascii "\x7b\"a\":\x7b\"Data\":[256]\x7d\x7d") rfl rfl).2.1
      (.obj [(ascii "a", .obj [(ascii "Data", .arr [.num (ascii "256")])])])
      ((parseDocument_iff _ _).mp rfl) rfl rfl,
   (malformed_document_rejected authPath
      (constFS (ascii "\x7b\"a\":\x7b\"key\":\"a\",\"Other\":[1]\x7d\x7d"))
      (ascii "\x7b\"a\":\x7b\"key\":\"a\",\"Other\":[1]\x7d\x7d") rfl rfl).2.2.1
      (.obj [(ascii "a", .obj [(ascii "key", .str (ascii "a")),
        (ascii "Other", .arr [.num (ascii "1")])])])
      ((parseDocument_iff _ _).mp rfl) rfl,
   (malformed_document_rejected authPath (constFS (ascii "[]")) (ascii "[]") rfl rfl).2.2.2
      (ascii "other.json") (constFS (ascii "[]")) (.UnmarshalError .UnmarshalTypeError)
      rfl rfl rfl⟩

/-- C7: if the save inside `Set(r)` fails, `Set` returns that error and the store it leaves
holds `r` under `r.Key`; if the save inside `Remove(key)` fails, `Remove` returns that error and
the store it leaves does not hold `key`. -/
theorem no_rollback_on_save_failure (filePath : GoString) (es : GoMap) (r : Item)
    (k : JSONKeyring) (key : GoString) (fs : FS) :
    (∀ err, ((JSONKeyring.mk filePath (some (mapInsert es r.Key r))).save fs).1 = some err →
      ∃ k1 fs1, (JSONKeyring.mk filePath (some es)).Set r fs = .ret (k1, some err, fs1) ∧
        k1.Get r.Key = (r, none)) ∧
    (∀ err, ((JSONKeyring.mk k.filePath (mapDelete k.data key)).save fs).1 = some err →
      ∃ k1 fs1, k.Remove key fs = (k1, some err, fs1) ∧
        k1.Get key = (Item.zero, some .ErrNotExist)) := by
  constructor
  · intro err h
    refine ⟨⟨filePath, some (mapInsert es r.Key r)⟩,
      ((JSONKeyring.mk filePath (some (mapInsert es r.Key r))).save fs).2, ?_, ?_⟩
    · simp only [JSONKeyring.Set]
      rw [← h]
    · simp only [JSONKeyring.Get, mapLookup_insert_self]
  · intro err h
    refine ⟨⟨k.filePath, mapDelete k.data key⟩,
      ((JSONKeyring.mk k.filePath (mapDelete k.data key)).save fs).2, ?_, ?_⟩
    · simp only [JSONKeyring.Remove]
      rw [← h]
    · simp only [JSONKeyring.Get, mapLookup_delete_self]

/-- Witness of `no_rollback_on_save_failure`: on a full disk, `Set` of `sampleItem` over
`otherItem` and `Remove` of the key `a` both return the write error and keep the change. -/
theorem no_rollback_on_save_failure_witness :
    (((JSONKeyring.mk authPath
        (some (mapInsert [(ascii "a", otherItem)] sampleItem.Key sampleItem))).save
          fullDiskFS).1 = some (.PathError .ENOSPC) ∧
      ∃ k1 fs1, (JSONKeyring.mk authPath (some [(ascii "a", otherItem)])).Set sampleItem
          fullDiskFS = .ret (k1, some (.PathError .ENOSPC), fs1) ∧
        k1.Get sampleItem.Key = (sampleItem, none)) ∧
    (((JSONKeyring.mk authPath
        (mapDelete (some [(ascii "a", otherItem)]) (ascii "a"))).save fullDiskFS).1 =
          some (.PathError .ENOSPC) ∧
      ∃ k1 fs1, (JSONKeyring.mk authPath (some [(ascii "a", otherItem)])).Remove (ascii "a")
          fullDiskFS = (k1, some (.PathError .ENOSPC), fs1) ∧
        k1.Get (ascii "a") = (Item.zero, some .ErrNotExist)) :=
  ⟨⟨rfl, (no_rollback_on_save_failure authPath [(ascii "a", otherItem)] sampleItem
      ⟨authPath, some [(ascii "a", otherItem)]⟩ (ascii "a") fullDiskFS).1 _ rfl⟩,
   ⟨rfl, (no_rollback_on_save_failure authPath [(ascii "a", otherItem)] sampleItem
      ⟨authPath, some [(ascii "a", otherItem)]⟩ (ascii "a") fullDiskFS).2 _ rfl⟩⟩

/-- C8: the code at the failing input. When `os.Stat` on the backing file is refused for lack
of permission, `NewJSONKeyring` returns no error and the empty store, whatever the file holds.
On a file that holds a record, which is loaded when `os.Stat` succeeds, the store returned
after the refused `os.Stat` does not hold the record. -/
theorem stat_failure_is_not_returned :
    (∀ content : List Byte,
      (osStat (statDeniedFS content) authPath).1 = some (.PathError .EACCES) ∧
      NewJSONKeyring authPath (statDeniedFS content) =
        (.ok ⟨authPath, some []⟩, statDeniedFS content)) ∧
    (NewJSONKeyring authPath (constFS sampleDocument)).1 =
      .ok ⟨authPath, some [(ascii "a", sampleItem)]⟩ ∧
    (NewJSONKeyring authPath (statDeniedFS sampleDocument)).1 = .ok ⟨authPath, some []⟩ ∧
    (JSONKeyring.mk authPath (some [])).Get (ascii "a") = (Item.zero, some .ErrNotExist) :=
  ⟨fun _ => ⟨rfl, rfl⟩, rfl, rfl, rfl⟩

/-- C10: the code at the failing input. On a backing file whose whole content is `null`,
`NewJSONKeyring` returns a store with the nil map and no error; `Set` on that store panics, while
`Get` reports not-found. -/
theorem set_after_null_document_panics :
    (NewJSONKeyring authPath (constFS (ascii "null"))).1 = .ok ⟨authPath, none⟩ ∧
    (JSONKeyring.mk authPath none).Set sampleItem (constFS (ascii "null")) = .panic ∧
    (JSONKeyring.mk authPath none).Get (ascii "a") = (Item.zero, some .ErrNotExist) :=
  ⟨rfl, rfl, rfl⟩

end keychain
